import Mathlib

/-!
# Oblivious bucket sort: a shallow embedding and its verification

The definitions below follow `oblivious_sort.h`, `oblivious_sort.cpp` and
`distributed_bitonic_sort.cpp` function by function.

Conventions of the embedding

* `int` values that carry data (`sortKey`, `routingKey`, `value`, `key`) are `Int`;
  the only bit operations applied to them are `^` (modelled by `Int.xor`, the XOR of the
  two's complement representations), `>>` (`Int.shiftRight`) and `& 1` (`% 2`).
* sizes, levels, bucket indices and loop counters are `Nat`.
* `std::vector` is `List`; a `for` loop over an index range is a recursion over the
  number of remaining iterations.
* a member function that mutates `UntrustedMemory` takes the memory and returns the new
  one; a function that may `throw` returns an `Except` next to the memory reached at the
  moment of the throw.
* the random generator is a parameter: `rng i` is the raw value the generator delivers for
  the `i`-th routing key, and `shuffle i l` is the arrangement `std::shuffle` leaves the
  reals of final bucket `i` in.
-/

namespace ObliviousSort

/-! ## Data model (`oblivious_sort.h`) -/

/-- One row to be sorted, its routing key and the dummy flag (`struct Element`). -/
structure Element where
  sortKey : Int
  routingKey : Int
  rowData : String
  is_dummy : Bool
deriving DecidableEq, Repr

/-- The two kinds of access `UntrustedMemory` logs. -/
inductive Op where
  | read
  | write
deriving DecidableEq, Repr

/-- One line of `access_log`. The source formats
`"Read bucket at level <level>, index <index>: "` (resp. `"Write bucket ..."`) followed by
one word per element of the bucket: `dummy` for a dummy, the decimal `sortKey` otherwise.
The record keeps exactly the data that line is built from; `shown` has one entry per
element (`none` for `dummy`). -/
structure LogEntry where
  op : Op
  level : Nat
  index : Nat
  shown : List (Option Int)
deriving DecidableEq, Repr

/-- The untrusted storage: `storage` is the `std::map` from `(level, bucketIndex)` to a
bucket, as an association list with at most one entry per key; `access_log` is the log. -/
structure UntrustedMemory where
  storage : List ((Nat × Nat) × List Element)
  access_log : List LogEntry
deriving DecidableEq, Repr

/-- The exceptions the enclave throws: `std::invalid_argument` from
`computeBucketParameters` and `std::overflow_error` from `merge_split_bitonic`. -/
inductive Err where
  | invalid_argument
  | overflow_error
deriving DecidableEq, Repr

/-- The address part of a log line: operation, level, bucket index. -/
def LogEntry.addr (e : LogEntry) : Op × Nat × Nat := (e.op, e.level, e.index)

/-- The words printed for a bucket in a log line. -/
def shownOf (bucket : List Element) : List (Option Int) :=
  bucket.map fun elem => if elem.is_dummy then none else some elem.sortKey

/-! ## `UntrustedMemory` -/

/-- Assignment `storage[key] = bucket` of a `std::map`: the entry for `key` is replaced,
or created when there is none. -/
def storageSet (storage : List ((Nat × Nat) × List Element)) (key : Nat × Nat)
    (bucket : List Element) : List ((Nat × Nat) × List Element) :=
  (key, bucket) :: storage.filter fun p => !(p.1 == key)

/-- Embeds `UntrustedMemory::read_bucket`: logs the bucket found at the address (nothing when the
address is absent) and returns `storage[key]`; `operator[]` on an absent key creates an
empty bucket there and returns it. -/
def UntrustedMemory.read_bucket (m : UntrustedMemory) (level bucket_index : Nat) :
    List Element × UntrustedMemory :=
  match m.storage.lookup (level, bucket_index) with
  | some bucket =>
      (bucket,
        { storage := m.storage
          access_log := m.access_log ++ [⟨Op.read, level, bucket_index, shownOf bucket⟩] })
  | none =>
      ([],
        { storage := storageSet m.storage (level, bucket_index) []
          access_log := m.access_log ++ [⟨Op.read, level, bucket_index, []⟩] })

/-- Embeds `UntrustedMemory::write_bucket`. -/
def UntrustedMemory.write_bucket (m : UntrustedMemory) (level bucket_index : Nat)
    (bucket : List Element) : UntrustedMemory :=
  { storage := storageSet m.storage (level, bucket_index) bucket
    access_log := m.access_log ++ [⟨Op.write, level, bucket_index, shownOf bucket⟩] }

/-- Embeds `UntrustedMemory::get_access_log`. -/
def UntrustedMemory.get_access_log (m : UntrustedMemory) : List LogEntry := m.access_log

/-! ## Simulated encryption -/

/-- Embeds `Enclave::encryption_key = 0xdeadbeef` stored in an `int`: the 32-bit pattern
`0xdeadbeef` read as a signed value. -/
def Enclave.encryption_key : Int := 0xdeadbeef - 2 ^ 32

/-- Embeds `Enclave::encryptBucket`: XOR of `sortKey` and `routingKey` of every real element. -/
def Enclave.encryptBucket (bucket : List Element) : List Element :=
  bucket.map fun elem =>
    if !elem.is_dummy then
      { elem with
        sortKey := Int.xor elem.sortKey Enclave.encryption_key
        routingKey := Int.xor elem.routingKey Enclave.encryption_key }
    else elem

/-- Embeds `Enclave::decryptBucket`: the same XOR. -/
def Enclave.decryptBucket (bucket : List Element) : List Element :=
  bucket.map fun elem =>
    if !elem.is_dummy then
      { elem with
        sortKey := Int.xor elem.sortKey Enclave.encryption_key
        routingKey := Int.xor elem.routingKey Enclave.encryption_key }
    else elem

/-! ## Bucket parameters -/

/-- The loop `while (B < B_required) B *= 2;` run for at most `fuel` iterations.
`computeBucketParameters` starts it at `B = 1` with `fuel = B_required`, which is more
than the loop can use (`doubleUntil_ge` shows it leaves through its condition). -/
def doubleUntil : Nat → Nat → Nat → Nat
  | 0, B, _ => B
  | fuel + 1, B, B_required =>
      if B < B_required then doubleUntil fuel (B * 2) B_required else B

/-- Embeds `Enclave::computeBucketParameters` in exact arithmetic: it is the function of
the source on the arguments for which none of its `int` operations overflows, that is
`B_required <= 2^30` and `B * (Z / 2) < 2^31` (`computeBucketParameters32_exact`);
`Enclave.computeBucketParameters32` keeps the 32-bit arithmetic for the others.
`ceil((2.0 * n) / Z)` is the integer ceiling of `2n / Z` (for `int` arguments the double
quotient is never rounded onto an integer it does not equal), and `log2` of the power of
two `B` is exact. -/
def Enclave.computeBucketParameters (n Z : Nat) : Except Err (Nat × Nat) :=
  let B_required := (2 * n + Z - 1) / Z
  let B := doubleUntil B_required 1 B_required
  let L := Nat.log2 B
  if n > B * (Z / 2) then Except.error Err.invalid_argument else Except.ok (B, L)

/-! ## Initialisation -/

/-- The dummy element `initializeBuckets` pads with. -/
def dummyElement : Element :=
  { sortKey := 0, routingKey := 0, rowData := "DUMMY", is_dummy := true }

/-- Embeds `std::uniform_int_distribution<int>(0, B - 1)` applied to the raw generator value
`raw`: some value of `[0, B - 1]`, and every such value for a suitable `raw`. -/
def routing_dist (B raw : Nat) : Int := ((raw % B : Nat) : Int)

/-- The first loop of `initializeBuckets`: one real element per input row, the `i`-th
row receiving the `i`-th routing key drawn. -/
def buildElements (rng : Nat → Nat) (B : Nat) : Nat → List (Int × String) → List Element
  | _, [] => []
  | i, row :: rest =>
      { sortKey := row.1, routingKey := routing_dist B (rng i), rowData := row.2,
        is_dummy := false } :: buildElements rng B (i + 1) rest

/-- The group `groups[i]` of `initializeBuckets`: `elements[start, end)`. -/
def groupOf (elements : List Element) (n group_size i : Nat) : List Element :=
  let start := i * group_size
  let stop := min (start + group_size) n
  if start < n then (elements.take stop).drop start else []

/-- The loop `while (bucket.size() < Z) bucket.push_back(dummy);`. -/
def padBucket (Z : Nat) (bucket : List Element) : List Element :=
  bucket ++ List.replicate (Z - bucket.length) dummyElement

/-- The last loop of `initializeBuckets`: pad, encrypt and write `groups[i]`, `groups[i+1]`,
... at level 0. -/
def writeGroups (Z : Nat) : List (List Element) → Nat → UntrustedMemory → UntrustedMemory
  | [], _, m => m
  | g :: gs, i, m =>
      writeGroups Z gs (i + 1) (m.write_bucket 0 i (Enclave.encryptBucket (padBucket Z g)))

/-- Embeds `Enclave::initializeBuckets`. -/
def Enclave.initializeBuckets (rng : Nat → Nat) (inputRows : List (Int × String))
    (B Z : Nat) (m : UntrustedMemory) : UntrustedMemory :=
  let n := inputRows.length
  let elements := buildElements rng B 0 inputRows
  let group_size := (n + B - 1) / B
  let groups := (List.range B).map (groupOf elements n group_size)
  writeGroups Z groups 0 m

/-! ## The bitonic primitive

`bitonicMerge` and `bitonicSort` are written for any element type and key, because the
two drivers use them with different element layouts; `Enclave.bitonicMerge` and
`Enclave.bitonicSort` are the instances of `oblivious_sort.cpp` (key `routingKey`). -/

/-- The body of the loop of `bitonicMerge` for positions `i` and `j = i + k`: the two
elements are exchanged when they are out of order for the direction. Positions outside
the vector are not touched (the source never passes any). -/
def compareSwap {α : Type} (key : α → Int) (ascending : Bool) (a : List α) (i j : Nat) :
    List α :=
  match a[i]?, a[j]? with
  | some x, some y =>
      if (ascending && decide (key x > key y)) || (!ascending && decide (key x < key y)) then
        (a.set i y).set j x
      else a
  | _, _ => a

/-- The loop `for (i = low; i < low + k; i++)` of `bitonicMerge`, with `c` iterations
left and the loop variable at `i`. -/
def mergeLoop {α : Type} (key : α → Int) (ascending : Bool) (k : Nat) :
    Nat → Nat → List α → List α
  | 0, _, a => a
  | c + 1, i, a => mergeLoop key ascending k c (i + 1) (compareSwap key ascending a i (i + k))

/-- The recursion of `bitonicMerge`, `fuel` bounding its depth. -/
def bitonicMergeAux {α : Type} (key : α → Int) :
    Nat → List α → Nat → Nat → Bool → List α
  | 0, a, _, _, _ => a
  | fuel + 1, a, low, cnt, ascending =>
      if cnt > 1 then
        let k := cnt / 2
        let a1 := mergeLoop key ascending k k low a
        let a2 := bitonicMergeAux key fuel a1 low k ascending
        bitonicMergeAux key fuel a2 (low + k) k ascending
      else a

/-- The function `bitonicMerge(a, low, cnt, ascending)`: `cnt` halves at every call, so
depth `cnt` is never reached. -/
def bitonicMerge {α : Type} (key : α → Int) (a : List α) (low cnt : Nat)
    (ascending : Bool) : List α :=
  bitonicMergeAux key cnt a low cnt ascending

/-- The recursion of `bitonicSort`, `fuel` bounding its depth. -/
def bitonicSortAux {α : Type} (key : α → Int) :
    Nat → List α → Nat → Nat → Bool → List α
  | 0, a, _, _, _ => a
  | fuel + 1, a, low, cnt, ascending =>
      if cnt > 1 then
        let k := cnt / 2
        let a1 := bitonicSortAux key fuel a low k true
        let a2 := bitonicSortAux key fuel a1 (low + k) k false
        bitonicMerge key a2 low cnt ascending
      else a

/-- The function `bitonicSort(a, low, cnt, ascending)`. -/
def bitonicSort {α : Type} (key : α → Int) (a : List α) (low cnt : Nat)
    (ascending : Bool) : List α :=
  bitonicSortAux key cnt a low cnt ascending

/-- Embeds `Enclave::bitonicMerge`. -/
def Enclave.bitonicMerge (a : List Element) (low cnt : Nat) (ascending : Bool) :
    List Element :=
  ObliviousSort.bitonicMerge Element.routingKey a low cnt ascending

/-- Embeds `Enclave::bitonicSort`. -/
def Enclave.bitonicSort (a : List Element) (low cnt : Nat) (ascending : Bool) :
    List Element :=
  ObliviousSort.bitonicSort Element.routingKey a low cnt ascending

/-! ### The comparison schedule

The same three functions, additionally recording every pair of positions `(i, i + k)`
whose keys the loop of `bitonicMerge` compares, in order. -/

/-- The loop of `bitonicMerge`, returning the vector and the pairs it compared. -/
def mergeLoopLog {α : Type} (key : α → Int) (ascending : Bool) (k : Nat) :
    Nat → Nat → List α → List α × List (Nat × Nat)
  | 0, _, a => (a, [])
  | c + 1, i, a =>
      let r := mergeLoopLog key ascending k c (i + 1) (compareSwap key ascending a i (i + k))
      (r.1, (i, i + k) :: r.2)

/-- The recursion of `bitonicMerge` with its comparisons. -/
def bitonicMergeLogAux {α : Type} (key : α → Int) :
    Nat → List α → Nat → Nat → Bool → List α × List (Nat × Nat)
  | 0, a, _, _, _ => (a, [])
  | fuel + 1, a, low, cnt, ascending =>
      if cnt > 1 then
        let k := cnt / 2
        let r1 := mergeLoopLog key ascending k k low a
        let r2 := bitonicMergeLogAux key fuel r1.1 low k ascending
        let r3 := bitonicMergeLogAux key fuel r2.1 (low + k) k ascending
        (r3.1, r1.2 ++ r2.2 ++ r3.2)
      else (a, [])

/-- The recursion of `bitonicSort` with its comparisons. -/
def bitonicSortLogAux {α : Type} (key : α → Int) :
    Nat → List α → Nat → Nat → Bool → List α × List (Nat × Nat)
  | 0, a, _, _, _ => (a, [])
  | fuel + 1, a, low, cnt, ascending =>
      if cnt > 1 then
        let k := cnt / 2
        let r1 := bitonicSortLogAux key fuel a low k true
        let r2 := bitonicSortLogAux key fuel r1.1 (low + k) k false
        let r3 := bitonicMergeLogAux key cnt r2.1 low cnt ascending
        (r3.1, r1.2 ++ r2.2 ++ r3.2)
      else (a, [])

/-- Embeds `Enclave::bitonicSort` together with the list of position pairs it compares. -/
def Enclave.bitonicSortLog (a : List Element) (low cnt : Nat) (ascending : Bool) :
    List Element × List (Nat × Nat) :=
  bitonicSortLogAux Element.routingKey cnt a low cnt ascending

/-! ## Merge-split -/

/-- The expression `(routingKey >> bit_index) & 1`. -/
def sideBit (routingKey : Int) (bit_index : Nat) : Int := (routingKey >>> bit_index) % 2

/-- The counting loop of `merge_split_bitonic`: `(count0, count1)`. -/
def countSides (bit_index : Nat) : List Element → Nat × Nat
  | [] => (0, 0)
  | e :: es =>
      let c := countSides bit_index es
      if !e.is_dummy then
        if sideBit e.routingKey bit_index = 0 then (c.1 + 1, c.2) else (c.1, c.2 + 1)
      else c

/-- The loop of `merge_split_bitonic` that re-assigns `routingKey`, with the running
value of `assigned_dummies0`. -/
def reassignKeys (bit_index needed_dummies0 : Nat) : Nat → List Element → List Element
  | _, [] => []
  | assigned_dummies0, e :: es =>
      if e.is_dummy then
        if assigned_dummies0 < needed_dummies0 then
          { e with routingKey := 1 } ::
            reassignKeys bit_index needed_dummies0 (assigned_dummies0 + 1) es
        else
          { e with routingKey := 3 } ::
            reassignKeys bit_index needed_dummies0 assigned_dummies0 es
      else
        { e with routingKey := sideBit e.routingKey bit_index * 2 } ::
          reassignKeys bit_index needed_dummies0 assigned_dummies0 es

/-- Embeds `Enclave::merge_split_bitonic`. The callers pass `level < total_levels`, so that
`bit_index = total_levels - 1 - level` is not negative. -/
def Enclave.merge_split_bitonic (bucket1 bucket2 : List Element)
    (level total_levels Z : Nat) : Except Err (List Element × List Element) :=
  let bit_index := total_levels - 1 - level
  let combined := bucket1 ++ bucket2
  let counts := countSides bit_index combined
  if counts.1 > Z ∨ counts.2 > Z then Except.error Err.overflow_error
  else
    let needed_dummies0 := Z - counts.1
    let rekeyed := reassignKeys bit_index needed_dummies0 0 combined
    let sorted := Enclave.bitonicSort rekeyed 0 rekeyed.length true
    Except.ok (sorted.take Z, sorted.drop Z)

/-! ## Butterfly, extraction, final sort -/

/-- The body of the inner loop of `performButterflyNetwork` for the pair `(i, i + 1)`. -/
def butterflyPair (L Z level i : Nat) (m : UntrustedMemory) :
    Except Err Unit × UntrustedMemory :=
  let r1 := m.read_bucket level i
  let r2 := r1.2.read_bucket level (i + 1)
  match Enclave.merge_split_bitonic (Enclave.decryptBucket r1.1) (Enclave.decryptBucket r2.1)
      level L Z with
  | Except.error e => (Except.error e, r2.2)
  | Except.ok out =>
      (Except.ok (),
        (r2.2.write_bucket (level + 1) i (Enclave.encryptBucket out.1)).write_bucket
          (level + 1) (i + 1) (Enclave.encryptBucket out.2))

/-- The loop `for (i = ...; i < B; i += 2)` with `c` iterations left. -/
def butterflyLevel (L Z level : Nat) : Nat → Nat → UntrustedMemory →
    Except Err Unit × UntrustedMemory
  | 0, _, m => (Except.ok (), m)
  | c + 1, i, m =>
      match butterflyPair L Z level i m with
      | (Except.error e, m1) => (Except.error e, m1)
      | (Except.ok _, m1) => butterflyLevel L Z level c (i + 2) m1

/-- The loop `for (level = ...; level < L; level++)` with `c` iterations left; the inner
loop starts at `i = 0` and runs `ceil(B / 2)` times. -/
def butterflyLevels (B L Z : Nat) : Nat → Nat → UntrustedMemory →
    Except Err Unit × UntrustedMemory
  | 0, _, m => (Except.ok (), m)
  | c + 1, level, m =>
      match butterflyLevel L Z level ((B + 1) / 2) 0 m with
      | (Except.error e, m1) => (Except.error e, m1)
      | (Except.ok _, m1) => butterflyLevels B L Z c (level + 1) m1

/-- Embeds `Enclave::performButterflyNetwork`. -/
def Enclave.performButterflyNetwork (B L Z : Nat) (m : UntrustedMemory) :
    Except Err Unit × UntrustedMemory :=
  butterflyLevels B L Z L 0 m

/-- The loop of `extractFinalElements` with `c` iterations left, bucket index `i` and the
elements collected so far. -/
def extractLoop (shuffle : Nat → List Element → List Element) (L : Nat) :
    Nat → Nat → List Element → UntrustedMemory → List Element × UntrustedMemory
  | 0, _, final_elements, m => (final_elements, m)
  | c + 1, i, final_elements, m =>
      let r := m.read_bucket L i
      let real_elems := (Enclave.decryptBucket r.1).filter fun e => !e.is_dummy
      extractLoop shuffle L c (i + 1) (final_elements ++ shuffle i real_elems) r.2

/-- Embeds `Enclave::extractFinalElements`. -/
def Enclave.extractFinalElements (shuffle : Nat → List Element → List Element)
    (B L : Nat) (m : UntrustedMemory) : List Element × UntrustedMemory :=
  extractLoop shuffle L B 0 [] m

/-- The order `std::sort` establishes in `finalSort`: `b` is not before `a` whenever
`a.sortKey < b.sortKey`. -/
def sortKeyLE (a b : Element) : Prop := a.sortKey ≤ b.sortKey

instance sortKeyLE_decidable : DecidableRel sortKeyLE :=
  fun a b => inferInstanceAs (Decidable (a.sortKey ≤ b.sortKey))

instance sortKeyLE_total : IsTotal Element sortKeyLE :=
  ⟨fun a b => Int.le_total a.sortKey b.sortKey⟩

instance sortKeyLE_trans : IsTrans Element sortKeyLE :=
  ⟨fun _ _ _ hab hbc => Int.le_trans hab hbc⟩

/-- The vector `sorted_elems` of `finalSort` after `std::sort`. The standard leaves the
order of elements with equal keys open; the model takes the one that keeps them in
their order of arrival. -/
def sortedElems (final_elements : List Element) : List Element :=
  final_elements.insertionSort sortKeyLE

/-- Embeds `Enclave::finalSort`. -/
def Enclave.finalSort (final_elements : List Element) : List String :=
  (sortedElems final_elements).map Element.rowData

/-- Embeds `Enclave::oblivious_sort`, from the memory `m` the enclave points to. -/
def Enclave.oblivious_sort (rng : Nat → Nat) (shuffle : Nat → List Element → List Element)
    (inputRows : List (Int × String)) (bucket_size : Nat) (m : UntrustedMemory) :
    Except Err (List String) × UntrustedMemory :=
  let n := inputRows.length
  match Enclave.computeBucketParameters n bucket_size with
  | Except.error e => (Except.error e, m)
  | Except.ok (B, L) =>
      let m1 := Enclave.initializeBuckets rng inputRows B bucket_size m
      match Enclave.performButterflyNetwork B L bucket_size m1 with
      | (Except.error e, m2) => (Except.error e, m2)
      | (Except.ok _, m2) =>
          let r := Enclave.extractFinalElements shuffle B L m2
          (Except.ok (Enclave.finalSort r.1), r.2)

/-! ## The distributed driver (`distributed_bitonic_sort.cpp`) -/

/-- Modelled from the spec: the declaration of `Element` that
`distributed_bitonic_sort.cpp` is written against is missing from `src/`, whose header
declares the later layout (`sortKey`, `routingKey`, `rowData`, `is_dummy`). The fields
are the three the driver reads and writes: `value`, `key` and `is_dummy`. For this layout
`bitonicSort` is the bitonic primitive of the specification ordering by the integer
`key`, which the driver sets equal to `value` "for local sort". -/
structure DElement where
  value : Int
  key : Int
  is_dummy : Bool
deriving DecidableEq, Repr

/-- Embeds `nextPowerOfTwo` of the driver: `power = 1; while (power < n) power *= 2;`. -/
def nextPowerOfTwo (n : Nat) : Nat := doubleUntil n 1 n

/-- The loop of `std::merge` over the two input ranges, `fuel` bounding the number of
elements still to be emitted: the head of the second range is taken exactly when it
compares less than the head of the first. -/
def stdMerge {α : Type} (comp : α → α → Bool) : Nat → List α → List α → List α
  | 0, a, b => a ++ b
  | _ + 1, [], b => b
  | _ + 1, a, [] => a
  | fuel + 1, x :: a, y :: b =>
      if comp y x then y :: stdMerge comp fuel (x :: a) b
      else x :: stdMerge comp fuel a (y :: b)

/-- Embeds `distributedMerge`: merge by `value`, then split at `half = total / 2`. -/
def distributedMerge (a b : List DElement) : List DElement × List DElement :=
  let merged := stdMerge (fun e1 e2 => decide (e1.value < e2.value)) (a.length + b.length) a b
  let half := merged.length / 2
  (merged.take half, merged.drop half)

/-- The partition loop of `main`: shard `i` receives the next
`rowsPerEnclave + (i < remainder ? 1 : 0)` input values. -/
def partitionLoop (rowsPerEnclave remainder : Nat) : Nat → Nat → List Int → List (List Int)
  | 0, _, _ => []
  | c + 1, i, inputValues =>
      let count := rowsPerEnclave + (if i < remainder then 1 else 0)
      inputValues.take count ::
        partitionLoop rowsPerEnclave remainder c (i + 1) (inputValues.drop count)

/-- The dummy of the driver. -/
def dummyDElement : DElement := { value := 0, key := 0, is_dummy := true }

/-- One shard before its local sort: the partition as elements (`key = value`), padded
with dummies to the next power of two. -/
def shardOf (part : List Int) : List DElement :=
  let data := part.map fun val => ({ value := val, key := val, is_dummy := false } : DElement)
  data ++ List.replicate (nextPowerOfTwo data.length - data.length) dummyDElement

/-- The body of the innermost loop of the merge rounds for `idx1`, `idx2`. -/
def mergeShards (enclaveData : List (List DElement)) (idx1 idx2 : Nat) :
    List (List DElement) :=
  let mergedPair := distributedMerge (enclaveData.getD idx1 []) (enclaveData.getD idx2 [])
  (enclaveData.set idx1 mergedPair.1).set idx2 mergedPair.2

/-- The loop `for (j = ...; j < step; j++)` with `c` iterations left. -/
def roundInner (step i : Nat) : Nat → Nat → List (List DElement) → List (List DElement)
  | 0, _, d => d
  | c + 1, j, d => roundInner step i c (j + 1) (mergeShards d (i + j) (i + j + step))

/-- The loop `for (i = ...; i < numEnclaves; i += 2 * step)` with `c` iterations left. -/
def roundOuter (step : Nat) : Nat → Nat → List (List DElement) → List (List DElement)
  | 0, _, d => d
  | c + 1, i, d => roundOuter step c (i + 2 * step) (roundInner step i step 0 d)

/-- The loop `for (r = ...; r <= rounds; r++)` with `c` rounds left; round `r` runs its
middle loop from `i = 0` for `ceil(numEnclaves / (2 * step))` iterations. -/
def mergeRounds (numEnclaves : Nat) : Nat → Nat → List (List DElement) → List (List DElement)
  | 0, _, d => d
  | c + 1, r, d =>
      let step := 1 <<< (r - 1)
      mergeRounds numEnclaves c (r + 1)
        (roundOuter step ((numEnclaves + 2 * step - 1) / (2 * step)) 0 d)

/-- The shards after the local sorts of `main`, for `numEnclaves` shards: partition,
conversion and padding, then `bitonicSort(enclaveData[i], 0, size, true)` on every shard
(the threads do not share data, so their order does not matter). -/
def localSorted (numEnclaves : Nat) (inputValues : List Int) : List (List DElement) :=
  let totalRows := inputValues.length
  let rowsPerEnclave := totalRows / numEnclaves
  let remainder := totalRows % numEnclaves
  let partitions := partitionLoop rowsPerEnclave remainder numEnclaves 0 inputValues
  partitions.map fun part =>
    let data := shardOf part
    bitonicSort DElement.key data 0 data.length true

/-- The shards after the merge rounds of `main`. -/
def afterRounds (numEnclaves : Nat) (inputValues : List Int) : List (List DElement) :=
  mergeRounds numEnclaves (Nat.log2 numEnclaves) 1 (localSorted numEnclaves inputValues)

/-- The vector `globalSorted` of `main` as the values written to the output file: the
shards concatenated in index order, dummies removed. The driver fixes
`numEnclaves = 4`. -/
def distributedSort (numEnclaves : Nat) (inputValues : List Int) : List Int :=
  (((afterRounds numEnclaves inputValues).flatMap id).filter fun e => !e.is_dummy).map
    DElement.value

/-! ## Specification vocabulary -/

/-- The statement "`B` is the smallest power of two that is at least `x`". -/
def SmallestPowerOfTwoAtLeast (x B : Nat) : Prop :=
  (∃ k, B = 2 ^ k) ∧ x ≤ B ∧ ∀ k, x ≤ 2 ^ k → B ≤ 2 ^ k

/-- The sort key and payload of an element: what an input row consists of. -/
def Element.row (e : Element) : Int × String := (e.sortKey, e.rowData)

/-- The rows of the real elements of a bucket, in bucket order. -/
def realRows (bucket : List Element) : List (Int × String) :=
  (bucket.filter fun e => !e.is_dummy).map Element.row

/-- The addresses of the accesses of one pair of the butterfly. -/
def pairSchedule (level i : Nat) : List (Op × Nat × Nat) :=
  [(Op.read, level, i), (Op.read, level, i + 1),
    (Op.write, level + 1, i), (Op.write, level + 1, i + 1)]

/-- The addresses accessed by `c` consecutive pairs of one level, from pair `(i, i + 1)`. -/
def levelSchedule (level : Nat) : Nat → Nat → List (Op × Nat × Nat)
  | 0, _ => []
  | c + 1, i => pairSchedule level i ++ levelSchedule level c (i + 2)

/-- The addresses accessed by `c` consecutive levels of the butterfly over `B` buckets. -/
def butterflySchedule (B : Nat) : Nat → Nat → List (Op × Nat × Nat)
  | 0, _ => []
  | c + 1, level => levelSchedule level ((B + 1) / 2) 0 ++ butterflySchedule B c (level + 1)

/-- The addresses `(op, level, i), (op, level, i + 1), ...` of `c` accesses of one kind. -/
def rowSchedule (op : Op) (level : Nat) : Nat → Nat → List (Op × Nat × Nat)
  | 0, _ => []
  | c + 1, i => (op, level, i) :: rowSchedule op level c (i + 1)

/-- The access sequence of a sort of `n` rows with bucket size `Z`, computed from `n`
and `Z` alone: nothing when the parameters are rejected, otherwise the level-0 writes,
the butterfly and the reads of level `L`. -/
def accessSchedule (n Z : Nat) : List (Op × Nat × Nat) :=
  match Enclave.computeBucketParameters n Z with
  | Except.error _ => []
  | Except.ok (B, L) =>
      rowSchedule Op.write 0 B 0 ++ butterflySchedule B L 0 ++ rowSchedule Op.read L B 0

/-- The truth value a position shows under the test `g` (`false` outside the vector). -/
def viewAt {α : Type} (g : α → Bool) (a : List α) (p : Nat) : Bool :=
  match a[p]? with
  | some x => g x
  | none => false

/-- The threshold test matching a direction: "key above `t`" for ascending, "key below
`t`" for descending. Under it a compare-exchange is the pair (and, or). -/
def thr {α : Type} (key : α → Int) (asc : Bool) (t : Int) (x : α) : Bool :=
  if asc then decide (t < key x) else decide (key x < t)

/-- A 0-1 sequence `f 0, ..., f (n - 1)` that is bitonic: zeros, ones, zeros, or ones,
zeros, ones. -/
def Bitonic01 (f : Nat → Bool) (n : Nat) : Prop :=
  ∃ i j, (∀ p, p < n → f p = decide (i ≤ p ∧ p < j)) ∨
    (∀ p, p < n → f p = !decide (i ≤ p ∧ p < j))

/-- A 0-1 sequence `f 0, ..., f (n - 1)` that is sorted: zeros, then ones. -/
def Sorted01 (f : Nat → Bool) (n : Nat) : Prop :=
  ∃ i, ∀ p, p < n → f p = decide (i ≤ p)

/-- The positions `low, ..., low + cnt - 1` of `a` are in order for the direction: keys
nondecreasing when `asc`, nonincreasing otherwise. -/
def SegOrdered {α : Type} (key : α → Int) (asc : Bool) (a : List α) (low cnt : Nat) : Prop :=
  ∀ p q x y, p ≤ q → q < cnt → a[low + p]? = some x → a[low + q]? = some y →
    if asc then key x ≤ key y else key y ≤ key x

/-- The memory `m` holds, encrypted, the bucket `bs q` at every address `(level, q)` with
`lo <= q < hi`. -/
def HoldsLevel (m : UntrustedMemory) (level lo hi : Nat) (bs : Nat → List Element) : Prop :=
  ∀ q, lo ≤ q → q < hi → m.storage.lookup (level, q) = some (Enclave.encryptBucket (bs q))

/-- From `m` to `m1` the access log was extended, nothing else: the new lines have the
addresses `sched`, in order, and every new write line shows a bucket of `Z` elements. -/
def LogExtends (m m1 : UntrustedMemory) (sched : List (Op × Nat × Nat)) (Z : Nat) : Prop :=
  ∃ fresh, m1.access_log = m.access_log ++ fresh ∧ fresh.map LogEntry.addr = sched ∧
    ∀ e, e ∈ fresh → e.op = Op.write → e.shown.length = Z

/-! ## Vocabulary for the statements about the memory and about merge-split -/

/-- One access a caller issues to the untrusted memory. -/
inductive StoreOp where
  | read (level bucket_index : Nat)
  | write (level bucket_index : Nat) (bucket : List Element)
deriving DecidableEq, Repr

/-- The memory after the access: `read_bucket` or `write_bucket` is called on it. -/
def StoreOp.run (m : UntrustedMemory) : StoreOp → UntrustedMemory
  | StoreOp.read level bucket_index => (m.read_bucket level bucket_index).2
  | StoreOp.write level bucket_index bucket => m.write_bucket level bucket_index bucket

/-- The memory after a sequence of accesses, issued in list order. -/
def runOps (m : UntrustedMemory) (ops : List StoreOp) : UntrustedMemory :=
  ops.foldl StoreOp.run m

/-- The operation, level and bucket index of an access. -/
def StoreOp.addr : StoreOp → Op × Nat × Nat
  | StoreOp.read level bucket_index => (Op.read, level, bucket_index)
  | StoreOp.write level bucket_index _ => (Op.write, level, bucket_index)

/-- The access is a `write_bucket` to the address `(level, bucket_index)`. -/
def StoreOp.writesTo (level bucket_index : Nat) : StoreOp → Bool
  | StoreOp.read _ _ => false
  | StoreOp.write l i _ => l == level && i == bucket_index

/-- The real elements of `l` whose `routingKey` has bit `bit_index` (of its two's
complement representation) equal to `side`. -/
def sideReals (bit_index : Nat) (side : Bool) (l : List Element) : List Element :=
  l.filter fun e => !e.is_dummy && (Int.testBit e.routingKey bit_index == side)

/-- The number of real elements of `l` whose `routingKey` has bit `bit_index` equal to
`side`: `count0` for `side = false`, `count1` for `side = true`. -/
def sideCount (bit_index : Nat) (side : Bool) (l : List Element) : Nat :=
  (sideReals bit_index side l).length

/-- From `m` to `m1` the access log was extended, nothing else: the new lines have the
addresses `sched`, in order, and every new line, read or write, shows a bucket of `Z`
elements. -/
def LogShows (m m1 : UntrustedMemory) (sched : List (Op × Nat × Nat)) (Z : Nat) : Prop :=
  ∃ fresh, m1.access_log = m.access_log ++ fresh ∧ fresh.map LogEntry.addr = sched ∧
    ∀ e, e ∈ fresh → e.shown.length = Z

/-- Every read of the access sequence goes to an address that is in `written` or that an
earlier write of the sequence has written. -/
def ReadsCovered : List (Nat × Nat) → List (Op × Nat × Nat) → Bool
  | _, [] => true
  | written, (Op.read, k) :: rest => decide (k ∈ written) && ReadsCovered written rest
  | written, (Op.write, k) :: rest => ReadsCovered (k :: written) rest

/-! ## `computeBucketParameters` on 32-bit `int` -/

/-- The value a 32-bit `int` holds after an arithmetic result `x`, by two's complement
wrap-around: the number of `[-2^31, 2^31)` congruent to `x` modulo `2^32`. -/
def wrapInt32 (x : Int) : Int := (x + 2147483648) % 4294967296 - 2147483648

/-- The loop `while (B < B_required) B *= 2;` on 32-bit `int`, run for at most `fuel`
iterations: `none` when it is still running after them. -/
def doubleUntil32 : Nat → Int → Int → Option Int
  | 0, _, _ => none
  | fuel + 1, B, B_required =>
      if B < B_required then doubleUntil32 fuel (wrapInt32 (B * 2)) B_required else some B

/-- Embeds `Enclave::computeBucketParameters` with the arithmetic of its `int` variables,
for arguments `n >= 0` and `Z >= 1` that are values of `int`. `B_required` is the ceiling
of `2n / Z` (the double quotient is never rounded onto an integer it does not equal);
`B *= 2` and `B * (Z / 2)` are reduced to 32 bits. `none` is a call that does not return:
the loop is given 64 iterations, and after 32 doublings `B` is 0 and stays 0. A quotient
beyond `INT_MAX` (only for `Z = 1`, `n >= 2^30`) is reduced like the other results. -/
def Enclave.computeBucketParameters32 (n Z : Nat) : Option (Except Err (Int × Int)) :=
  let B_required := wrapInt32 (((2 * n + Z - 1) / Z : Nat) : Int)
  (doubleUntil32 64 1 B_required).map fun B =>
    let L := ((Nat.log2 B.toNat : Nat) : Int)
    if (n : Int) > wrapInt32 (B * ((Z : Int) / 2)) then Except.error Err.invalid_argument
    else Except.ok (B, L)


/-! ## Bucket parameters: `computeBucketParameters` -/

theorem doubleUntil_ge (fuel B B_required : Nat) (hB : 0 < B)
    (hfuel : B_required ≤ B * 2 ^ fuel) : B_required ≤ doubleUntil fuel B B_required := by
  induction fuel generalizing B with
  | zero => simpa [doubleUntil] using hfuel
  | succ f ih =>
    unfold doubleUntil
    split
    · apply ih (B * 2) (by omega)
      calc B_required ≤ B * 2 ^ (f + 1) := hfuel
        _ = B * 2 * 2 ^ f := by rw [pow_succ]; ring
    · omega

theorem doubleUntil_pow (fuel j B_required : Nat) :
    ∃ k, doubleUntil fuel (2 ^ j) B_required = 2 ^ k ∧ j ≤ k ∧
      (j < k → 2 ^ (k - 1) < B_required) := by
  induction fuel generalizing j with
  | zero => exact ⟨j, by simp [doubleUntil]⟩
  | succ f ih =>
    unfold doubleUntil
    split
    · rename_i hlt
      obtain ⟨k, hk, hjk, hmin⟩ := ih (j + 1)
      refine ⟨k, ?_, by omega, ?_⟩
      · rw [← hk, pow_succ]
      · intro _
        rcases Nat.lt_or_ge (j + 1) k with h | h
        · exact hmin h
        · have : k = j + 1 := by omega
          subst this
          simpa using hlt
    · exact ⟨j, rfl, le_refl _, fun h => absurd h (lt_irrefl _)⟩

theorem doubleUntil_smallest (x : Nat) : SmallestPowerOfTwoAtLeast x (doubleUntil x 1 x) := by
  obtain ⟨k, hk, _, hmin⟩ := doubleUntil_pow x 0 x
  simp only [pow_zero] at hk
  refine ⟨⟨k, hk⟩, ?_, ?_⟩
  · exact doubleUntil_ge x 1 x Nat.one_pos (by simpa using (Nat.lt_two_pow x).le)
  · intro k' hk'
    rw [hk]
    rcases Nat.eq_zero_or_pos k with h0 | hpos
    · subst h0
      simpa using Nat.one_le_two_pow
    · have h1 := hmin hpos
      have h2 : 2 ^ (k - 1) < 2 ^ k' := lt_of_lt_of_le h1 hk'
      have h3 : k - 1 < k' := (Nat.pow_lt_pow_iff_right (by norm_num)).1 h2
      exact Nat.pow_le_pow_right (by norm_num) (by omega)

theorem smallestPowerOfTwo_unique {x B B' : Nat} (h : SmallestPowerOfTwoAtLeast x B)
    (h' : SmallestPowerOfTwoAtLeast x B') : B = B' := by
  obtain ⟨⟨k, hk⟩, hx, hmin⟩ := h
  obtain ⟨⟨k', hk'⟩, hx', hmin'⟩ := h'
  apply le_antisymm
  · rw [hk']; exact hmin k' (hk' ▸ hx')
  · rw [hk]; exact hmin' k (hk ▸ hx)

theorem bRequired_le_iff (n Z B : Nat) (hZ : 1 ≤ Z) :
    (2 * n + Z - 1) / Z ≤ B ↔ 2 * n ≤ B * Z := by
  rw [← Nat.lt_succ_iff, Nat.div_lt_iff_lt_mul (by omega)]
  have h : (B + 1) * Z = B * Z + Z := by ring
  rw [h]
  generalize B * Z = t
  omega

/-- The integer expression for `B_required` is the ceiling of the exact quotient. -/
theorem ceil_two_n_div (n Z : Nat) (hZ : 1 ≤ Z) :
    ⌈((2 * n : Nat) : ℚ) / (Z : ℚ)⌉₊ = (2 * n + Z - 1) / Z := by
  have hZpos : (0 : ℚ) < (Z : ℚ) := by exact_mod_cast hZ
  apply eq_of_forall_ge_iff
  intro B
  rw [Nat.ceil_le, div_le_iff₀ hZpos, bRequired_le_iff n Z B hZ]
  exact_mod_cast Iff.rfl

theorem computeBucketParameters_ok {n Z B L : Nat}
    (h : Enclave.computeBucketParameters n Z = Except.ok (B, L)) :
    B = doubleUntil ((2 * n + Z - 1) / Z) 1 ((2 * n + Z - 1) / Z) ∧ L = Nat.log2 B ∧
      n ≤ B * (Z / 2) := by
  unfold Enclave.computeBucketParameters at h
  simp only at h
  split at h
  · exact absurd h (by simp)
  · rename_i hle
    simp only [Except.ok.injEq, Prod.mk.injEq] at h
    obtain ⟨hB, hL⟩ := h
    subst hB
    exact ⟨rfl, hL.symm, by omega⟩

theorem computeBucketParameters_pow {n Z B L : Nat}
    (h : Enclave.computeBucketParameters n Z = Except.ok (B, L)) : B = 2 ^ L := by
  obtain ⟨hB, hL, _⟩ := computeBucketParameters_ok h
  obtain ⟨⟨k, hk⟩, _, _⟩ := doubleUntil_smallest ((2 * n + Z - 1) / Z)
  rw [← hB] at hk
  rw [hL, hk, Nat.log2_two_pow]

/-- C9. Whenever `computeBucketParameters(n, Z)` returns `(B, L)` for `Z >= 1`, `B` is the
smallest power of two that is at least `ceil(2n / Z)`, `B = 2^L`, `2n <= B * Z`, and
`B = 1` when `n = 0`. -/
theorem computeBucketParameters_spec (n Z B L : Nat) (hZ : 1 ≤ Z)
    (h : Enclave.computeBucketParameters n Z = Except.ok (B, L)) :
    SmallestPowerOfTwoAtLeast ⌈((2 * n : Nat) : ℚ) / (Z : ℚ)⌉₊ B ∧ B = 2 ^ L ∧
      2 * n ≤ B * Z ∧ (n = 0 → B = 1) := by
  obtain ⟨hB, _, _⟩ := computeBucketParameters_ok h
  have hs := doubleUntil_smallest ((2 * n + Z - 1) / Z)
  rw [← hB, ← ceil_two_n_div n Z hZ] at hs
  refine ⟨hs, computeBucketParameters_pow h, ?_, ?_⟩
  · have := hs.2.1
    rw [ceil_two_n_div n Z hZ, bRequired_le_iff n Z B hZ] at this
    exact this
  · intro hn
    subst hn
    have h1 : SmallestPowerOfTwoAtLeast ⌈((2 * 0 : Nat) : ℚ) / (Z : ℚ)⌉₊ 1 := by
      refine ⟨⟨0, rfl⟩, by simp, fun k _ => Nat.one_le_two_pow⟩
    exact smallestPowerOfTwo_unique hs h1

/-- The scenario of the specification: `n = 8`, `Z = 4` gives `B = 4`, `L = 2`, which
satisfy the statement of `computeBucketParameters_spec`. -/
theorem computeBucketParameters_spec_witness :
    Enclave.computeBucketParameters 8 4 = Except.ok (4, 2) ∧
      SmallestPowerOfTwoAtLeast ⌈((2 * 8 : Nat) : ℚ) / ((4 : Nat) : ℚ)⌉₊ 4 ∧ 4 = 2 ^ 2 ∧
      2 * 8 ≤ 4 * 4 ∧ ((8 : Nat) = 0 → 4 = 1) :=
  have h : Enclave.computeBucketParameters 8 4 = Except.ok (4, 2) := by
    simp [Enclave.computeBucketParameters, doubleUntil, Nat.log2]
  ⟨h, computeBucketParameters_spec 8 4 4 2 (by decide) h⟩

/-- The configuration error in exact arithmetic. For `Z >= 1`, `computeBucketParameters(n, Z)`
throws `invalid_argument` exactly when `n > B * (Z / 2)` for the smallest power of two `B`
that is at least `ceil(2n / Z)`; it throws nothing else; and when it throws,
`oblivious_sort` ends with that error and with the memory, storage and access log,
exactly as it found it. The 32-bit function agrees on the range of
`computeBucketParameters32_exact` and not beyond it. -/
theorem computeBucketParameters_error_iff (n Z : Nat) (hZ : 1 ≤ Z) :
    (Enclave.computeBucketParameters n Z = Except.error Err.invalid_argument ↔
        ∃ B, SmallestPowerOfTwoAtLeast ⌈((2 * n : Nat) : ℚ) / (Z : ℚ)⌉₊ B ∧ n > B * (Z / 2)) ∧
      (∀ e, Enclave.computeBucketParameters n Z = Except.error e → e = Err.invalid_argument) ∧
      ∀ (rng : Nat → Nat) (shuffle : Nat → List Element → List Element)
        (inputRows : List (Int × String)) (m : UntrustedMemory) (e : Err),
        inputRows.length = n → Enclave.computeBucketParameters n Z = Except.error e →
          Enclave.oblivious_sort rng shuffle inputRows Z m = (Except.error Err.invalid_argument, m) := by
  have hs := doubleUntil_smallest ((2 * n + Z - 1) / Z)
  rw [← ceil_two_n_div n Z hZ] at hs
  have herr : ∀ e, Enclave.computeBucketParameters n Z = Except.error e →
      e = Err.invalid_argument := by
    intro e he
    unfold Enclave.computeBucketParameters at he
    simp only at he
    split at he
    · simpa using he.symm
    · exact absurd he (by simp)
  refine ⟨⟨?_, ?_⟩, herr, ?_⟩
  · intro he
    refine ⟨_, hs, ?_⟩
    unfold Enclave.computeBucketParameters at he
    simp only at he
    split at he
    · rw [ceil_two_n_div n Z hZ]; assumption
    · exact absurd he (by simp)
  · rintro ⟨B, hB, hn⟩
    have hBeq := smallestPowerOfTwo_unique hB hs
    rw [ceil_two_n_div n Z hZ] at hBeq
    subst hBeq
    unfold Enclave.computeBucketParameters
    simp only
    rw [if_pos hn]
  · intro rng shuffle inputRows m e hlen he
    have := herr e he
    subst this
    unfold Enclave.oblivious_sort
    simp only [hlen, he]

/-- Three rows with `Z = 3`: `B = 2`, `3 > 2 * (3 / 2)`, the sort is refused and the memory
is untouched. -/
theorem computeBucketParameters_error_iff_witness :
    Enclave.computeBucketParameters 3 3 = Except.error Err.invalid_argument ∧
      Enclave.oblivious_sort (fun _ => 0) (fun _ l => l) [(1, "a"), (2, "b"), (3, "c")] 3
          ⟨[((0, 0), [])], []⟩ =
        (Except.error Err.invalid_argument, ⟨[((0, 0), [])], []⟩) :=
  have h : Enclave.computeBucketParameters 3 3 = Except.error Err.invalid_argument := by
    simp [Enclave.computeBucketParameters, doubleUntil]
  ⟨h, (computeBucketParameters_error_iff 3 3 (by decide)).2.2 _ _ _ _ _ rfl h⟩

/-! ## The bitonic primitive: comparison schedule -/

theorem mergeLoopLog_fst {α : Type} (key : α → Int) (asc : Bool) (k c i : Nat) (a : List α) :
    (mergeLoopLog key asc k c i a).1 = mergeLoop key asc k c i a := by
  induction c generalizing i a with
  | zero => rfl
  | succ c ih => simp only [mergeLoopLog, mergeLoop, ih]

theorem bitonicMergeLogAux_fst {α : Type} (key : α → Int) (fuel : Nat) (a : List α)
    (low cnt : Nat) (asc : Bool) :
    (bitonicMergeLogAux key fuel a low cnt asc).1 = bitonicMergeAux key fuel a low cnt asc := by
  induction fuel generalizing a low cnt with
  | zero => rfl
  | succ f ih =>
    unfold bitonicMergeLogAux bitonicMergeAux
    split
    · simp only [ih, mergeLoopLog_fst]
    · rfl

theorem bitonicSortLogAux_fst {α : Type} (key : α → Int) (fuel : Nat) (a : List α)
    (low cnt : Nat) (asc : Bool) :
    (bitonicSortLogAux key fuel a low cnt asc).1 = bitonicSortAux key fuel a low cnt asc := by
  induction fuel generalizing a low cnt asc with
  | zero => rfl
  | succ f ih =>
    unfold bitonicSortLogAux bitonicSortAux
    split
    · simp only [ih, bitonicMergeLogAux_fst, bitonicMerge]
    · rfl

theorem mergeLoopLog_snd {α : Type} (key : α → Int) (asc asc' : Bool) (k c i : Nat)
    (a a' : List α) :
    (mergeLoopLog key asc k c i a).2 = (mergeLoopLog key asc' k c i a').2 := by
  induction c generalizing i a a' with
  | zero => rfl
  | succ c ih =>
    simp only [mergeLoopLog]
    rw [ih (i + 1) (compareSwap key asc a i (i + k)) (compareSwap key asc' a' i (i + k))]

theorem bitonicMergeLogAux_snd {α : Type} (key : α → Int) (fuel : Nat) (a a' : List α)
    (low cnt : Nat) (asc asc' : Bool) :
    (bitonicMergeLogAux key fuel a low cnt asc).2 =
      (bitonicMergeLogAux key fuel a' low cnt asc').2 := by
  induction fuel generalizing a a' low cnt with
  | zero => rfl
  | succ f ih =>
    unfold bitonicMergeLogAux
    split
    · simp only
      rw [mergeLoopLog_snd key asc asc' _ _ _ a a',
        ih (mergeLoopLog key asc (cnt / 2) (cnt / 2) low a).1
          (mergeLoopLog key asc' (cnt / 2) (cnt / 2) low a').1 low (cnt / 2),
        ih (bitonicMergeLogAux key f (mergeLoopLog key asc (cnt / 2) (cnt / 2) low a).1 low
            (cnt / 2) asc).1
          (bitonicMergeLogAux key f (mergeLoopLog key asc' (cnt / 2) (cnt / 2) low a').1 low
            (cnt / 2) asc').1 (low + cnt / 2) (cnt / 2)]
    · rfl

theorem bitonicSortLogAux_snd {α : Type} (key : α → Int) (fuel : Nat) (a a' : List α)
    (low cnt : Nat) (asc asc' : Bool) :
    (bitonicSortLogAux key fuel a low cnt asc).2 =
      (bitonicSortLogAux key fuel a' low cnt asc').2 := by
  induction fuel generalizing a a' low cnt asc asc' with
  | zero => rfl
  | succ f ih =>
    unfold bitonicSortLogAux
    split
    · simp only
      rw [ih a a' low (cnt / 2) true true,
        ih (bitonicSortLogAux key f a low (cnt / 2) true).1
          (bitonicSortLogAux key f a' low (cnt / 2) true).1 (low + cnt / 2) (cnt / 2) false false,
        bitonicMergeLogAux_snd key cnt _
          (bitonicSortLogAux key f (bitonicSortLogAux key f a' low (cnt / 2) true).1
            (low + cnt / 2) (cnt / 2) false).1 low cnt asc asc']
    · rfl

/-- C7. The run of `bitonicSort(a, low, cnt, ascending)` that records its comparisons
computes the same vector as `Enclave::bitonicSort`, and the list of position pairs
`(i, i + k)` it compares is the same for any two vectors of the same length, whatever
their keys, payloads, dummy flags and the direction asked for. -/
theorem bitonicSort_schedule_independent (a a' : List Element) (low cnt : Nat)
    (ascending ascending' : Bool) (hlen : a.length = a'.length) :
    (Enclave.bitonicSortLog a low cnt ascending).1 = Enclave.bitonicSort a low cnt ascending ∧
      (Enclave.bitonicSortLog a low cnt ascending).2 =
        (Enclave.bitonicSortLog a' low cnt ascending').2 := by
  have _ := hlen
  exact ⟨bitonicSortLogAux_fst _ _ _ _ _ _, bitonicSortLogAux_snd _ _ _ _ _ _ _ _⟩

/-- Two vectors of four elements with different keys, flags and payloads, sorted in
different directions, are compared at the same positions. -/
theorem bitonicSort_schedule_independent_witness :
    (Enclave.bitonicSortLog
        [⟨0, 5, "a", false⟩, ⟨0, 3, "b", false⟩, ⟨0, 8, "c", false⟩, ⟨0, 1, "d", true⟩] 0 4 true).2 =
      (Enclave.bitonicSortLog
        [⟨7, 1, "w", true⟩, ⟨7, 2, "x", true⟩, ⟨9, 2, "y", false⟩, ⟨1, 0, "z", false⟩] 0 4 false).2 :=
  (bitonicSort_schedule_independent
    [⟨0, 5, "a", false⟩, ⟨0, 3, "b", false⟩, ⟨0, 8, "c", false⟩, ⟨0, 1, "d", true⟩]
    [⟨7, 1, "w", true⟩, ⟨7, 2, "x", true⟩, ⟨9, 2, "y", false⟩, ⟨1, 0, "z", false⟩]
    0 4 true false rfl).2

/-! ## The bitonic primitive: permutation, frame and order -/

theorem swap_perm {α : Type} (a : List α) (i j : Nat) (x y : α) (hx : a[i]? = some x)
    (hy : a[j]? = some y) : ((a.set i y).set j x).Perm a := by
  classical
  obtain ⟨hi, hxi⟩ := List.getElem?_eq_some.1 hx
  obtain ⟨hj, hyj⟩ := List.getElem?_eq_some.1 hy
  rw [List.perm_iff_count]
  intro b
  have hj' : j < (a.set i y).length := by simpa using hj
  rw [List.count_set x b (a.set i y) j hj', List.count_set y b a i hi]
  have hget : (a.set i y)[j] = y := by
    rw [List.getElem_set]
    split
    · rfl
    · exact hyj
  rw [hget, hxi]
  have hpos : (if (x == b) = true then 1 else 0) ≤ List.count b a := by
    split
    · rename_i hxb
      have hb : x = b := by simpa using hxb
      have hmem : b ∈ a := hb ▸ (hxi ▸ List.getElem_mem hi)
      exact List.count_pos_iff.2 hmem
    · exact Nat.zero_le _
  omega

theorem compareSwap_length {α : Type} (key : α → Int) (asc : Bool) (a : List α) (i j : Nat) :
    (compareSwap key asc a i j).length = a.length := by
  unfold compareSwap
  split
  · split <;> simp
  · rfl

theorem compareSwap_perm {α : Type} (key : α → Int) (asc : Bool) (a : List α) (i j : Nat) :
    (compareSwap key asc a i j).Perm a := by
  unfold compareSwap
  split
  · rename_i x y hx hy
    split
    · exact swap_perm a i j x y hx hy
    · exact List.Perm.refl _
  · exact List.Perm.refl _

theorem compareSwap_other {α : Type} (key : α → Int) (asc : Bool) (a : List α) (i j p : Nat)
    (hpi : p ≠ i) (hpj : p ≠ j) : (compareSwap key asc a i j)[p]? = a[p]? := by
  unfold compareSwap
  split
  · split
    · rw [List.getElem?_set, if_neg (Ne.symm hpj), List.getElem?_set, if_neg (Ne.symm hpi)]
    · rfl
  · rfl

/-- What `compareSwap` leaves at the two positions: the two elements, the one with the
smaller key first when ascending, the one with the larger key first when descending. -/
theorem compareSwap_pair {α : Type} (key : α → Int) (asc : Bool) (a : List α) (i j : Nat)
    (x y : α) (hij : i ≠ j) (hx : a[i]? = some x) (hy : a[j]? = some y) :
    ((compareSwap key asc a i j)[i]? = some x ∧ (compareSwap key asc a i j)[j]? = some y ∧
        (if asc then key x ≤ key y else key y ≤ key x)) ∨
      ((compareSwap key asc a i j)[i]? = some y ∧ (compareSwap key asc a i j)[j]? = some x ∧
        (if asc then key y < key x else key x < key y)) := by
  obtain ⟨hi, -⟩ := List.getElem?_eq_some.1 hx
  obtain ⟨hj, -⟩ := List.getElem?_eq_some.1 hy
  unfold compareSwap
  simp only [hx, hy]
  split
  · rename_i hc
    right
    refine ⟨?_, ?_, ?_⟩
    · rw [List.getElem?_set, if_neg (Ne.symm hij), List.getElem?_set, if_pos rfl, if_pos hi]
    · rw [List.getElem?_set, if_pos rfl, if_pos (by simpa using hj)]
    · cases asc <;> simpa using hc
  · rename_i hc
    left
    refine ⟨hx, hy, ?_⟩
    cases asc <;> simpa using hc

theorem viewAt_congr {α : Type} (g : α → Bool) {a b : List α} {p : Nat} (h : a[p]? = b[p]?) :
    viewAt g a p = viewAt g b p := by
  unfold viewAt
  rw [h]

theorem compareSwap_view {α : Type} (key : α → Int) (asc : Bool) (t : Int) (a : List α)
    (i j : Nat) (hij : i ≠ j) (hi : i < a.length) (hj : j < a.length) :
    viewAt (thr key asc t) (compareSwap key asc a i j) i =
        (viewAt (thr key asc t) a i && viewAt (thr key asc t) a j) ∧
      viewAt (thr key asc t) (compareSwap key asc a i j) j =
        (viewAt (thr key asc t) a i || viewAt (thr key asc t) a j) := by
  have hx : a[i]? = some a[i] := List.getElem?_eq_getElem hi
  have hy : a[j]? = some a[j] := List.getElem?_eq_getElem hj
  rcases compareSwap_pair key asc a i j a[i] a[j] hij hx hy with ⟨h1, h2, h3⟩ | ⟨h1, h2, h3⟩
  all_goals
    simp only [viewAt, h1, h2, hx, hy, thr]
    cases asc
    all_goals
      simp only [Bool.false_eq_true, if_false, if_true] at h3 ⊢
      constructor
      all_goals
        rw [Bool.eq_iff_iff]
        simp only [Bool.and_eq_true, Bool.or_eq_true, decide_eq_true_eq]
        omega

/-- A test that holds the same value `c` on a whole range keeps doing so when two
positions of the range are compare-exchanged. -/
theorem compareSwap_const {α : Type} (key : α → Int) (asc : Bool) (g : α → Bool) (c : Bool)
    (a : List α) (i j lo hi : Nat) (hi1 : lo ≤ i ∧ i < hi) (hj1 : lo ≤ j ∧ j < hi)
    (h : ∀ p, lo ≤ p → p < hi → viewAt g a p = c) :
    ∀ p, lo ≤ p → p < hi → viewAt g (compareSwap key asc a i j) p = c := by
  intro p hp1 hp2
  by_cases hpi : p = i
  · subst hpi
    by_cases hpj : p = j
    · subst hpj
      unfold compareSwap
      split
      · rename_i x y hx hy
        have hxy : x = y := by rw [hx] at hy; exact Option.some.inj hy
        subst hxy
        have hlt := (List.getElem?_eq_some.1 hx).1
        have hv := h p hp1 hp2
        split
        · unfold viewAt
          unfold viewAt at hv
          rw [hx] at hv
          rw [List.getElem?_set, if_pos rfl, if_pos (by simpa using hlt)]
          exact hv
        · exact hv
      · exact h p hp1 hp2
    · unfold compareSwap
      split
      · rename_i x y hx hy
        split
        · have hv := h j hj1.1 hj1.2
          unfold viewAt at hv ⊢
          rw [hy] at hv
          rw [List.getElem?_set, if_neg (Ne.symm hpj), List.getElem?_set, if_pos rfl,
            if_pos (List.getElem?_eq_some.1 hx).1]
          exact hv
        · exact h p hp1 hp2
      · exact h p hp1 hp2
  · by_cases hpj : p = j
    · subst hpj
      unfold compareSwap
      split
      · rename_i x y hx hy
        split
        · have hv := h i hi1.1 hi1.2
          unfold viewAt at hv ⊢
          rw [hx] at hv
          rw [List.getElem?_set, if_pos rfl, if_pos (by simpa using (List.getElem?_eq_some.1 hy).1)]
          exact hv
        · exact h p hp1 hp2
      · exact h p hp1 hp2
    · rw [viewAt_congr g (compareSwap_other key asc a i j p hpi hpj)]
      exact h p hp1 hp2

theorem mergeLoop_length {α : Type} (key : α → Int) (asc : Bool) (k c i : Nat) (a : List α) :
    (mergeLoop key asc k c i a).length = a.length := by
  induction c generalizing i a with
  | zero => rfl
  | succ c ih => simp only [mergeLoop, ih, compareSwap_length]

theorem mergeLoop_perm {α : Type} (key : α → Int) (asc : Bool) (k c i : Nat) (a : List α) :
    (mergeLoop key asc k c i a).Perm a := by
  induction c generalizing i a with
  | zero => exact List.Perm.refl _
  | succ c ih => exact (ih (i + 1) _).trans (compareSwap_perm key asc a i (i + k))

/-- The loop touches the positions `i .. i + c - 1` and `i + k .. i + k + c - 1` only. -/
theorem mergeLoop_other {α : Type} (key : α → Int) (asc : Bool) (k c i : Nat) (a : List α)
    (p : Nat) (hp : ¬(i ≤ p ∧ p < i + c) ∧ ¬(i + k ≤ p ∧ p < i + k + c)) :
    (mergeLoop key asc k c i a)[p]? = a[p]? := by
  induction c generalizing i a with
  | zero => rfl
  | succ c ih =>
    simp only [mergeLoop]
    rw [ih (i + 1) _ (by omega), compareSwap_other key asc a i (i + k) p (by omega) (by omega)]

/-- Under the threshold test of its direction, the loop leaves the conjunction of the two
compared positions at the lower one and their disjunction at the upper one. -/
theorem mergeLoop_view {α : Type} (key : α → Int) (asc : Bool) (t : Int) (k c i : Nat)
    (a : List α) (hck : c ≤ k) (hlen : i + k + c ≤ a.length) :
    ∀ q, q < c →
      viewAt (thr key asc t) (mergeLoop key asc k c i a) (i + q) =
          (viewAt (thr key asc t) a (i + q) && viewAt (thr key asc t) a (i + q + k)) ∧
        viewAt (thr key asc t) (mergeLoop key asc k c i a) (i + q + k) =
          (viewAt (thr key asc t) a (i + q) || viewAt (thr key asc t) a (i + q + k)) := by
  induction c generalizing i a with
  | zero => intro q hq; omega
  | succ c ih =>
    intro q hq
    simp only [mergeLoop]
    have hsw := compareSwap_view key asc t a i (i + k) (by omega) (by omega) (by omega)
    rcases Nat.eq_zero_or_pos q with hq0 | hqpos
    · subst hq0
      have e1 := mergeLoop_other key asc k c (i + 1) (compareSwap key asc a i (i + k)) i
        (by omega)
      have e2 := mergeLoop_other key asc k c (i + 1) (compareSwap key asc a i (i + k)) (i + k)
        (by omega)
      simp only [Nat.add_zero]
      rw [viewAt_congr _ e1, viewAt_congr _ e2]
      exact hsw
    · have hih := ih (i + 1) (compareSwap key asc a i (i + k)) (by omega)
        (by rw [compareSwap_length]; omega) (q - 1) (by omega)
      have e1 : i + 1 + (q - 1) = i + q := by omega
      rw [e1] at hih
      have o1 := compareSwap_other key asc a i (i + k) (i + q) (by omega) (by omega)
      have o2 := compareSwap_other key asc a i (i + k) (i + q + k) (by omega) (by omega)
      rw [viewAt_congr _ o1, viewAt_congr _ o2] at hih
      exact hih

theorem mergeLoop_const {α : Type} (key : α → Int) (asc : Bool) (g : α → Bool) (cst : Bool)
    (k c i lo hi : Nat) (a : List α) (hlo : lo ≤ i) (hhi : c = 0 ∨ i + k + c ≤ hi)
    (h : ∀ p, lo ≤ p → p < hi → viewAt g a p = cst) :
    ∀ p, lo ≤ p → p < hi → viewAt g (mergeLoop key asc k c i a) p = cst := by
  induction c generalizing i a with
  | zero => exact h
  | succ c ih =>
    simp only [mergeLoop]
    apply ih (i + 1) _ (by omega) (by omega)
    exact compareSwap_const key asc g cst a i (i + k) lo hi (by omega) (by omega) h

theorem bitonicMergeAux_length {α : Type} (key : α → Int) (fuel : Nat) (a : List α)
    (low cnt : Nat) (asc : Bool) : (bitonicMergeAux key fuel a low cnt asc).length = a.length := by
  induction fuel generalizing a low cnt with
  | zero => rfl
  | succ f ih =>
    unfold bitonicMergeAux
    split
    · simp only [ih, mergeLoop_length]
    · rfl

theorem bitonicMergeAux_perm {α : Type} (key : α → Int) (fuel : Nat) (a : List α)
    (low cnt : Nat) (asc : Bool) : (bitonicMergeAux key fuel a low cnt asc).Perm a := by
  induction fuel generalizing a low cnt with
  | zero => exact List.Perm.refl _
  | succ f ih =>
    unfold bitonicMergeAux
    split
    · exact ((ih _ _ _).trans (ih _ _ _)).trans (mergeLoop_perm _ _ _ _ _ _)
    · exact List.Perm.refl _

/-- The merge of `[low, low + cnt)` touches no position outside that range. -/
theorem bitonicMergeAux_other {α : Type} (key : α → Int) (fuel : Nat) (a : List α)
    (low cnt : Nat) (asc : Bool) (p : Nat) (hp : ¬(low ≤ p ∧ p < low + cnt)) :
    (bitonicMergeAux key fuel a low cnt asc)[p]? = a[p]? := by
  induction fuel generalizing a low cnt with
  | zero => rfl
  | succ f ih =>
    unfold bitonicMergeAux
    split
    · have hk : 2 * (cnt / 2) ≤ cnt := by omega
      simp only
      rw [ih _ (low + cnt / 2) (cnt / 2) (by omega), ih _ low (cnt / 2) (by omega),
        mergeLoop_other key asc (cnt / 2) (cnt / 2) low a p (by omega)]
    · rfl

theorem bitonicMergeAux_const {α : Type} (key : α → Int) (g : α → Bool) (cst : Bool)
    (fuel : Nat) (a : List α) (low cnt lo hi : Nat) (asc : Bool) (hlo : lo ≤ low)
    (hhi : low + cnt ≤ hi) (h : ∀ p, lo ≤ p → p < hi → viewAt g a p = cst) :
    ∀ p, lo ≤ p → p < hi → viewAt g (bitonicMergeAux key fuel a low cnt asc) p = cst := by
  induction fuel generalizing a low cnt with
  | zero => exact h
  | succ f ih =>
    unfold bitonicMergeAux
    split
    · have hk : 2 * (cnt / 2) ≤ cnt := by omega
      simp only
      apply ih _ (low + cnt / 2) (cnt / 2) (by omega) (by omega)
      apply ih _ low (cnt / 2) hlo (by omega)
      exact mergeLoop_const key asc g cst (cnt / 2) (cnt / 2) low lo hi a hlo
        (Or.inr (by omega)) h
    · exact h

/-- The half-cleaner on 0-1 sequences: from a bitonic sequence of length `2k`, the
position-wise conjunctions `lo` and disjunctions `hi` of its two halves are both bitonic,
and `lo` is all zeros or `hi` is all ones. -/
theorem halfCleaner01 (f lo hi : Nat → Bool) (k : Nat) (hb : Bitonic01 f (2 * k))
    (hlo : ∀ q, q < k → lo q = (f q && f (q + k)))
    (hhi : ∀ q, q < k → hi q = (f q || f (q + k))) :
    (Bitonic01 lo k ∧ ∀ q, q < k → hi q = true) ∨
      ((∀ q, q < k → lo q = false) ∧ Bitonic01 hi k) := by
  obtain ⟨i, j, h | h⟩ := hb
  · -- zeros, ones on [i, j), zeros
    have hlo' : ∀ q, q < k → lo q = decide (i ≤ q ∧ q < j - k) := by
      intro q hq
      rw [hlo q hq, h q (by omega), h (q + k) (by omega), Bool.eq_iff_iff]
      simp only [Bool.and_eq_true, decide_eq_true_eq]
      omega
    by_cases hc : i < k ∧ i + k < j
    · left
      refine ⟨⟨i, j - k, Or.inl hlo'⟩, ?_⟩
      intro q hq
      rw [hhi q hq, h q (by omega), h (q + k) (by omega)]
      simp only [Bool.or_eq_true, decide_eq_true_eq]
      omega
    · right
      refine ⟨?_, ?_⟩
      · intro q hq
        rw [hlo' q hq]
        simp only [decide_eq_false_iff_not]
        omega
      · by_cases hik : k ≤ i
        · refine ⟨i - k, j - k, Or.inl ?_⟩
          intro q hq
          rw [hhi q hq, h q (by omega), h (q + k) (by omega), Bool.eq_iff_iff]
          simp only [Bool.or_eq_true, decide_eq_true_eq]
          omega
        · by_cases hjk : k ≤ j
          · refine ⟨j - k, i, Or.inr ?_⟩
            intro q hq
            rw [hhi q hq, h q (by omega), h (q + k) (by omega), Bool.eq_iff_iff]
            simp only [Bool.or_eq_true, decide_eq_true_eq, Bool.not_eq_true',
              decide_eq_false_iff_not]
            omega
          · refine ⟨i, j, Or.inl ?_⟩
            intro q hq
            rw [hhi q hq, h q (by omega), h (q + k) (by omega), Bool.eq_iff_iff]
            simp only [Bool.or_eq_true, decide_eq_true_eq]
            omega
  · -- ones, zeros on [i, j), ones
    have hhi' : ∀ q, q < k → hi q = !decide (i ≤ q ∧ q < j - k) := by
      intro q hq
      rw [hhi q hq, h q (by omega), h (q + k) (by omega), Bool.eq_iff_iff]
      simp only [Bool.or_eq_true, Bool.not_eq_true', decide_eq_false_iff_not]
      omega
    by_cases hc : i < k ∧ i + k < j
    · right
      refine ⟨?_, ⟨i, j - k, Or.inr hhi'⟩⟩
      intro q hq
      rw [hlo q hq, h q (by omega), h (q + k) (by omega)]
      simp only [Bool.and_eq_false_imp, Bool.not_eq_true', decide_eq_false_iff_not,
        Bool.not_eq_false', decide_eq_true_eq]
      omega
    · left
      refine ⟨?_, ?_⟩
      · by_cases hik : k ≤ i
        · refine ⟨i - k, j - k, Or.inr ?_⟩
          intro q hq
          rw [hlo q hq, h q (by omega), h (q + k) (by omega), Bool.eq_iff_iff]
          simp only [Bool.and_eq_true, Bool.not_eq_true', decide_eq_false_iff_not]
          omega
        · by_cases hjk : k ≤ j
          · refine ⟨j - k, i, Or.inl ?_⟩
            intro q hq
            rw [hlo q hq, h q (by omega), h (q + k) (by omega), Bool.eq_iff_iff]
            simp only [Bool.and_eq_true, Bool.not_eq_true', decide_eq_false_iff_not,
              decide_eq_true_eq]
            omega
          · refine ⟨i, j, Or.inr ?_⟩
            intro q hq
            rw [hlo q hq, h q (by omega), h (q + k) (by omega), Bool.eq_iff_iff]
            simp only [Bool.and_eq_true, Bool.not_eq_true', decide_eq_false_iff_not]
            omega
      · intro q hq
        rw [hhi' q hq]
        simp only [Bool.not_eq_true', decide_eq_false_iff_not]
        omega

/-- The bitonic merge of a range of `2^m` positions sorts every 0-1 view of it that is
bitonic, for the threshold tests of the merge direction. -/
theorem bitonicMergeAux_sorts01 {α : Type} (key : α → Int) (asc : Bool) (t : Int) (m : Nat) :
    ∀ (fuel : Nat) (a : List α) (low : Nat), 2 ^ m ≤ fuel → low + 2 ^ m ≤ a.length →
      Bitonic01 (fun p => viewAt (thr key asc t) a (low + p)) (2 ^ m) →
      Sorted01 (fun p => viewAt (thr key asc t) (bitonicMergeAux key fuel a low (2 ^ m) asc)
        (low + p)) (2 ^ m) := by
  induction m with
  | zero =>
    intro fuel a low _ _ _
    refine ⟨if viewAt (thr key asc t) (bitonicMergeAux key fuel a low (2 ^ 0) asc) (low + 0)
      then 0 else 1, ?_⟩
    intro p hp
    have hp0 : p = 0 := by simpa using hp
    subst hp0
    split
    · rename_i h; simpa using h
    · rename_i h; simpa using h
  | succ m ih =>
    intro fuel a low hfuel hlen hbit
    have hpow : 2 ^ (m + 1) = 2 * 2 ^ m := by rw [pow_succ]; ring
    have hkpos : 0 < 2 ^ m := Nat.two_pow_pos m
    obtain ⟨f, rfl⟩ : ∃ f, fuel = f + 1 := ⟨fuel - 1, by omega⟩
    have hdiv : 2 ^ (m + 1) / 2 = 2 ^ m := by omega
    unfold bitonicMergeAux
    rw [if_pos (by omega)]
    simp only [hdiv]
    generalize hk : 2 ^ m = k at *
    set a1 := mergeLoop key asc k k low a with ha1
    set a2 := bitonicMergeAux key f a1 low k asc with ha2
    set a3 := bitonicMergeAux key f a2 (low + k) k asc with ha3
    have hl1 : a1.length = a.length := mergeLoop_length _ _ _ _ _ _
    have hl2 : a2.length = a.length := by rw [ha2, bitonicMergeAux_length, hl1]
    have hview := mergeLoop_view key asc t k k low a (le_refl _) (by omega)
    rw [hpow] at hbit
    have hhc := halfCleaner01 (fun p => viewAt (thr key asc t) a (low + p))
      (fun q => viewAt (thr key asc t) a1 (low + q))
      (fun q => viewAt (thr key asc t) a1 (low + k + q)) k hbit
      (by
        intro q hq
        have := (hview q hq).1
        simp only [← Nat.add_assoc]
        exact this)
      (by
        intro q hq
        have := (hview q hq).2
        have e : low + k + q = low + q + k := by omega
        simp only [← Nat.add_assoc, e]
        exact this)
    -- the upper half of `a2` is the upper half of `a1`
    have hup2 : ∀ q, q < k → viewAt (thr key asc t) a2 (low + k + q) =
        viewAt (thr key asc t) a1 (low + k + q) := by
      intro q _
      exact viewAt_congr _ (bitonicMergeAux_other key f a1 low k asc _ (by omega))
    -- the lower half of `a3` is the lower half of `a2`
    have hlow3 : ∀ q, q < k → viewAt (thr key asc t) a3 (low + q) =
        viewAt (thr key asc t) a2 (low + q) := by
      intro q _
      exact viewAt_congr _ (bitonicMergeAux_other key f a2 (low + k) k asc _ (by omega))
    rw [hpow]
    rcases hhc with ⟨hlo, hhi⟩ | ⟨hlo, hhi⟩
    · obtain ⟨i, hi⟩ := ih f a1 low (by omega) (by omega) hlo
      have hup3 : ∀ p, low + k ≤ p → p < low + k + k →
          viewAt (thr key asc t) a3 p = true := by
        apply bitonicMergeAux_const key _ true f a2 (low + k) k (low + k) (low + k + k) asc
          (le_refl _) (le_refl _)
        intro p hp1 hp2
        have := hup2 (p - (low + k)) (by omega)
        have e : low + k + (p - (low + k)) = p := by omega
        rw [e] at this
        rw [this]
        have := hhi (p - (low + k)) (by omega)
        simp only [e] at this
        exact this
      refine ⟨min i k, ?_⟩
      intro p hp
      simp only
      by_cases hpk : p < k
      · rw [hlow3 p hpk]
        have := hi p hpk
        simp only at this
        rw [this, Bool.eq_iff_iff]
        simp only [decide_eq_true_eq]
        omega
      · rw [hup3 (low + p) (by omega) (by omega)]
        symm
        simp only [decide_eq_true_eq]
        omega
    · have hbit3 : Bitonic01 (fun p => viewAt (thr key asc t) a2 (low + k + p)) k := by
        obtain ⟨i, j, h | h⟩ := hhi
        · exact ⟨i, j, Or.inl (fun p hp => (hup2 p hp).trans (h p hp))⟩
        · exact ⟨i, j, Or.inr (fun p hp => (hup2 p hp).trans (h p hp))⟩
      obtain ⟨i, hi⟩ := ih f a2 (low + k) (by omega) (by omega) hbit3
      have hlow2 : ∀ p, low ≤ p → p < low + k → viewAt (thr key asc t) a2 p = false := by
        apply bitonicMergeAux_const key _ false f a1 low k low (low + k) asc
          (le_refl _) (le_refl _)
        intro p hp1 hp2
        have := hlo (p - low) (by omega)
        have e : low + (p - low) = p := by omega
        simp only [e] at this
        exact this
      refine ⟨k + i, ?_⟩
      intro p hp
      simp only
      by_cases hpk : p < k
      · rw [hlow3 p hpk, hlow2 (low + p) (by omega) (by omega)]
        symm
        simp only [decide_eq_false_iff_not]
        omega
      · have := hi (p - k) (by omega)
        have e : low + k + (p - k) = low + p := by omega
        simp only [e] at this
        rw [this, Bool.eq_iff_iff]
        simp only [decide_eq_true_eq]
        omega

theorem mono01 (f : Nat → Bool) (n : Nat)
    (h : ∀ p q, p ≤ q → q < n → f p = true → f q = true) :
    ∃ i, i ≤ n ∧ ∀ p, p < n → f p = decide (i ≤ p) := by
  induction n with
  | zero => exact ⟨0, le_refl _, fun p hp => absurd hp (Nat.not_lt_zero _)⟩
  | succ n ih =>
    obtain ⟨i, hin, hi⟩ := ih (fun p q hpq hq => h p q hpq (by omega))
    by_cases hlt : i < n
    · refine ⟨i, by omega, ?_⟩
      intro p hp
      by_cases hpn : p < n
      · exact hi p hpn
      · have hpe : p = n := by omega
        subst hpe
        have hfi : f i = true := by rw [hi i hlt]; simp
        rw [h i p (by omega) (by omega) hfi]
        simp; omega
    · have hie : i = n := by omega
      subst hie
      by_cases hfn : f i = true
      · refine ⟨i, by omega, ?_⟩
        intro p hp
        by_cases hpn : p < i
        · exact hi p hpn
        · have hpe : p = i := by omega
          subst hpe
          rw [hfn]; simp
      · refine ⟨i + 1, le_refl _, ?_⟩
        intro p hp
        by_cases hpn : p < i
        · rw [hi p hpn, Bool.eq_iff_iff]
          simp only [decide_eq_true_eq]
          omega
        · have hpe : p = i := by omega
          subst hpe
          have : f p = false := by simpa using hfn
          rw [this]; simp

theorem anti01 (f : Nat → Bool) (n : Nat)
    (h : ∀ p q, p ≤ q → q < n → f q = true → f p = true) :
    ∃ i, i ≤ n ∧ ∀ p, p < n → f p = decide (p < i) := by
  induction n with
  | zero => exact ⟨0, le_refl _, fun p hp => absurd hp (Nat.not_lt_zero _)⟩
  | succ n ih =>
    obtain ⟨i, hin, hi⟩ := ih (fun p q hpq hq => h p q hpq (by omega))
    by_cases hfn : f n = true
    · refine ⟨n + 1, le_refl _, ?_⟩
      intro p hp
      rw [h p n (by omega) (by omega) hfn]
      simp; omega
    · refine ⟨i, by omega, ?_⟩
      intro p hp
      by_cases hpn : p < n
      · exact hi p hpn
      · have hpe : p = n := by omega
        subst hpe
        have : f p = false := by simpa using hfn
        rw [this]
        symm
        simp only [decide_eq_false_iff_not]
        omega

theorem viewAt_of_getElem? {α : Type} (g : α → Bool) {a : List α} {p : Nat} {x : α}
    (h : a[p]? = some x) : viewAt g a p = g x := by
  unfold viewAt
  rw [h]

theorem bitonicSortAux_length {α : Type} (key : α → Int) (fuel : Nat) (a : List α)
    (low cnt : Nat) (asc : Bool) : (bitonicSortAux key fuel a low cnt asc).length = a.length := by
  induction fuel generalizing a low cnt asc with
  | zero => rfl
  | succ f ih =>
    unfold bitonicSortAux
    split
    · simp only [bitonicMerge, bitonicMergeAux_length, ih]
    · rfl

theorem bitonicSortAux_perm {α : Type} (key : α → Int) (fuel : Nat) (a : List α)
    (low cnt : Nat) (asc : Bool) : (bitonicSortAux key fuel a low cnt asc).Perm a := by
  induction fuel generalizing a low cnt asc with
  | zero => exact List.Perm.refl _
  | succ f ih =>
    unfold bitonicSortAux
    split
    · exact ((bitonicMergeAux_perm _ _ _ _ _ _).trans (ih _ _ _ _)).trans (ih _ _ _ _)
    · exact List.Perm.refl _

/-- The sort of `[low, low + cnt)` touches no position outside that range. -/
theorem bitonicSortAux_other {α : Type} (key : α → Int) (fuel : Nat) (a : List α)
    (low cnt : Nat) (asc : Bool) (p : Nat) (hp : ¬(low ≤ p ∧ p < low + cnt)) :
    (bitonicSortAux key fuel a low cnt asc)[p]? = a[p]? := by
  induction fuel generalizing a low cnt asc with
  | zero => rfl
  | succ f ih =>
    unfold bitonicSortAux
    split
    · have hk : 2 * (cnt / 2) ≤ cnt := by omega
      simp only [bitonicMerge]
      rw [bitonicMergeAux_other key cnt _ low cnt asc p hp,
        ih _ (low + cnt / 2) (cnt / 2) false (by omega), ih _ low (cnt / 2) true (by omega)]
    · rfl

/-- The recursion of `bitonicSort` on a range of `2^m` positions inside the vector leaves
the range in order for the direction asked. -/
theorem bitonicSortAux_ordered {α : Type} (key : α → Int) (m : Nat) :
    ∀ (fuel : Nat) (a : List α) (low : Nat) (asc : Bool), 2 ^ m ≤ fuel →
      low + 2 ^ m ≤ a.length →
      SegOrdered key asc (bitonicSortAux key fuel a low (2 ^ m) asc) low (2 ^ m) := by
  induction m with
  | zero =>
    intro fuel a low asc _ _ p q x y hpq hq hx hy
    have hq0 : q = 0 := by simpa using hq
    have hp0 : p = 0 := by omega
    subst hq0 hp0
    rw [hx] at hy
    have := Option.some.inj hy
    subst this
    cases asc <;> simp
  | succ m ih =>
    intro fuel a low asc hfuel hlen
    have hpow : 2 ^ (m + 1) = 2 * 2 ^ m := by rw [pow_succ]; ring
    have hkpos : 0 < 2 ^ m := Nat.two_pow_pos m
    obtain ⟨f, rfl⟩ : ∃ f, fuel = f + 1 := ⟨fuel - 1, by omega⟩
    have hdiv : 2 ^ (m + 1) / 2 = 2 ^ m := by omega
    unfold bitonicSortAux
    rw [if_pos (by omega)]
    simp only [hdiv, bitonicMerge]
    have ih1 := ih f a low true (by omega) (by omega)
    set a1 := bitonicSortAux key f a low (2 ^ m) true with ha1
    have hl1 : a1.length = a.length := bitonicSortAux_length _ _ _ _ _ _
    have ih2 := ih f a1 (low + 2 ^ m) false (by omega) (by omega)
    set a2 := bitonicSortAux key f a1 (low + 2 ^ m) (2 ^ m) false with ha2
    have hl2 : a2.length = a.length := by rw [ha2, bitonicSortAux_length, hl1]
    have hlow2 : ∀ p, p < 2 ^ m → a2[low + p]? = a1[low + p]? := fun p hp =>
      bitonicSortAux_other key f a1 (low + 2 ^ m) (2 ^ m) false _ (by omega)
    generalize hk : 2 ^ m = k at *
    -- every threshold view of `a2` over the range is bitonic
    have hbit : ∀ t, Bitonic01 (fun p => viewAt (thr key asc t) a2 (low + p)) (2 ^ (m + 1)) := by
      intro t
      rw [hpow]
      cases asc
      · -- descending merge: the test is "key below t"
        obtain ⟨i, hik, hi⟩ := anti01 (fun p => viewAt (thr key false t) a2 (low + p)) k (by
          intro p q hpq hq hv
          have hxp : a2[low + p]? = some a2[low + p] := List.getElem?_eq_getElem (by omega)
          have hxq : a2[low + q]? = some a2[low + q] := List.getElem?_eq_getElem (by omega)
          have ho := ih1 p q _ _ hpq hq ((hlow2 p (by omega)).symm.trans hxp)
            ((hlow2 q hq).symm.trans hxq)
          simp only [if_true] at ho
          simp only [viewAt_of_getElem? _ hxp, viewAt_of_getElem? _ hxq, thr, Bool.false_eq_true,
            if_false, decide_eq_true_eq] at hv ⊢
          omega)
        obtain ⟨j, hjk, hj⟩ := mono01 (fun p => viewAt (thr key false t) a2 (low + k + p)) k (by
          intro p q hpq hq hv
          have hxp : a2[low + k + p]? = some a2[low + k + p] :=
            List.getElem?_eq_getElem (by omega)
          have hxq : a2[low + k + q]? = some a2[low + k + q] :=
            List.getElem?_eq_getElem (by omega)
          have ho := ih2 p q _ _ hpq hq hxp hxq
          simp only [Bool.false_eq_true, if_false] at ho
          simp only [viewAt_of_getElem? _ hxp, viewAt_of_getElem? _ hxq, thr, Bool.false_eq_true,
            if_false, decide_eq_true_eq] at hv ⊢
          omega)
        refine ⟨i, k + j, Or.inr ?_⟩
        intro p hp
        simp only at hi hj ⊢
        by_cases hpk : p < k
        · rw [hi p hpk, Bool.eq_iff_iff]
          simp only [decide_eq_true_eq, Bool.not_eq_true', decide_eq_false_iff_not]
          omega
        · have := hj (p - k) (by omega)
          have e : low + k + (p - k) = low + p := by omega
          rw [e] at this
          rw [this, Bool.eq_iff_iff]
          simp only [decide_eq_true_eq, Bool.not_eq_true', decide_eq_false_iff_not]
          omega
      · -- ascending merge: the test is "key above t"
        obtain ⟨i, hik, hi⟩ := mono01 (fun p => viewAt (thr key true t) a2 (low + p)) k (by
          intro p q hpq hq hv
          have hxp : a2[low + p]? = some a2[low + p] := List.getElem?_eq_getElem (by omega)
          have hxq : a2[low + q]? = some a2[low + q] := List.getElem?_eq_getElem (by omega)
          have ho := ih1 p q _ _ hpq hq ((hlow2 p (by omega)).symm.trans hxp)
            ((hlow2 q hq).symm.trans hxq)
          simp only [if_true] at ho
          simp only [viewAt_of_getElem? _ hxp, viewAt_of_getElem? _ hxq, thr,
            if_true, decide_eq_true_eq] at hv ⊢
          omega)
        obtain ⟨j, hjk, hj⟩ := anti01 (fun p => viewAt (thr key true t) a2 (low + k + p)) k (by
          intro p q hpq hq hv
          have hxp : a2[low + k + p]? = some a2[low + k + p] :=
            List.getElem?_eq_getElem (by omega)
          have hxq : a2[low + k + q]? = some a2[low + k + q] :=
            List.getElem?_eq_getElem (by omega)
          have ho := ih2 p q _ _ hpq hq hxp hxq
          simp only [Bool.false_eq_true, if_false] at ho
          simp only [viewAt_of_getElem? _ hxp, viewAt_of_getElem? _ hxq, thr,
            if_true, decide_eq_true_eq] at hv ⊢
          omega)
        refine ⟨i, k + j, Or.inl ?_⟩
        intro p hp
        simp only at hi hj ⊢
        by_cases hpk : p < k
        · rw [hi p hpk, Bool.eq_iff_iff]
          simp only [decide_eq_true_eq]
          omega
        · have := hj (p - k) (by omega)
          have e : low + k + (p - k) = low + p := by omega
          rw [e] at this
          rw [this, Bool.eq_iff_iff]
          simp only [decide_eq_true_eq]
          omega
    -- hence the merge sorts every threshold view, and the keys are in order
    intro p q x y hpq hq hx hy
    obtain ⟨i, hi⟩ := bitonicMergeAux_sorts01 key asc (key y) (m + 1) (2 ^ (m + 1)) a2 low
      (le_refl _) (by omega) (hbit (key y))
    have hvq := hi q hq
    have hvp := hi p (by omega)
    simp only [viewAt_of_getElem? _ hx, viewAt_of_getElem? _ hy] at hvq hvp
    have hq' : ¬ i ≤ q := by
      intro hiq
      rw [decide_eq_true hiq] at hvq
      cases asc <;> simp [thr] at hvq
    have hp' : thr key asc (key y) x = false := by
      rw [hvp]
      simp only [decide_eq_false_iff_not]
      omega
    cases asc
    · simp only [thr, Bool.false_eq_true, if_false, decide_eq_false_iff_not] at hp' ⊢
      omega
    · simp only [thr, if_true, decide_eq_false_iff_not] at hp' ⊢
      omega

/-- The depth bound of `bitonicMerge` is never reached: any bound of at least `cnt` gives
the same vector. -/
theorem bitonicMergeAux_fuel {α : Type} (key : α → Int) (f1 f2 : Nat) (a : List α)
    (low cnt : Nat) (asc : Bool) (h1 : cnt ≤ f1) (h2 : cnt ≤ f2) :
    bitonicMergeAux key f1 a low cnt asc = bitonicMergeAux key f2 a low cnt asc := by
  induction f1 generalizing f2 a low cnt with
  | zero =>
    cases f2 with
    | zero => rfl
    | succ f2 =>
      unfold bitonicMergeAux
      rw [if_neg (by omega)]
  | succ f1 ih =>
    cases f2 with
    | zero =>
      unfold bitonicMergeAux
      rw [if_neg (by omega)]
    | succ f2 =>
      unfold bitonicMergeAux
      split
      · simp only
        rw [ih f2 _ low (cnt / 2) (by omega) (by omega), ih f2 _ (low + cnt / 2) (cnt / 2)
          (by omega) (by omega)]
      · rfl

/-- The depth bound of `bitonicSort` is never reached either. -/
theorem bitonicSortAux_fuel {α : Type} (key : α → Int) (f1 f2 : Nat) (a : List α)
    (low cnt : Nat) (asc : Bool) (h1 : cnt ≤ f1) (h2 : cnt ≤ f2) :
    bitonicSortAux key f1 a low cnt asc = bitonicSortAux key f2 a low cnt asc := by
  induction f1 generalizing f2 a low cnt asc with
  | zero =>
    cases f2 with
    | zero => rfl
    | succ f2 =>
      unfold bitonicSortAux
      rw [if_neg (by omega)]
  | succ f1 ih =>
    cases f2 with
    | zero =>
      unfold bitonicSortAux
      rw [if_neg (by omega)]
    | succ f2 =>
      unfold bitonicSortAux
      split
      · simp only
        rw [ih f2 _ low (cnt / 2) true (by omega) (by omega),
          ih f2 _ (low + cnt / 2) (cnt / 2) false (by omega) (by omega)]
      · rfl

theorem bitonicSort_length {α : Type} (key : α → Int) (a : List α) (low cnt : Nat)
    (asc : Bool) : (bitonicSort key a low cnt asc).length = a.length :=
  bitonicSortAux_length _ _ _ _ _ _

theorem bitonicSort_perm {α : Type} (key : α → Int) (a : List α) (low cnt : Nat)
    (asc : Bool) : (bitonicSort key a low cnt asc).Perm a :=
  bitonicSortAux_perm _ _ _ _ _ _

/-- A whole vector of `2^m` elements is left pairwise in order by `bitonicSort`. -/
theorem bitonicSort_pairwise {α : Type} (key : α → Int) (a : List α) (m : Nat) (asc : Bool)
    (hlen : a.length = 2 ^ m) :
    List.Pairwise (fun x y => if asc then key x ≤ key y else key y ≤ key x)
      (bitonicSort key a 0 (2 ^ m) asc) := by
  have hord := bitonicSortAux_ordered key m (2 ^ m) a 0 asc (le_refl _) (by omega)
  rw [List.pairwise_iff_getElem]
  intro i j hi hj hij
  have hl := bitonicSort_length key a 0 (2 ^ m) asc
  apply hord i j _ _ (by omega) (by omega)
  · rw [Nat.zero_add]; exact List.getElem?_eq_getElem hi
  · rw [Nat.zero_add]; exact List.getElem?_eq_getElem hj

/-- C6. For a vector `a` of `2^m` elements and either direction,
`Enclave::bitonicSort(a, 0, 2^m, ascending)` leaves a permutation of `a` that is sorted by
`routingKey`: nondecreasing when `ascending`, nonincreasing otherwise. -/
theorem bitonicSort_sorts (a : List Element) (m : Nat) (ascending : Bool)
    (hlen : a.length = 2 ^ m) :
    (Enclave.bitonicSort a 0 (2 ^ m) ascending).Perm a ∧
      (ascending = true →
        List.Pairwise (fun x y => x.routingKey ≤ y.routingKey)
          (Enclave.bitonicSort a 0 (2 ^ m) ascending)) ∧
      (ascending = false →
        List.Pairwise (fun x y => y.routingKey ≤ x.routingKey)
          (Enclave.bitonicSort a 0 (2 ^ m) ascending)) := by
  have hp := bitonicSort_pairwise Element.routingKey a m ascending hlen
  refine ⟨bitonicSort_perm _ _ _ _ _, ?_, ?_⟩
  · intro h
    subst h
    simpa using hp
  · intro h
    subst h
    simpa using hp

/-- Four elements (`m = 2`), among them equal keys and a dummy, sorted downwards. -/
theorem bitonicSort_sorts_witness :
    (Enclave.bitonicSort
        [⟨0, 5, "a", false⟩, ⟨0, 3, "b", false⟩, ⟨0, 5, "c", false⟩, ⟨0, 1, "d", true⟩]
        0 (2 ^ 2) false).Perm
        [⟨0, 5, "a", false⟩, ⟨0, 3, "b", false⟩, ⟨0, 5, "c", false⟩, ⟨0, 1, "d", true⟩] ∧
      List.Pairwise (fun x y => y.routingKey ≤ x.routingKey)
        (Enclave.bitonicSort
          [⟨0, 5, "a", false⟩, ⟨0, 3, "b", false⟩, ⟨0, 5, "c", false⟩, ⟨0, 1, "d", true⟩]
          0 (2 ^ 2) false) :=
  have h := bitonicSort_sorts
    [⟨0, 5, "a", false⟩, ⟨0, 3, "b", false⟩, ⟨0, 5, "c", false⟩, ⟨0, 1, "d", true⟩] 2 false rfl
  ⟨h.1, h.2.2 rfl⟩

/-! ## The untrusted memory and the encryption -/

theorem lookup_filter_ne (s : List ((Nat × Nat) × List Element)) (k k1 : Nat × Nat)
    (h : k1 ≠ k) : List.lookup k1 (s.filter fun p => !(p.1 == k)) = List.lookup k1 s := by
  induction s with
  | nil => rfl
  | cons p s ih =>
    obtain ⟨pk, pb⟩ := p
    by_cases hp : pk = k
    · subst hp
      have hne : (k1 == pk) = false := by simpa using h
      simp [List.filter_cons, List.lookup_cons, hne, ih]
    · have hf : (!(pk == k)) = true := by simpa using hp
      rw [List.filter_cons]
      simp only [hf, if_true, List.lookup_cons, ih]

theorem lookup_storageSet_self (s : List ((Nat × Nat) × List Element)) (k : Nat × Nat)
    (b : List Element) : List.lookup k (storageSet s k b) = some b := by
  simp [storageSet, List.lookup_cons]

theorem lookup_storageSet_ne (s : List ((Nat × Nat) × List Element)) (k k1 : Nat × Nat)
    (b : List Element) (h : k1 ≠ k) : List.lookup k1 (storageSet s k b) = List.lookup k1 s := by
  have hne : (k1 == k) = false := by simpa using h
  simp only [storageSet, List.lookup_cons, hne]
  exact lookup_filter_ne s k k1 h

theorem read_bucket_of_lookup (m : UntrustedMemory) (level i : Nat) (b : List Element)
    (h : m.storage.lookup (level, i) = some b) :
    m.read_bucket level i =
      (b, { storage := m.storage
            access_log := m.access_log ++ [⟨Op.read, level, i, shownOf b⟩] }) := by
  unfold UntrustedMemory.read_bucket
  rw [h]

theorem shownOf_length (b : List Element) : (shownOf b).length = b.length := by
  simp [shownOf]

theorem int_xor_cancel (x k : Int) : Int.xor (Int.xor x k) k = x := by
  cases x <;> cases k <;> simp [Int.xor, Nat.xor_cancel_right]

theorem decrypt_encrypt (b : List Element) :
    Enclave.decryptBucket (Enclave.encryptBucket b) = b := by
  unfold Enclave.decryptBucket Enclave.encryptBucket
  rw [List.map_map]
  conv_rhs => rw [← List.map_id b]
  apply List.map_congr_left
  intro e _
  obtain ⟨sk, rk, rd, d⟩ := e
  cases d
  · simp [int_xor_cancel]
  · simp

theorem encryptBucket_length (b : List Element) : (Enclave.encryptBucket b).length = b.length := by
  simp [Enclave.encryptBucket]

/-! ## Merge-split -/

theorem realRows_append (x y : List Element) : realRows (x ++ y) = realRows x ++ realRows y := by
  simp [realRows]

theorem countSides_sum (bit_index : Nat) (l : List Element) :
    (countSides bit_index l).1 + (countSides bit_index l).2 = (realRows l).length := by
  induction l with
  | nil => rfl
  | cons e es ih =>
    unfold countSides
    cases hd : e.is_dummy
    · simp only [Bool.not_false, if_true]
      split
      · simp [realRows, List.filter_cons, hd] at ih ⊢; omega
      · simp [realRows, List.filter_cons, hd] at ih ⊢; omega
    · simp [realRows, List.filter_cons, hd] at ih ⊢
      exact ih

theorem reassignKeys_length (bit_index needed : Nat) (assigned : Nat) (l : List Element) :
    (reassignKeys bit_index needed assigned l).length = l.length := by
  induction l generalizing assigned with
  | nil => rfl
  | cons e es ih =>
    unfold reassignKeys
    split
    · split <;> simp [ih]
    · simp [ih]

theorem reassignKeys_realRows (bit_index needed : Nat) (assigned : Nat) (l : List Element) :
    realRows (reassignKeys bit_index needed assigned l) = realRows l := by
  induction l generalizing assigned with
  | nil => rfl
  | cons e es ih =>
    unfold reassignKeys
    cases hd : e.is_dummy
    · have := ih assigned
      simp only [realRows] at this
      simp [realRows, List.filter_cons, hd, Element.row, this]
    · simp only [if_true]
      split
      · have := ih (assigned + 1)
        simp only [realRows] at this
        simp [realRows, List.filter_cons, hd, this]
      · have := ih assigned
        simp only [realRows] at this
        simp [realRows, List.filter_cons, hd, this]

theorem realRows_perm {x y : List Element} (h : x.Perm y) : (realRows x).Perm (realRows y) :=
  (h.filter _).map _

/-- Two buckets of `Z` elements holding at most `Z` reals between them are merge-split
without overflow into two buckets of `Z` elements holding the same real rows. -/
theorem merge_split_ok (b1 b2 : List Element) (level L Z : Nat) (h1 : b1.length = Z)
    (h2 : b2.length = Z) (hreal : (realRows (b1 ++ b2)).length ≤ Z) :
    ∃ o0 o1, Enclave.merge_split_bitonic b1 b2 level L Z = Except.ok (o0, o1) ∧
      o0.length = Z ∧ o1.length = Z ∧ (realRows (o0 ++ o1)).Perm (realRows (b1 ++ b2)) := by
  have hsum := countSides_sum (L - 1 - level) (b1 ++ b2)
  unfold Enclave.merge_split_bitonic
  simp only
  rw [if_neg (by omega)]
  refine ⟨_, _, rfl, ?_, ?_, ?_⟩
  · simp [Enclave.bitonicSort, bitonicSort_length, reassignKeys_length, h1, h2]
  · simp [Enclave.bitonicSort, bitonicSort_length, reassignKeys_length, h1, h2]
  · rw [List.take_append_drop]
    refine (realRows_perm (bitonicSort_perm _ _ _ _ _)).trans ?_
    rw [reassignKeys_realRows]

/-! ## The butterfly over the memory -/

theorem LogExtends.refl (m : UntrustedMemory) (Z : Nat) : LogExtends m m [] Z :=
  ⟨[], by simp, rfl, fun _ h => absurd h (List.not_mem_nil _)⟩

theorem LogExtends.trans {m m1 m2 : UntrustedMemory} {s1 s2 : List (Op × Nat × Nat)} {Z : Nat}
    (h1 : LogExtends m m1 s1 Z) (h2 : LogExtends m1 m2 s2 Z) : LogExtends m m2 (s1 ++ s2) Z := by
  obtain ⟨f1, e1, a1, w1⟩ := h1
  obtain ⟨f2, e2, a2, w2⟩ := h2
  refine ⟨f1 ++ f2, by rw [e2, e1, List.append_assoc], by rw [List.map_append, a1, a2], ?_⟩
  intro e he
  rcases List.mem_append.1 he with h | h
  · exact w1 e h
  · exact w2 e h

/-- One pair of the butterfly, run on a memory that holds two full buckets with at most
`Z` reals between them: no overflow, two full buckets with the same real rows at the next
level, no other address changed, four log lines. -/
theorem butterflyPair_run (L Z level i : Nat) (m : UntrustedMemory) (b1 b2 : List Element)
    (hb1 : m.storage.lookup (level, i) = some (Enclave.encryptBucket b1))
    (hb2 : m.storage.lookup (level, i + 1) = some (Enclave.encryptBucket b2))
    (h1 : b1.length = Z) (h2 : b2.length = Z) (hreal : (realRows (b1 ++ b2)).length ≤ Z) :
    ∃ o0 o1 m1, butterflyPair L Z level i m = (Except.ok (), m1) ∧
      o0.length = Z ∧ o1.length = Z ∧ (realRows (o0 ++ o1)).Perm (realRows (b1 ++ b2)) ∧
      m1.storage.lookup (level + 1, i) = some (Enclave.encryptBucket o0) ∧
      m1.storage.lookup (level + 1, i + 1) = some (Enclave.encryptBucket o1) ∧
      (∀ k, k ≠ (level + 1, i) → k ≠ (level + 1, i + 1) →
        m1.storage.lookup k = m.storage.lookup k) ∧
      LogExtends m m1 (pairSchedule level i) Z := by
  obtain ⟨o0, o1, hms, ho0, ho1, hperm⟩ := merge_split_ok b1 b2 level L Z h1 h2 hreal
  refine ⟨o0, o1,
    (({ storage := m.storage
        access_log := (m.access_log ++ [⟨Op.read, level, i, shownOf (Enclave.encryptBucket b1)⟩]) ++
          [⟨Op.read, level, i + 1, shownOf (Enclave.encryptBucket b2)⟩] } :
        UntrustedMemory).write_bucket (level + 1) i (Enclave.encryptBucket o0)).write_bucket
      (level + 1) (i + 1) (Enclave.encryptBucket o1), ?_, ho0, ho1, hperm, ?_, ?_, ?_, ?_⟩
  · unfold butterflyPair
    simp only
    rw [read_bucket_of_lookup m level i _ hb1]
    simp only
    rw [read_bucket_of_lookup
      (UntrustedMemory.mk m.storage
        (m.access_log ++ [LogEntry.mk Op.read level i (shownOf (Enclave.encryptBucket b1))]))
      level (i + 1) (Enclave.encryptBucket b2) hb2]
    simp only [decrypt_encrypt, hms]
  · simp only [UntrustedMemory.write_bucket]
    rw [lookup_storageSet_ne _ _ _ _ (by simp), lookup_storageSet_self]
  · simp only [UntrustedMemory.write_bucket]
    rw [lookup_storageSet_self]
  · intro k hk1 hk2
    simp only [UntrustedMemory.write_bucket]
    rw [lookup_storageSet_ne _ _ _ _ hk2, lookup_storageSet_ne _ _ _ _ hk1]
  · refine ⟨[⟨Op.read, level, i, shownOf (Enclave.encryptBucket b1)⟩,
      ⟨Op.read, level, i + 1, shownOf (Enclave.encryptBucket b2)⟩,
      ⟨Op.write, level + 1, i, shownOf (Enclave.encryptBucket o0)⟩,
      ⟨Op.write, level + 1, i + 1, shownOf (Enclave.encryptBucket o1)⟩], ?_, rfl, ?_⟩
    · simp [UntrustedMemory.write_bucket]
    · intro e he _
      simp only [List.mem_cons, List.mem_singleton, List.not_mem_nil, or_false] at he
      rcases he with rfl | rfl | rfl | rfl <;>
        simp [shownOf_length, encryptBucket_length, h1, h2, ho0, ho1]

/-- One level of the butterfly over `c` pairs starting at bucket `i`, run on a memory that
holds full buckets with at most `Z` reals in every pair: no overflow, the next level holds
full buckets with the same real rows pair by pair, nothing else is changed. -/
theorem butterflyLevel_run (L Z level : Nat) :
    ∀ (c i : Nat) (m : UntrustedMemory) (bs : Nat → List Element),
      HoldsLevel m level i (i + 2 * c) bs →
      (∀ q, i ≤ q → q < i + 2 * c → (bs q).length = Z) →
      (∀ j, j < c → (realRows (bs (i + 2 * j) ++ bs (i + 2 * j + 1))).length ≤ Z) →
      ∃ m1 bs1, butterflyLevel L Z level c i m = (Except.ok (), m1) ∧
        HoldsLevel m1 (level + 1) i (i + 2 * c) bs1 ∧
        (∀ q, i ≤ q → q < i + 2 * c → (bs1 q).length = Z) ∧
        (∀ j, j < c → (realRows (bs1 (i + 2 * j) ++ bs1 (i + 2 * j + 1))).Perm
          (realRows (bs (i + 2 * j) ++ bs (i + 2 * j + 1)))) ∧
        (∀ k : Nat × Nat, (k.1 ≠ level + 1 ∨ k.2 < i ∨ i + 2 * c ≤ k.2) →
          m1.storage.lookup k = m.storage.lookup k) ∧
        LogExtends m m1 (levelSchedule level c i) Z := by
  intro c
  induction c with
  | zero =>
    intro i m bs _ _ _
    refine ⟨m, bs, rfl, ?_, ?_, ?_, ?_, LogExtends.refl m Z⟩
    · intro q h1 h2; omega
    · intro q h1 h2; omega
    · intro j hj; omega
    · intro k _; rfl
  | succ c ih =>
    intro i m bs hold hlen hreal
    obtain ⟨o0, o1, m1, hrun, ho0, ho1, hperm, hl0, hl1, hframe, hlog⟩ :=
      butterflyPair_run L Z level i m (bs i) (bs (i + 1)) (hold i (by omega) (by omega))
        (hold (i + 1) (by omega) (by omega)) (hlen i (by omega) (by omega))
        (hlen (i + 1) (by omega) (by omega)) (by simpa using hreal 0 (by omega))
    have hold1 : HoldsLevel m1 level (i + 2) (i + 2 + 2 * c) bs := by
      intro q hq1 hq2
      rw [hframe (level, q) (by simp) (by simp)]
      exact hold q (by omega) (by omega)
    obtain ⟨m2, bs2, hrun2, hold2, hlen2, hperm2, hframe2, hlog2⟩ :=
      ih (i + 2) m1 bs hold1 (fun q h1 h2 => hlen q (by omega) (by omega))
        (fun j hj => by
          have := hreal (j + 1) (by omega)
          have e : i + 2 * (j + 1) = i + 2 + 2 * j := by ring
          rw [e] at this
          exact this)
    refine ⟨m2, fun q => if q = i then o0 else if q = i + 1 then o1 else bs2 q, ?_, ?_, ?_, ?_,
      ?_, ?_⟩
    · simp only [butterflyLevel, hrun, hrun2]
    · intro q hq1 hq2
      by_cases hqi : q = i
      · subst hqi
        rw [hframe2 (level + 1, q) (Or.inr (Or.inl (by simp)))]
        simpa using hl0
      · by_cases hqi1 : q = i + 1
        · subst hqi1
          rw [hframe2 (level + 1, i + 1) (Or.inr (Or.inl (by simp)))]
          simpa using hl1
        · simp only [hqi, hqi1, if_false]
          exact hold2 q (by omega) (by omega)
    · intro q hq1 hq2
      by_cases hqi : q = i
      · simp [hqi, ho0]
      · by_cases hqi1 : q = i + 1
        · simp [hqi1, ho1]
        · simp only [hqi, hqi1, if_false]
          exact hlen2 q (by omega) (by omega)
    · intro j hj
      rcases Nat.eq_zero_or_pos j with hj0 | hjpos
      · subst hj0
        simpa using hperm
      · have := hperm2 (j - 1) (by omega)
        have e : i + 2 + 2 * (j - 1) = i + 2 * j := by omega
        rw [e] at this
        have n1 : i + 2 * j ≠ i := by omega
        have n2 : i + 2 * j ≠ i + 1 := by omega
        have n3 : i + 2 * j + 1 ≠ i := by omega
        have n4 : i + 2 * j + 1 ≠ i + 1 := by omega
        simp only [n1, n2, n3, n4, if_false]
        exact this
    · intro k hk
      rw [hframe2 k (by omega)]
      apply hframe k
      · intro h; subst h; simp at hk
      · intro h; subst h; simp at hk; omega
    · have := hlog.trans hlog2
      simpa [levelSchedule] using this

/-- All `c` remaining levels of the butterfly over an even number `B = 2h` of buckets. -/
theorem butterflyLevels_run (B L Z h : Nat) (hB : B = 2 * h) :
    ∀ (c level : Nat) (m : UntrustedMemory) (bs : Nat → List Element),
      HoldsLevel m level 0 B bs →
      (∀ q, q < B → (bs q).length = Z) →
      (∀ j, j < h → (realRows (bs (2 * j) ++ bs (2 * j + 1))).length ≤ Z) →
      ∃ m1 bs1, butterflyLevels B L Z c level m = (Except.ok (), m1) ∧
        HoldsLevel m1 (level + c) 0 B bs1 ∧
        (∀ q, q < B → (bs1 q).length = Z) ∧
        (∀ j, j < h → (realRows (bs1 (2 * j) ++ bs1 (2 * j + 1))).Perm
          (realRows (bs (2 * j) ++ bs (2 * j + 1)))) ∧
        LogExtends m m1 (butterflySchedule B c level) Z := by
  intro c
  induction c with
  | zero =>
    intro level m bs hold hlen _
    exact ⟨m, bs, rfl, hold, hlen, fun j _ => List.Perm.refl _, LogExtends.refl m Z⟩
  | succ c ih =>
    intro level m bs hold hlen hreal
    have hh : (B + 1) / 2 = h := by omega
    obtain ⟨m1, bs1, hrun1, hold1, hlen1, hperm1, _, hlog1⟩ :=
      butterflyLevel_run L Z level h 0 m bs
        (fun q h1 h2 => hold q h1 (by omega))
        (fun q _ h2 => hlen q (by omega))
        (fun j hj => by simpa using hreal j hj)
    have hold1' : HoldsLevel m1 (level + 1) 0 B bs1 := fun q h1 h2 => hold1 q h1 (by omega)
    have hperm1' : ∀ j, j < h → (realRows (bs1 (2 * j) ++ bs1 (2 * j + 1))).Perm
        (realRows (bs (2 * j) ++ bs (2 * j + 1))) := by
      intro j hj
      simpa using hperm1 j hj
    obtain ⟨m2, bs2, hrun2, hold2, hlen2, hperm2, hlog2⟩ :=
      ih (level + 1) m1 bs1 hold1' (fun q hq => hlen1 q (Nat.zero_le _) (by omega))
        (fun j hj => by rw [(hperm1' j hj).length_eq]; exact hreal j hj)
    refine ⟨m2, bs2, ?_, ?_, hlen2, fun j hj => (hperm2 j hj).trans (hperm1' j hj), ?_⟩
    · simp only [butterflyLevels, hh, hrun1, hrun2]
    · have e : level + (c + 1) = level + 1 + c := by omega
      rw [e]
      exact hold2
    · have := hlog1.trans hlog2
      simpa [butterflySchedule, hh] using this

theorem flatMap_range_pairs {β : Type} (f : Nat → List β) (h : Nat) :
    (List.range (2 * h)).flatMap f =
      (List.range h).flatMap fun j => f (2 * j) ++ f (2 * j + 1) := by
  induction h with
  | zero => rfl
  | succ h ih =>
    have e : 2 * (h + 1) = (2 * h + 1) + 1 := by ring
    rw [e, List.range_succ, List.range_succ, List.range_succ, List.flatMap_append,
      List.flatMap_append, List.flatMap_append, ih]
    simp [List.flatMap_singleton, List.append_assoc]

/-- The whole butterfly, `B = 2^L` buckets: it ends without overflow, level `L` holds full
buckets, and all buckets together hold the same real rows as before. -/
theorem performButterflyNetwork_run (B L Z : Nat) (hBL : B = 2 ^ L) (m : UntrustedMemory)
    (bs : Nat → List Element) (hold : HoldsLevel m 0 0 B bs)
    (hlen : ∀ q, q < B → (bs q).length = Z)
    (hreal : ∀ j, 2 * j + 1 < B → (realRows (bs (2 * j) ++ bs (2 * j + 1))).length ≤ Z) :
    ∃ m1 bs1, Enclave.performButterflyNetwork B L Z m = (Except.ok (), m1) ∧
      HoldsLevel m1 L 0 B bs1 ∧ (∀ q, q < B → (bs1 q).length = Z) ∧
      ((List.range B).flatMap fun q => realRows (bs1 q)).Perm
        ((List.range B).flatMap fun q => realRows (bs q)) ∧
      LogExtends m m1 (butterflySchedule B L 0) Z := by
  cases L with
  | zero =>
    exact ⟨m, bs, rfl, hold, hlen, List.Perm.refl _, LogExtends.refl m Z⟩
  | succ L =>
    have hB : B = 2 * 2 ^ L := by rw [hBL, pow_succ]; ring
    obtain ⟨m1, bs1, hrun, hold1, hlen1, hperm, hlog⟩ :=
      butterflyLevels_run B (L + 1) Z (2 ^ L) hB (L + 1) 0 m bs hold hlen
        (fun j hj => hreal j (by omega))
    refine ⟨m1, bs1, hrun, by simpa using hold1, hlen1, ?_, hlog⟩
    rw [hB, flatMap_range_pairs, flatMap_range_pairs]
    apply List.Perm.flatMap_left
    intro j hj
    have hj' : j < 2 ^ L := List.mem_range.1 hj
    have := hperm j hj'
    rw [realRows_append, realRows_append] at this
    exact this

/-! ## Initialisation and extraction -/

theorem padBucket_length (Z : Nat) (g : List Element) (h : g.length ≤ Z) :
    (padBucket Z g).length = Z := by
  simp [padBucket]; omega

/-- The writing loop of `initializeBuckets`: group `q` of `gs` ends, padded and encrypted,
at `(0, i + q)`; addresses outside level 0, indices `i .. i + |gs| - 1`, are not changed. -/
theorem writeGroups_run (Z : Nat) :
    ∀ (gs : List (List Element)) (i : Nat) (m : UntrustedMemory),
      (∀ g, g ∈ gs → g.length ≤ Z) →
      (∀ q g, gs[q]? = some g →
        (writeGroups Z gs i m).storage.lookup (0, i + q) =
          some (Enclave.encryptBucket (padBucket Z g))) ∧
      (∀ k : Nat × Nat, (k.1 ≠ 0 ∨ k.2 < i ∨ i + gs.length ≤ k.2) →
        (writeGroups Z gs i m).storage.lookup k = m.storage.lookup k) ∧
      LogExtends m (writeGroups Z gs i m) (rowSchedule Op.write 0 gs.length i) Z := by
  intro gs
  induction gs with
  | nil =>
    intro i m _
    exact ⟨fun q g h => by simp at h, fun k _ => rfl, LogExtends.refl m Z⟩
  | cons g gs ih =>
    intro i m hle
    obtain ⟨h1, h2, h3⟩ := ih (i + 1)
      (m.write_bucket 0 i (Enclave.encryptBucket (padBucket Z g)))
      (fun g' hg' => hle g' (List.mem_cons_of_mem _ hg'))
    refine ⟨?_, ?_, ?_⟩
    · intro q g' hq
      cases q with
      | zero =>
        simp only [List.getElem?_cons_zero, Option.some.injEq] at hq
        subst hq
        simp only [writeGroups, Nat.add_zero]
        rw [h2 (0, i) (Or.inr (Or.inl (by simp)))]
        simp only [UntrustedMemory.write_bucket]
        exact lookup_storageSet_self _ _ _
      | succ q =>
        simp only [List.getElem?_cons_succ] at hq
        have := h1 q g' hq
        have e : i + (q + 1) = i + 1 + q := by omega
        simp only [writeGroups, e]
        exact this
    · intro k hk
      simp only [writeGroups]
      rw [h2 k (by simp only [List.length_cons] at hk; omega)]
      simp only [UntrustedMemory.write_bucket]
      apply lookup_storageSet_ne
      intro h
      subst h
      simp at hk
    · have hw : LogExtends m (m.write_bucket 0 i (Enclave.encryptBucket (padBucket Z g)))
          [(Op.write, 0, i)] Z := by
        refine ⟨[⟨Op.write, 0, i, shownOf (Enclave.encryptBucket (padBucket Z g))⟩], rfl, rfl, ?_⟩
        intro e he _
        simp only [List.mem_singleton] at he
        subst he
        simp [shownOf_length, encryptBucket_length,
          padBucket_length Z g (hle g (List.mem_cons_self _ _))]
      have := hw.trans h3
      simpa [writeGroups, rowSchedule] using this

theorem buildElements_rows (rng : Nat → Nat) (B : Nat) (i : Nat) (rows : List (Int × String)) :
    (buildElements rng B i rows).map Element.row = rows := by
  induction rows generalizing i with
  | nil => rfl
  | cons r rs ih => simp [buildElements, Element.row, ih]

theorem buildElements_real (rng : Nat → Nat) (B : Nat) (i : Nat) (rows : List (Int × String)) :
    ∀ e, e ∈ buildElements rng B i rows → e.is_dummy = false := by
  induction rows generalizing i with
  | nil => intro e he; simp [buildElements] at he
  | cons r rs ih =>
    intro e he
    simp only [buildElements, List.mem_cons] at he
    rcases he with rfl | he
    · rfl
    · exact ih (i + 1) e he

theorem buildElements_length (rng : Nat → Nat) (B : Nat) (i : Nat)
    (rows : List (Int × String)) : (buildElements rng B i rows).length = rows.length := by
  induction rows generalizing i with
  | nil => rfl
  | cons r rs ih => simp [buildElements, ih]

theorem groupOf_length_le (els : List Element) (n g q : Nat) :
    (groupOf els n g q).length ≤ g := by
  unfold groupOf
  simp only
  split
  · simp only [List.length_drop, List.length_take]
    omega
  · simp

theorem groupOf_mem (els : List Element) (n g q : Nat) :
    ∀ e, e ∈ groupOf els n g q → e ∈ els := by
  intro e he
  unfold groupOf at he
  simp only at he
  split at he
  · exact List.mem_of_mem_take (List.mem_of_mem_drop he)
  · simp at he

/-- The groups are consecutive slices: the first `B` of them make up the first `B * g`
elements. -/
theorem flatMap_groupOf (els : List Element) (g B : Nat) :
    (List.range B).flatMap (groupOf els els.length g) = els.take (B * g) := by
  induction B with
  | zero => simp
  | succ B ih =>
    rw [List.range_succ, List.flatMap_append, ih, List.flatMap_singleton]
    unfold groupOf
    simp only
    have e : (B + 1) * g = B * g + g := by ring
    rw [e]
    split
    · rename_i hlt
      have ht : List.take (min (B * g + g) els.length) els = List.take (B * g + g) els := by
        rcases Nat.le_total (B * g + g) els.length with h | h
        · rw [Nat.min_eq_left h]
        · rw [Nat.min_eq_right h, List.take_of_length_le (le_refl _), List.take_of_length_le h]
      rw [ht]
      have h1 : List.take (B * g) els = List.take (B * g) (List.take (B * g + g) els) := by
        rw [List.take_take, Nat.min_eq_left (Nat.le_add_right _ _)]
      rw [h1, List.take_append_drop]
    · rename_i hge
      rw [List.append_nil, List.take_of_length_le (by omega), List.take_of_length_le (by omega)]

theorem realRows_of_real (l : List Element) (h : ∀ e, e ∈ l → e.is_dummy = false) :
    realRows l = l.map Element.row := by
  unfold realRows
  rw [List.filter_eq_self.2]
  intro e he
  simp [h e he]

theorem realRows_padBucket (Z : Nat) (g : List Element) (h : ∀ e, e ∈ g → e.is_dummy = false) :
    realRows (padBucket Z g) = g.map Element.row := by
  unfold padBucket
  rw [realRows_append, realRows_of_real g h]
  simp [realRows, List.filter_replicate, dummyElement]

theorem flatMap_range_succ {β : Type} (f : Nat → List β) (c : Nat) :
    (List.range (c + 1)).flatMap f = f 0 ++ (List.range c).flatMap fun q => f (q + 1) := by
  rw [List.range_succ_eq_map, List.flatMap_cons, List.flatMap_map]

/-- The loop of `extractFinalElements` over `c` buckets from index `i`, run on a memory
holding level `L`: it appends the shuffled reals of each bucket, in bucket order, and
issues `c` reads. -/
theorem extractLoop_run (shuffle : Nat → List Element → List Element) (L Z : Nat)
    (bs : Nat → List Element) :
    ∀ (c i : Nat) (acc : List Element) (m : UntrustedMemory),
      HoldsLevel m L i (i + c) bs →
      ∃ m1, extractLoop shuffle L c i acc m =
          (acc ++ (List.range c).flatMap fun q =>
            shuffle (i + q) ((bs (i + q)).filter fun e => !e.is_dummy), m1) ∧
        LogExtends m m1 (rowSchedule Op.read L c i) Z := by
  intro c
  induction c with
  | zero =>
    intro i acc m _
    exact ⟨m, by simp [extractLoop], LogExtends.refl m Z⟩
  | succ c ih =>
    intro i acc m hold
    have hrd := read_bucket_of_lookup m L i _ (hold i (le_refl _) (by omega))
    obtain ⟨m1, hrun, hlog⟩ := ih (i + 1)
      (acc ++ shuffle i ((bs i).filter fun e => !e.is_dummy))
      (UntrustedMemory.mk m.storage
        (m.access_log ++ [LogEntry.mk Op.read L i (shownOf (Enclave.encryptBucket (bs i)))]))
      (fun q h1 h2 => hold q (by omega) (by omega))
    have hidx : ∀ q, i + 1 + q = i + (q + 1) := fun q => by omega
    simp only [hidx] at hrun
    refine ⟨m1, ?_, ?_⟩
    · simp only [extractLoop, hrd, decrypt_encrypt, hrun, flatMap_range_succ, Nat.add_zero,
        List.append_assoc]
    · have hr : LogExtends m
          (UntrustedMemory.mk m.storage
            (m.access_log ++
              [LogEntry.mk Op.read L i (shownOf (Enclave.encryptBucket (bs i)))]))
          [(Op.read, L, i)] Z := by
        refine ⟨[LogEntry.mk Op.read L i (shownOf (Enclave.encryptBucket (bs i)))], rfl, rfl, ?_⟩
        intro e he hw
        simp only [List.mem_singleton] at he
        subst he
        simp at hw
      have := hr.trans hlog
      simpa [rowSchedule] using this

theorem groupSize_le_half (n B Z : Nat) (hB : 0 < B) (h : n ≤ B * (Z / 2)) :
    (n + B - 1) / B ≤ Z / 2 := by
  rw [← Nat.lt_succ_iff, Nat.div_lt_iff_lt_mul hB]
  have e : (Z / 2).succ * B = B * (Z / 2) + B := by
    rw [Nat.succ_mul, Nat.mul_comm]
  rw [e]
  omega

theorem le_mul_groupSize (n B : Nat) (hB : 0 < B) : n ≤ B * ((n + B - 1) / B) := by
  have h1 := Nat.div_add_mod (n + B - 1) B
  have h2 := Nat.mod_lt (n + B - 1) hB
  generalize B * ((n + B - 1) / B) = t at *
  omega

/-- The run of `oblivious_sort` on accepted parameters `(B, L)`: it returns normally; what
it hands to `finalSort` is, bucket by bucket, the shuffled reals of the `B` buckets of
level `L`, which together hold exactly the input rows; and the accesses it issues are the
schedule determined by the input length and `Z`, every write with a bucket of `Z`
elements. -/
theorem oblivious_sort_run (rng : Nat → Nat) (shuffle : Nat → List Element → List Element)
    (inputRows : List (Int × String)) (Z B L : Nat) (m : UntrustedMemory)
    (hacc : Enclave.computeBucketParameters inputRows.length Z = Except.ok (B, L)) :
    ∃ (bsL : Nat → List Element) (m1 : UntrustedMemory),
      Enclave.oblivious_sort rng shuffle inputRows Z m =
        (Except.ok (Enclave.finalSort ((List.range B).flatMap fun q =>
          shuffle q ((bsL q).filter fun e => !e.is_dummy))), m1) ∧
      ((List.range B).flatMap fun q => realRows (bsL q)).Perm inputRows ∧
      LogExtends m m1 (accessSchedule inputRows.length Z) Z := by
  obtain ⟨hBdef, _, hcap⟩ := computeBucketParameters_ok hacc
  have hBL := computeBucketParameters_pow hacc
  have hBpos : 0 < B := by rw [hBL]; exact Nat.two_pow_pos L
  set n := inputRows.length with hn
  set els := buildElements rng B 0 inputRows with hels
  have hlen_els : els.length = n := buildElements_length _ _ _ _
  set g := (n + B - 1) / B with hg
  have hgZ : g ≤ Z / 2 := groupSize_le_half n B Z hBpos hcap
  have hcover : n ≤ B * g := le_mul_groupSize n B hBpos
  -- level 0 after initialisation
  set bs0 : Nat → List Element := fun q => padBucket Z (groupOf els n g q) with hbs0
  obtain ⟨hw1, _, hwlog⟩ := writeGroups_run Z ((List.range B).map (groupOf els n g)) 0 m (by
    intro grp hgrp
    obtain ⟨q, _, rfl⟩ := List.mem_map.1 hgrp
    have := groupOf_length_le els n g q
    omega)
  have hinit : Enclave.initializeBuckets rng inputRows B Z m =
      writeGroups Z ((List.range B).map (groupOf els n g)) 0 m := rfl
  set m0 := Enclave.initializeBuckets rng inputRows B Z m with hm0
  have hold0 : HoldsLevel m0 0 0 B bs0 := by
    intro q _ hq
    have := hw1 q (groupOf els n g q) (by simp [hq])
    rw [Nat.zero_add] at this
    rw [hinit]
    exact this
  have hreal_grp : ∀ q, ∀ e, e ∈ groupOf els n g q → e.is_dummy = false := fun q e he =>
    buildElements_real rng B 0 inputRows e (groupOf_mem els n g q e he)
  have hlen0 : ∀ q, q < B → (bs0 q).length = Z := by
    intro q _
    apply padBucket_length
    have := groupOf_length_le els n g q
    omega
  have hrows0 : ∀ q, realRows (bs0 q) = (groupOf els n g q).map Element.row := fun q =>
    realRows_padBucket Z _ (hreal_grp q)
  have hpair0 : ∀ j, 2 * j + 1 < B →
      (realRows (bs0 (2 * j) ++ bs0 (2 * j + 1))).length ≤ Z := by
    intro j _
    rw [realRows_append, hrows0, hrows0]
    have h1 := groupOf_length_le els n g (2 * j)
    have h2 := groupOf_length_le els n g (2 * j + 1)
    simp only [List.length_append, List.length_map]
    omega
  -- the butterfly
  obtain ⟨m1, bsL, hnet, holdL, _, hpermL, hnetlog⟩ :=
    performButterflyNetwork_run B L Z hBL m0 bs0 hold0 hlen0 hpair0
  -- the extraction
  obtain ⟨m2, hext, hextlog⟩ := extractLoop_run shuffle L Z bsL B 0 [] m1
    (by simpa using holdL)
  refine ⟨bsL, m2, ?_, ?_, ?_⟩
  · unfold Enclave.oblivious_sort
    simp only [← hn, hacc, ← hm0, hnet, Enclave.extractFinalElements, hext, List.nil_append,
      Nat.zero_add]
  · refine hpermL.trans ?_
    have h0 : ((List.range B).flatMap fun q => realRows (bs0 q)) = inputRows := by
      simp only [hrows0]
      rw [← List.map_flatMap, ← hlen_els, flatMap_groupOf els g B,
        List.take_of_length_le (by rw [hlen_els]; exact hcover), hels, buildElements_rows]
    rw [h0]
  · have := (hwlog.trans hnetlog).trans hextlog
    simpa [accessSchedule, ← hn, hacc] using this

/-! ## The contract of `oblivious_sort` -/

theorem sortedElems_perm (l : List Element) : (sortedElems l).Perm l :=
  List.perm_insertionSort sortKeyLE l

theorem sortedElems_sorted (l : List Element) :
    List.Pairwise (fun a b => a.sortKey ≤ b.sortKey) (sortedElems l) :=
  List.sorted_insertionSort sortKeyLE l

/-- The rows of the shuffled reals of the buckets are the real rows of the buckets, up to
order, when every shuffle is a rearrangement. -/
theorem extracted_rows_perm (shuffle : Nat → List Element → List Element)
    (hshuffle : ∀ i l, (shuffle i l).Perm l) (bs : Nat → List Element) (B : Nat) :
    (((List.range B).flatMap fun q =>
        shuffle q ((bs q).filter fun e => !e.is_dummy)).map Element.row).Perm
      ((List.range B).flatMap fun q => realRows (bs q)) := by
  rw [List.map_flatMap]
  apply List.Perm.flatMap_left
  intro q _
  exact (hshuffle q _).map Element.row

/-- The accesses of any run of `oblivious_sort`, accepted or refused, are the schedule of
the input length and `Z`, and every bucket written has `Z` elements. -/
theorem oblivious_sort_log (rng : Nat → Nat) (shuffle : Nat → List Element → List Element)
    (inputRows : List (Int × String)) (Z : Nat) (m : UntrustedMemory) :
    LogExtends m (Enclave.oblivious_sort rng shuffle inputRows Z m).2
      (accessSchedule inputRows.length Z) Z := by
  cases hacc : Enclave.computeBucketParameters inputRows.length Z with
  | error e =>
    have h1 : Enclave.oblivious_sort rng shuffle inputRows Z m = (Except.error e, m) := by
      unfold Enclave.oblivious_sort
      simp only [hacc]
    have h2 : accessSchedule inputRows.length Z = [] := by
      unfold accessSchedule
      simp only [hacc]
    rw [h1, h2]
    exact LogExtends.refl m Z
  | ok p =>
    obtain ⟨B, L⟩ := p
    obtain ⟨bsL, m1, hrun, _, hlog⟩ := oblivious_sort_run rng shuffle inputRows Z B L m hacc
    rw [hrun]
    exact hlog

/-- C1. For every input, every bucket size `Z >= 1` that `computeBucketParameters` accepts,
every draw of routing keys and every outcome of the extraction shuffles, `oblivious_sort`
returns normally, and what it returns are the payloads of elements `es` that are in
nondecreasing `sortKey` order and whose (sortKey, payload) pairs are the input rows. -/
theorem oblivious_sort_sorted (rng : Nat → Nat) (shuffle : Nat → List Element → List Element)
    (inputRows : List (Int × String)) (Z B L : Nat) (m : UntrustedMemory) (hZ : 1 ≤ Z)
    (hacc : Enclave.computeBucketParameters inputRows.length Z = Except.ok (B, L))
    (hshuffle : ∀ i l, (shuffle i l).Perm l) :
    ∃ (es : List Element) (m1 : UntrustedMemory),
      Enclave.oblivious_sort rng shuffle inputRows Z m =
        (Except.ok (es.map Element.rowData), m1) ∧
      List.Pairwise (fun a b => a.sortKey ≤ b.sortKey) es ∧
      (es.map Element.row).Perm inputRows := by
  have _ := hZ
  obtain ⟨bsL, m1, hrun, hperm, _⟩ := oblivious_sort_run rng shuffle inputRows Z B L m hacc
  refine ⟨sortedElems ((List.range B).flatMap fun q =>
    shuffle q ((bsL q).filter fun e => !e.is_dummy)), m1, hrun, sortedElems_sorted _, ?_⟩
  exact (((sortedElems_perm _).map Element.row).trans
    (extracted_rows_perm shuffle hshuffle bsL B)).trans hperm

/-- C3. Two runs of `oblivious_sort` on inputs of the same length with the same `Z`,
whatever the sort keys, payloads, routing-key draws, shuffles and earlier memory contents:
each run appends its accesses to the log, and the sequences of (operation, level, bucket
index) of the two runs are the same list, namely the schedule computed from `n` and `Z`. -/
theorem access_trace_oblivious (rng1 rng2 : Nat → Nat)
    (shuffle1 shuffle2 : Nat → List Element → List Element)
    (rows1 rows2 : List (Int × String)) (Z : Nat) (m1 m2 : UntrustedMemory)
    (hlen : rows1.length = rows2.length) :
    ∃ fresh1 fresh2 : List LogEntry,
      (Enclave.oblivious_sort rng1 shuffle1 rows1 Z m1).2.access_log =
          m1.access_log ++ fresh1 ∧
        (Enclave.oblivious_sort rng2 shuffle2 rows2 Z m2).2.access_log =
          m2.access_log ++ fresh2 ∧
        fresh1.map LogEntry.addr = accessSchedule rows1.length Z ∧
        fresh2.map LogEntry.addr = fresh1.map LogEntry.addr := by
  obtain ⟨f1, e1, a1, _⟩ := oblivious_sort_log rng1 shuffle1 rows1 Z m1
  obtain ⟨f2, e2, a2, _⟩ := oblivious_sort_log rng2 shuffle2 rows2 Z m2
  exact ⟨f1, f2, e1, e2, a1, by rw [a2, a1, hlen]⟩

/-- C5. In every run of `oblivious_sort` on accepted parameters, every bucket passed to
`write_bucket`, at level 0 by `initializeBuckets` and at levels `1..L` by
`performButterflyNetwork`, has exactly `Z` elements: the run appends to the access log the
lines of the schedule, and each write line among them shows `Z` elements. -/
theorem written_buckets_have_length_Z (rng : Nat → Nat)
    (shuffle : Nat → List Element → List Element) (inputRows : List (Int × String))
    (Z B L : Nat) (m : UntrustedMemory) (hZ : 1 ≤ Z)
    (hacc : Enclave.computeBucketParameters inputRows.length Z = Except.ok (B, L)) :
    ∃ fresh : List LogEntry,
      (Enclave.oblivious_sort rng shuffle inputRows Z m).2.access_log =
          m.access_log ++ fresh ∧
        fresh.map LogEntry.addr =
          rowSchedule Op.write 0 B 0 ++ butterflySchedule B L 0 ++ rowSchedule Op.read L B 0 ∧
        ∀ e, e ∈ fresh → e.op = Op.write → e.shown.length = Z := by
  have _ := hZ
  obtain ⟨fresh, h1, h2, h3⟩ := oblivious_sort_log rng shuffle inputRows Z m
  refine ⟨fresh, h1, ?_, h3⟩
  rw [h2]
  unfold accessSchedule
  simp only [hacc]

/-- The first scenario of the specification: keys `3 1 4 1 5 9 2 6`, `Z = 4` (accepted with
`B = 4`, `L = 2`), the shuffle reversing every bucket. -/
theorem oblivious_sort_sorted_witness :
    1 ≤ 4 ∧
      Enclave.computeBucketParameters 8 4 = Except.ok (4, 2) ∧
      (∀ (i : Nat) (l : List Element),
        ((fun (_ : Nat) (l : List Element) => l.reverse) i l).Perm l) ∧
      ∃ (es : List Element) (m1 : UntrustedMemory),
        Enclave.oblivious_sort (fun i => 7 * i + 3) (fun _ l => l.reverse)
            [(3, "a"), (1, "b"), (4, "c"), (1, "d"), (5, "e"), (9, "f"), (2, "g"), (6, "h")] 4
            ⟨[], []⟩ =
          (Except.ok (es.map Element.rowData), m1) ∧
        List.Pairwise (fun a b => a.sortKey ≤ b.sortKey) es ∧
        (es.map Element.row).Perm
          [(3, "a"), (1, "b"), (4, "c"), (1, "d"), (5, "e"), (9, "f"), (2, "g"), (6, "h")] :=
  have h : Enclave.computeBucketParameters 8 4 = Except.ok (4, 2) := by
    simp [Enclave.computeBucketParameters, doubleUntil, Nat.log2]
  ⟨by decide, h, fun _ l => List.reverse_perm l,
    oblivious_sort_sorted (fun i => 7 * i + 3) (fun _ l => l.reverse)
      [(3, "a"), (1, "b"), (4, "c"), (1, "d"), (5, "e"), (9, "f"), (2, "g"), (6, "h")] 4 4 2
      ⟨[], []⟩ (by decide) h (fun _ l => List.reverse_perm l)⟩

/-- Two inputs of three rows with different keys, payloads, routing keys, shuffles and
earlier memory contents, both with `Z = 2`. -/
theorem access_trace_oblivious_witness :
    [((3 : Int), "a"), (1, "b"), (2, "c")].length = [((9 : Int), "x"), (9, "y"), (0, "z")].length ∧
      ∃ fresh1 fresh2 : List LogEntry,
        (Enclave.oblivious_sort (fun _ => 3) (fun _ l => l) [(3, "a"), (1, "b"), (2, "c")] 2
            ⟨[], []⟩).2.access_log = ([] : List LogEntry) ++ fresh1 ∧
          (Enclave.oblivious_sort (fun i => i) (fun _ l => l.reverse)
            [(9, "x"), (9, "y"), (0, "z")] 2
            ⟨[((0, 0), [])], [⟨Op.read, 0, 0, []⟩]⟩).2.access_log =
              [⟨Op.read, 0, 0, []⟩] ++ fresh2 ∧
          fresh1.map LogEntry.addr =
            accessSchedule [((3 : Int), "a"), (1, "b"), (2, "c")].length 2 ∧
          fresh2.map LogEntry.addr = fresh1.map LogEntry.addr :=
  ⟨rfl,
    access_trace_oblivious (fun _ => 3) (fun i => i) (fun _ l => l) (fun _ l => l.reverse)
      [(3, "a"), (1, "b"), (2, "c")] [(9, "x"), (9, "y"), (0, "z")] 2 ⟨[], []⟩
      ⟨[((0, 0), [])], [⟨Op.read, 0, 0, []⟩]⟩ rfl⟩

/-- Three rows with `Z = 2` (`B = 4`, `L = 2`): twelve writes, each of two elements. -/
theorem written_buckets_have_length_Z_witness :
    1 ≤ 2 ∧
      Enclave.computeBucketParameters 3 2 = Except.ok (4, 2) ∧
      ∃ fresh : List LogEntry,
        (Enclave.oblivious_sort (fun _ => 3) (fun _ l => l) [(1, "a"), (2, "b"), (3, "c")] 2
            ⟨[], []⟩).2.access_log = ([] : List LogEntry) ++ fresh ∧
          fresh.map LogEntry.addr =
            rowSchedule Op.write 0 4 0 ++ butterflySchedule 4 2 0 ++ rowSchedule Op.read 2 4 0 ∧
          ∀ e, e ∈ fresh → e.op = Op.write → e.shown.length = 2 :=
  have h : Enclave.computeBucketParameters 3 2 = Except.ok (4, 2) := by
    simp [Enclave.computeBucketParameters, doubleUntil, Nat.log2]
  ⟨by decide, h,
    written_buckets_have_length_Z (fun _ => 3) (fun _ l => l) [(1, "a"), (2, "b"), (3, "c")]
      2 4 2 ⟨[], []⟩ (by decide) h⟩

/-! ## Where the code departs from the specification -/

/-- C4 (the code at a failing input). Three rows, `Z = 2`, hence `B = 4`, `L = 2`, every row
drawing the routing key `3` (binary `11`). The routing invariant sends all three to
bucket 3 at level 2 and, after level 0, to a bucket whose bit 1 is set. The code leaves
rows `b` and `a` in bucket 1 at level 1 and in bucket 0 at level 2, row `c` in bucket 2
at level 2, and bucket 3 holds dummies only. -/
theorem routing_invariant_fails :
    Enclave.computeBucketParameters 3 2 = Except.ok (4, 2) ∧
      routing_dist 4 3 = 3 ∧
      (((Enclave.oblivious_sort (fun _ => 3) (fun _ l => l)
          [(1, "a"), (2, "b"), (3, "c")] 2 ⟨[], []⟩).2.storage.lookup (1, 1)).map
            fun b => (Enclave.decryptBucket b).map fun e => (e.rowData, e.is_dummy)) =
          some [("b", false), ("a", false)] ∧
      (((Enclave.oblivious_sort (fun _ => 3) (fun _ l => l)
          [(1, "a"), (2, "b"), (3, "c")] 2 ⟨[], []⟩).2.storage.lookup (2, 0)).map
            fun b => (Enclave.decryptBucket b).map fun e => (e.rowData, e.is_dummy)) =
          some [("b", false), ("a", false)] ∧
      (((Enclave.oblivious_sort (fun _ => 3) (fun _ l => l)
          [(1, "a"), (2, "b"), (3, "c")] 2 ⟨[], []⟩).2.storage.lookup (2, 2)).map
            fun b => (Enclave.decryptBucket b).map fun e => (e.rowData, e.is_dummy)) =
          some [("c", false), ("DUMMY", true)] ∧
      (((Enclave.oblivious_sort (fun _ => 3) (fun _ l => l)
          [(1, "a"), (2, "b"), (3, "c")] 2 ⟨[], []⟩).2.storage.lookup (2, 3)).map
            fun b => (Enclave.decryptBucket b).map fun e => (e.rowData, e.is_dummy)) =
          some [("DUMMY", true), ("DUMMY", true)] := by
  have h : Enclave.computeBucketParameters 3 2 = Except.ok (4, 2) := by
    simp [Enclave.computeBucketParameters, doubleUntil, Nat.log2]
  have hrun : Enclave.oblivious_sort (fun _ => 3) (fun _ l => l)
      [(1, "a"), (2, "b"), (3, "c")] 2 ⟨[], []⟩ =
      (match Enclave.performButterflyNetwork 4 2 2
          (Enclave.initializeBuckets (fun _ => 3) [(1, "a"), (2, "b"), (3, "c")] 4 2 ⟨[], []⟩) with
        | (Except.error e, m2) => (Except.error e, m2)
        | (Except.ok _, m2) =>
            (Except.ok (Enclave.finalSort
              (Enclave.extractFinalElements (fun _ l => l) 4 2 m2).1),
              (Enclave.extractFinalElements (fun _ l => l) 4 2 m2).2)) := by
    unfold Enclave.oblivious_sort
    simp only [List.length_cons, List.length_nil, h]
  refine ⟨h, by decide, ?_⟩
  rw [hrun]
  decide

/-- C8 (the code at a failing input). With the four shards of the driver and the input
`[1, 3, 2, 4]`, every shard holds one value; round 1 merges shards (0, 1) and (2, 3),
round 2 merges (0, 2) and (1, 3), and the shards end as `[1], [3], [2], [4]`: the
concatenation written to the output is `[1, 3, 2, 4]`, which is not sorted. -/
theorem distributed_merge_unsorted :
    afterRounds 4 [1, 3, 2, 4] =
        [[⟨1, 1, false⟩], [⟨3, 3, false⟩], [⟨2, 2, false⟩], [⟨4, 4, false⟩]] ∧
      distributedSort 4 [1, 3, 2, 4] = [1, 3, 2, 4] ∧
      ¬ List.Pairwise (fun a b : Int => a ≤ b) (distributedSort 4 [1, 3, 2, 4]) := by
  have h : Nat.log2 4 = 2 := Nat.log2_two_pow (n := 2)
  have h1 : afterRounds 4 [1, 3, 2, 4] =
      [[⟨1, 1, false⟩], [⟨3, 3, false⟩], [⟨2, 2, false⟩], [⟨4, 4, false⟩]] := by
    simp only [afterRounds, h]
    decide
  have h2 : distributedSort 4 [1, 3, 2, 4] = [1, 3, 2, 4] := by
    simp only [distributedSort, h1]
    decide
  refine ⟨h1, h2, ?_⟩
  rw [h2]
  decide

/-! ## Merge-split: overflow -/

/-- The expression `(routingKey >> bit_index) & 1` of the source is the bit `bit_index` of
the two's complement representation of `routingKey`. -/
theorem sideBit_eq_testBit (rk : Int) (bit_index : Nat) :
    sideBit rk bit_index = if Int.testBit rk bit_index then 1 else 0 := by
  unfold sideBit
  cases rk with
  | ofNat n =>
    have h : (Int.ofNat n >>> bit_index) = Int.ofNat (n >>> bit_index) := rfl
    rw [h]
    simp only [Int.testBit, Nat.testBit_to_div_mod, Nat.shiftRight_eq_div_pow]
    generalize n / 2 ^ bit_index = q
    have e : Int.ofNat q = (q : Int) := rfl
    rw [e]
    rcases Nat.mod_two_eq_zero_or_one q with h0 | h1
    · simp only [h0]; simp; omega
    · simp only [h1]; simp; omega
  | negSucc n =>
    have h : (Int.negSucc n >>> bit_index) = Int.negSucc (n >>> bit_index) := rfl
    rw [h]
    simp only [Int.testBit, Nat.testBit_to_div_mod, Nat.shiftRight_eq_div_pow]
    generalize n / 2 ^ bit_index = q
    rw [Int.negSucc_eq]
    rcases Nat.mod_two_eq_zero_or_one q with h0 | h1
    · simp only [h0]; simp; omega
    · simp only [h1]; simp; omega

theorem sideBit_eq_zero_iff (rk : Int) (bit_index : Nat) :
    sideBit rk bit_index = 0 ↔ Int.testBit rk bit_index = false := by
  rw [sideBit_eq_testBit]
  cases Int.testBit rk bit_index <;> simp

/-- The counting loop of `merge_split_bitonic` counts the reals with bit 0 and the reals
with bit 1. -/
theorem countSides_eq (bit_index : Nat) (l : List Element) :
    countSides bit_index l = (sideCount bit_index false l, sideCount bit_index true l) := by
  induction l with
  | nil => rfl
  | cons e es ih =>
    unfold countSides
    simp only [ih, sideCount, sideReals, List.filter_cons]
    cases hd : e.is_dummy
    · cases hb : Int.testBit e.routingKey bit_index
      · simp [(sideBit_eq_zero_iff e.routingKey bit_index).2 hb]
      · have hne : ¬ sideBit e.routingKey bit_index = 0 := by
          rw [sideBit_eq_zero_iff]; simp [hb]
        simp [hne]
    · simp

theorem sideCount_add (bit_index : Nat) (l : List Element) :
    sideCount bit_index false l + sideCount bit_index true l =
      (l.filter fun e => !e.is_dummy).length := by
  have h := countSides_sum bit_index l
  rw [countSides_eq] at h
  simpa [realRows] using h

/-- C12. For every pair of buckets, `level`, `total_levels` and `Z`, `merge_split_bitonic`
throws `overflow_error` exactly when `count0 > Z` or `count1 > Z`, with `count0` and
`count1` the numbers of real elements of `bucket1 ++ bucket2` whose `routingKey` has bit
`total_levels - 1 - level` equal to 0 and to 1; it throws nothing else; and dummies do not
count: the two counts add up to the number of reals and are those of the reals alone. -/
theorem merge_split_overflow_iff (bucket1 bucket2 : List Element)
    (level total_levels Z : Nat) :
    (Enclave.merge_split_bitonic bucket1 bucket2 level total_levels Z =
          Except.error Err.overflow_error ↔
        sideCount (total_levels - 1 - level) false (bucket1 ++ bucket2) > Z ∨
          sideCount (total_levels - 1 - level) true (bucket1 ++ bucket2) > Z) ∧
      (∀ e, Enclave.merge_split_bitonic bucket1 bucket2 level total_levels Z =
          Except.error e → e = Err.overflow_error) ∧
      sideCount (total_levels - 1 - level) false (bucket1 ++ bucket2) +
          sideCount (total_levels - 1 - level) true (bucket1 ++ bucket2) =
        ((bucket1 ++ bucket2).filter fun e => !e.is_dummy).length ∧
      ∀ side, sideCount (total_levels - 1 - level) side (bucket1 ++ bucket2) =
        sideCount (total_levels - 1 - level) side
          ((bucket1 ++ bucket2).filter fun e => !e.is_dummy) := by
  refine ⟨?_, ?_, sideCount_add _ _, ?_⟩
  · unfold Enclave.merge_split_bitonic
    simp only [countSides_eq]
    split
    · rename_i h
      simp only [true_iff]
      exact h
    · rename_i h
      simp only [false_iff, reduceCtorEq]
      exact h
  · intro e he
    unfold Enclave.merge_split_bitonic at he
    simp only at he
    split at he
    · simpa using he.symm
    · exact absurd he (by simp)
  · intro side
    simp only [sideCount, sideReals, List.filter_filter]
    congr 1
    apply List.filter_congr
    intro e _
    cases e.is_dummy <;> simp

/-! ## The contract of the untrusted memory -/

theorem read_bucket_fst (m : UntrustedMemory) (level i : Nat) :
    (m.read_bucket level i).1 = (m.storage.lookup (level, i)).getD [] := by
  unfold UntrustedMemory.read_bucket
  cases m.storage.lookup (level, i) <;> rfl

/-- Looking up `k1` after `read_bucket level i`: unchanged, except that an absent address
that was read now holds the empty bucket. -/
theorem lookup_read_bucket (m : UntrustedMemory) (level i : Nat) (k1 : Nat × Nat) :
    (m.read_bucket level i).2.storage.lookup k1 =
      if k1 = (level, i) ∧ m.storage.lookup (level, i) = none then some []
      else m.storage.lookup k1 := by
  unfold UntrustedMemory.read_bucket
  cases h : m.storage.lookup (level, i) with
  | some b => simp
  | none =>
    simp only
    by_cases hk : k1 = (level, i)
    · subst hk
      simp [lookup_storageSet_self]
    · rw [lookup_storageSet_ne _ _ _ _ hk]
      simp [hk]

theorem lookup_write_bucket (m : UntrustedMemory) (level i : Nat) (b : List Element)
    (k1 : Nat × Nat) :
    (m.write_bucket level i b).storage.lookup k1 =
      if k1 = (level, i) then some b else m.storage.lookup k1 := by
  unfold UntrustedMemory.write_bucket
  simp only
  by_cases hk : k1 = (level, i)
  · subst hk
    simp [lookup_storageSet_self]
  · rw [lookup_storageSet_ne _ _ _ _ hk]
    simp [hk]

/-- The bucket a read of `(level, i)` returns is not changed by accesses that do not write
to `(level, i)`. -/
theorem runOps_preserves_read (level i : Nat) (ops : List StoreOp) :
    ∀ (m : UntrustedMemory), (∀ op, op ∈ ops → op.writesTo level i = false) →
      ((runOps m ops).storage.lookup (level, i)).getD [] =
        (m.storage.lookup (level, i)).getD [] := by
  induction ops with
  | nil => intro m _; rfl
  | cons op ops ih =>
    intro m h
    have hrest := ih (op.run m) (fun o ho => h o (List.mem_cons_of_mem _ ho))
    have hop := h op (List.mem_cons_self _ _)
    simp only [runOps, List.foldl_cons] at hrest ⊢
    rw [hrest]
    cases op with
    | read l j =>
      simp only [StoreOp.run, lookup_read_bucket]
      split
      · rename_i hc
        obtain ⟨hk, hnone⟩ := hc
        simp only [Prod.mk.injEq] at hk
        obtain ⟨rfl, rfl⟩ := hk
        simp [hnone]
      · rfl
    | write l j b =>
      simp only [StoreOp.run, lookup_write_bucket]
      have hne : ¬ ((level, i) = (l, j)) := by
        intro hk
        simp only [Prod.mk.injEq] at hk
        obtain ⟨rfl, rfl⟩ := hk
        simp [StoreOp.writesTo] at hop
      rw [if_neg hne]

/-- C13. After `write_bucket(level, index, b)`, whatever accesses follow that do not write
to `(level, index)`, `read_bucket(level, index)` returns exactly `b`; and from a memory in
which `(level, index)` was never written, after any such accesses, `read_bucket` returns
the empty bucket (it returns a value in every case: there is no failure). -/
theorem read_after_write (m : UntrustedMemory) (level index : Nat) (b : List Element)
    (ops : List StoreOp) (hops : ∀ op, op ∈ ops → op.writesTo level index = false) :
    ((runOps (m.write_bucket level index b) ops).read_bucket level index).1 = b ∧
      (m.storage.lookup (level, index) = none →
        ((runOps m ops).read_bucket level index).1 = []) := by
  refine ⟨?_, ?_⟩
  · rw [read_bucket_fst, runOps_preserves_read level index ops _ hops, lookup_write_bucket]
    simp
  · intro hnone
    rw [read_bucket_fst, runOps_preserves_read level index ops _ hops, hnone]
    rfl

/-- A write, then a read and a write elsewhere and a read of the address itself: the read
returns the bucket written; on the empty memory the same accesses end with an empty read. -/
theorem read_after_write_witness :
    (∀ op, op ∈ [StoreOp.read 0 1, StoreOp.write 1 0 [dummyElement], StoreOp.read 0 0] →
        op.writesTo 0 0 = false) ∧
      ((runOps ((UntrustedMemory.mk [] []).write_bucket 0 0 [⟨5, 2, "a", false⟩, dummyElement])
          [StoreOp.read 0 1, StoreOp.write 1 0 [dummyElement], StoreOp.read 0 0]).read_bucket
          0 0).1 = [⟨5, 2, "a", false⟩, dummyElement] ∧
      ((UntrustedMemory.mk [] []).storage.lookup (0, 0) = none →
        ((runOps (UntrustedMemory.mk [] [])
          [StoreOp.read 0 1, StoreOp.write 1 0 [dummyElement], StoreOp.read 0 0]).read_bucket
          0 0).1 = []) :=
  ⟨by decide,
    read_after_write (UntrustedMemory.mk [] []) 0 0 [⟨5, 2, "a", false⟩, dummyElement]
      [StoreOp.read 0 1, StoreOp.write 1 0 [dummyElement], StoreOp.read 0 0] (by decide)⟩

/-- C14. `write_bucket(level, index, b)` stores `b` verbatim at `(level, index)`, whatever
was there before, and a later read of any other address returns what it would have
returned without the write; `read_bucket` never changes what a later read of any address
returns. -/
theorem write_bucket_frame (m : UntrustedMemory) (level index : Nat) (b : List Element) :
    (m.write_bucket level index b).storage.lookup (level, index) = some b ∧
      ((m.write_bucket level index b).read_bucket level index).1 = b ∧
      (∀ level1 index1, (level1, index1) ≠ (level, index) →
        ((m.write_bucket level index b).read_bucket level1 index1).1 =
          (m.read_bucket level1 index1).1) ∧
      (∀ level1 index1 level2 index2,
        ((m.read_bucket level1 index1).2.read_bucket level2 index2).1 =
          (m.read_bucket level2 index2).1) := by
  refine ⟨?_, ?_, ?_, ?_⟩
  · rw [lookup_write_bucket]; simp
  · rw [read_bucket_fst, lookup_write_bucket]; simp
  · intro l1 i1 hne
    rw [read_bucket_fst, read_bucket_fst, lookup_write_bucket, if_neg hne]
  · intro l1 i1 l2 i2
    rw [read_bucket_fst, read_bucket_fst, lookup_read_bucket]
    split
    · rename_i hc
      obtain ⟨hk, hnone⟩ := hc
      simp only [Prod.mk.injEq] at hk
      obtain ⟨rfl, rfl⟩ := hk
      simp [hnone]
    · rfl

/-- A memory holding a bucket at `(0, 0)` and one at `(1, 2)`: the write replaces the first,
and the read of `(1, 2)` is not affected. -/
theorem write_bucket_frame_witness :
    ((1, 2) : Nat × Nat) ≠ (0, 0) ∧
      (((UntrustedMemory.mk [((0, 0), [dummyElement]), ((1, 2), [⟨7, 1, "x", false⟩])]
          []).write_bucket 0 0 [⟨5, 2, "a", false⟩]).read_bucket 1 2).1 =
        ((UntrustedMemory.mk [((0, 0), [dummyElement]), ((1, 2), [⟨7, 1, "x", false⟩])]
          []).read_bucket 1 2).1 :=
  ⟨by decide,
    (write_bucket_frame
      (UntrustedMemory.mk [((0, 0), [dummyElement]), ((1, 2), [⟨7, 1, "x", false⟩])] [])
      0 0 [⟨5, 2, "a", false⟩]).2.2.1 1 2 (by decide)⟩

theorem run_access_log (m : UntrustedMemory) (op : StoreOp) :
    ∃ entry, (op.run m).access_log = m.access_log ++ [entry] ∧ entry.addr = op.addr := by
  cases op with
  | read l i =>
    simp only [StoreOp.run, UntrustedMemory.read_bucket, StoreOp.addr]
    cases m.storage.lookup (l, i) <;> exact ⟨_, rfl, rfl⟩
  | write l i b =>
    exact ⟨_, rfl, rfl⟩

/-- C15. The access log is append-only and in issue order: each `read_bucket` and each
`write_bucket` call appends exactly one line, naming the operation, the level and the
index of that call, after the lines already there, which it leaves as they are; so from
an empty log, after `k` accesses `get_access_log` returns `k` lines, the `i`-th of which
describes the `i`-th access. -/
theorem access_log_append_only (m : UntrustedMemory) (ops : List StoreOp) :
    (∀ level index, ∃ entry, (m.read_bucket level index).2.access_log =
        m.access_log ++ [entry] ∧ entry.addr = (Op.read, level, index)) ∧
      (∀ level index b, ∃ entry, (m.write_bucket level index b).access_log =
        m.access_log ++ [entry] ∧ entry.addr = (Op.write, level, index)) ∧
      (∃ fresh, (runOps m ops).get_access_log = m.access_log ++ fresh ∧
        fresh.map LogEntry.addr = ops.map StoreOp.addr) ∧
      (m.access_log = [] →
        (runOps m ops).get_access_log.length = ops.length ∧
        ∀ i : Nat, ((runOps m ops).get_access_log[i]?).map LogEntry.addr =
          (ops[i]?).map StoreOp.addr) := by
  have hall : ∀ (ops : List StoreOp) (m : UntrustedMemory),
      ∃ fresh, (runOps m ops).access_log = m.access_log ++ fresh ∧
        fresh.map LogEntry.addr = ops.map StoreOp.addr := by
    intro ops
    induction ops with
    | nil => intro m; exact ⟨[], by simp [runOps], rfl⟩
    | cons op ops ih =>
      intro m
      obtain ⟨entry, he, ha⟩ := run_access_log m op
      obtain ⟨fresh, hf, hfa⟩ := ih (op.run m)
      refine ⟨entry :: fresh, ?_, ?_⟩
      · simp only [runOps, List.foldl_cons] at hf ⊢
        rw [hf, he, List.append_assoc]
        rfl
      · simp [ha, hfa]
  refine ⟨?_, ?_, hall ops m, ?_⟩
  · intro level index
    exact run_access_log m (StoreOp.read level index)
  · intro level index b
    exact run_access_log m (StoreOp.write level index b)
  · intro hempty
    obtain ⟨fresh, hf, hfa⟩ := hall ops m
    rw [hempty, List.nil_append] at hf
    simp only [UntrustedMemory.get_access_log, hf]
    refine ⟨?_, ?_⟩
    · rw [← List.length_map fresh LogEntry.addr, hfa, List.length_map]
    · intro i
      rw [← List.getElem?_map, ← List.getElem?_map, hfa]

/-- Three accesses from an empty log. -/
theorem access_log_append_only_witness :
    (UntrustedMemory.mk [] []).access_log = [] ∧
      (runOps (UntrustedMemory.mk [] [])
        [StoreOp.write 0 0 [dummyElement], StoreOp.read 0 0, StoreOp.read 3 1]).get_access_log.length =
        [StoreOp.write 0 0 [dummyElement], StoreOp.read 0 0, StoreOp.read 3 1].length :=
  ⟨rfl,
    ((access_log_append_only (UntrustedMemory.mk [] [])
      [StoreOp.write 0 0 [dummyElement], StoreOp.read 0 0, StoreOp.read 3 1]).2.2.2 rfl).1⟩

/-! ## The encryption round trip -/

/-- C16. For every bucket `b`, `decryptBucket(encryptBucket(b)) = b`. `encryptBucket` keeps
the length, the order, the payloads and the dummy flags; it returns every dummy as it is;
and of a real element it changes only `sortKey` and `routingKey`, each bit of which
(in two's complement, so in particular each of the 32 bits of the `int`) is XOR-ed with
the same bit of the key, whose 32-bit pattern is `0xdeadbeef`. -/
theorem decrypt_encrypt_roundtrip (b : List Element) :
    Enclave.decryptBucket (Enclave.encryptBucket b) = b ∧
      (Enclave.encryptBucket b).length = b.length ∧
      (Enclave.encryptBucket b).map Element.rowData = b.map Element.rowData ∧
      (Enclave.encryptBucket b).map Element.is_dummy = b.map Element.is_dummy ∧
      (∀ (i : Nat) (e : Element), b[i]? = some e → e.is_dummy = true →
        (Enclave.encryptBucket b)[i]? = some e) ∧
      (∀ (i : Nat) (e : Element), b[i]? = some e → e.is_dummy = false →
        ∃ c, (Enclave.encryptBucket b)[i]? = some c ∧ c.rowData = e.rowData ∧
          c.is_dummy = false ∧
          (∀ k, Int.testBit c.sortKey k =
            xor (Int.testBit e.sortKey k) (Int.testBit Enclave.encryption_key k)) ∧
          (∀ k, Int.testBit c.routingKey k =
            xor (Int.testBit e.routingKey k) (Int.testBit Enclave.encryption_key k))) ∧
      Enclave.encryption_key % 2 ^ 32 = 0xdeadbeef := by
  refine ⟨decrypt_encrypt b, encryptBucket_length b, ?_, ?_, ?_, ?_, by decide⟩
  · simp only [Enclave.encryptBucket, List.map_map]
    apply List.map_congr_left
    intro e _
    cases hd : e.is_dummy <;> simp [hd]
  · simp only [Enclave.encryptBucket, List.map_map]
    apply List.map_congr_left
    intro e _
    cases hd : e.is_dummy <;> simp [hd]
  · intro i e hi hd
    simp [Enclave.encryptBucket, List.getElem?_map, hi, hd]
  · intro i e hi hd
    refine ⟨{ e with
      sortKey := Int.xor e.sortKey Enclave.encryption_key
      routingKey := Int.xor e.routingKey Enclave.encryption_key }, ?_, rfl, hd, ?_, ?_⟩
    · simp [Enclave.encryptBucket, List.getElem?_map, hi, hd]
    · intro k; exact Int.testBit_lxor _ _ k
    · intro k; exact Int.testBit_lxor _ _ k

/-! ## Scenarios of the specification -/

/-- C17. The distributed scenario: four shards, input `8 7 6 5 4 3 2 1`. After the local
sorts the shards hold `[7,8] [5,6] [3,4] [1,2]`, after merge round 1 `[5,6] [7,8] [1,2]
[3,4]`, and after round 2 the concatenation of the shards without dummies is `1 .. 8`. -/
theorem distributed_scenario :
    (localSorted 4 [8, 7, 6, 5, 4, 3, 2, 1]).map (fun s => s.map DElement.value) =
        [[7, 8], [5, 6], [3, 4], [1, 2]] ∧
      (mergeRounds 4 1 1 (localSorted 4 [8, 7, 6, 5, 4, 3, 2, 1])).map
          (fun s => s.map DElement.value) = [[5, 6], [7, 8], [1, 2], [3, 4]] ∧
      (∀ s, s ∈ afterRounds 4 [8, 7, 6, 5, 4, 3, 2, 1] → ∀ e, e ∈ s → e.is_dummy = false) ∧
      distributedSort 4 [8, 7, 6, 5, 4, 3, 2, 1] = [1, 2, 3, 4, 5, 6, 7, 8] := by
  have h : Nat.log2 4 = 2 := Nat.log2_two_pow (n := 2)
  refine ⟨by decide, by decide, ?_, ?_⟩
  · simp only [afterRounds, h]
    decide
  · simp only [distributedSort, afterRounds, h]
    decide

/-- C18. For the empty input and every `Z >= 1`, whatever the shuffle (a rearrangement),
`computeBucketParameters` gives `B = 1`, `L = 0`; `oblivious_sort` returns the empty list;
and the accesses it issues are exactly two: the write of a bucket of `Z` dummies to
`(0, 0)`, then the read of `(0, 0)`. No level other than 0 is written. -/
theorem oblivious_sort_empty (rng : Nat → Nat) (shuffle : Nat → List Element → List Element)
    (Z : Nat) (m : UntrustedMemory) (hZ : 1 ≤ Z) (hshuffle : ∀ i l, (shuffle i l).Perm l) :
    Enclave.computeBucketParameters 0 Z = Except.ok (1, 0) ∧
      (Enclave.oblivious_sort rng shuffle [] Z m).1 = Except.ok [] ∧
      (Enclave.oblivious_sort rng shuffle [] Z m).2.access_log =
        m.access_log ++
          [⟨Op.write, 0, 0, List.replicate Z none⟩, ⟨Op.read, 0, 0, List.replicate Z none⟩] ∧
      (Enclave.oblivious_sort rng shuffle [] Z m).2.storage.lookup (0, 0) =
        some (List.replicate Z dummyElement) := by
  have hreq : (2 * 0 + Z - 1) / Z = 0 := by
    apply Nat.div_eq_of_lt
    omega
  have hacc : Enclave.computeBucketParameters 0 Z = Except.ok (1, 0) := by
    unfold Enclave.computeBucketParameters
    simp only [hreq, doubleUntil]
    have hlog : Nat.log2 1 = 0 := Nat.log2_two_pow (n := 0)
    rw [hlog, if_neg (by omega)]
  have henc : Enclave.encryptBucket (List.replicate Z dummyElement) =
      List.replicate Z dummyElement := by
    simp [Enclave.encryptBucket, dummyElement]
  have hdec : Enclave.decryptBucket (List.replicate Z dummyElement) =
      List.replicate Z dummyElement := by
    simp [Enclave.decryptBucket, dummyElement]
  have hshown : shownOf (List.replicate Z dummyElement) = List.replicate Z none := by
    simp [shownOf, dummyElement]
  have hnil : shuffle 0 [] = [] := List.Perm.eq_nil (hshuffle 0 [])
  have hfilter : (List.replicate Z dummyElement).filter (fun e => !e.is_dummy) = [] := by
    simp [List.filter_replicate, dummyElement]
  have hinit : Enclave.initializeBuckets rng [] 1 Z m =
      m.write_bucket 0 0 (List.replicate Z dummyElement) := by
    simp [Enclave.initializeBuckets, buildElements, groupOf, writeGroups, padBucket, henc]
  have hrun : Enclave.oblivious_sort rng shuffle [] Z m =
      (Except.ok [], { storage := storageSet m.storage (0, 0) (List.replicate Z dummyElement)
                       access_log := (m.access_log ++
                          [⟨Op.write, 0, 0, List.replicate Z none⟩]) ++
                          [⟨Op.read, 0, 0, List.replicate Z none⟩] }) := by
    unfold Enclave.oblivious_sort
    simp only [List.length_nil, hacc, hinit, Enclave.performButterflyNetwork, butterflyLevels,
      Enclave.extractFinalElements, extractLoop]
    rw [read_bucket_of_lookup _ 0 0 (List.replicate Z dummyElement)
      (by simp [UntrustedMemory.write_bucket, lookup_storageSet_self])]
    simp only [hdec, hfilter, hnil, hshown, UntrustedMemory.write_bucket, Enclave.finalSort,
      sortedElems, List.nil_append, List.insertionSort, List.map_nil, henc]
  refine ⟨hacc, ?_, ?_, ?_⟩
  · rw [hrun]
  · rw [hrun]; simp
  · rw [hrun]; exact lookup_storageSet_self _ _ _

/-- The empty input with `Z = 4`, the shuffle reversing each bucket. -/
theorem oblivious_sort_empty_witness :
    1 ≤ 4 ∧
      (∀ (i : Nat) (l : List Element),
        ((fun (_ : Nat) (l : List Element) => l.reverse) i l).Perm l) ∧
      (Enclave.oblivious_sort (fun i => i) (fun _ l => l.reverse) [] 4
        (UntrustedMemory.mk [] [])).1 = Except.ok [] ∧
      (Enclave.oblivious_sort (fun i => i) (fun _ l => l.reverse) [] 4
        (UntrustedMemory.mk [] [])).2.access_log =
        [] ++ [⟨Op.write, 0, 0, List.replicate 4 none⟩, ⟨Op.read, 0, 0, List.replicate 4 none⟩] :=
  have h := oblivious_sort_empty (fun i => i) (fun _ l => l.reverse) 4
    (UntrustedMemory.mk [] []) (by decide) (fun _ l => List.reverse_perm l)
  ⟨by decide, fun _ l => List.reverse_perm l, h.2.1, h.2.2.1⟩

/-! ## Merge-split: what the crossbar produces -/

/-- A list in nondecreasing key order is its elements below a threshold followed by its
elements at or above it. -/
theorem pairwise_filter_split {α : Type} (key : α → Int) (t : Int) (l : List α)
    (h : l.Pairwise fun a b => key a ≤ key b) :
    l = (l.filter fun e => decide (key e < t)) ++ l.filter fun e => decide (t ≤ key e) := by
  induction l with
  | nil => rfl
  | cons x xs ih =>
    rw [List.pairwise_cons] at h
    obtain ⟨hx, hxs⟩ := h
    by_cases hlt : key x < t
    · have hnle : ¬ t ≤ key x := by omega
      simp only [List.filter_cons, hlt, hnle, decide_True, decide_False, if_true,
        Bool.false_eq_true, if_false, List.cons_append]
      rw [← ih hxs]
    · have hle : t ≤ key x := by omega
      have h1 : (xs.filter fun e => decide (key e < t)) = [] := by
        rw [List.filter_eq_nil_iff]
        intro e he
        have := hx e he
        simp only [decide_eq_true_eq]
        omega
      have h2 : (xs.filter fun e => decide (t ≤ key e)) = xs := by
        rw [List.filter_eq_self]
        intro e he
        have := hx e he
        simp only [decide_eq_true_eq]
        omega
      simp only [List.filter_cons, hlt, hle, decide_True, decide_False, if_true,
        Bool.false_eq_true, if_false, h1, h2, List.nil_append]

theorem sideBit_times_two (rk : Int) (bit_index : Nat) :
    sideBit rk bit_index * 2 = if Int.testBit rk bit_index then 2 else 0 := by
  rw [sideBit_eq_testBit]
  cases Int.testBit rk bit_index <;> simp

/-- After the re-assignment every real carries key 0 or 2 and every dummy key 1 or 3. -/
theorem reassignKeys_class (bit_index needed : Nat) (assigned : Nat) (l : List Element) :
    ∀ e, e ∈ reassignKeys bit_index needed assigned l →
      (e.is_dummy = false ∧ (e.routingKey = 0 ∨ e.routingKey = 2)) ∨
        (e.is_dummy = true ∧ (e.routingKey = 1 ∨ e.routingKey = 3)) := by
  induction l generalizing assigned with
  | nil => intro e he; simp [reassignKeys] at he
  | cons x xs ih =>
    intro e he
    unfold reassignKeys at he
    cases hd : x.is_dummy
    · simp only [hd, Bool.false_eq_true, if_false, List.mem_cons] at he
      rcases he with rfl | he
      · left
        refine ⟨rfl, ?_⟩
        simp only [sideBit_times_two]
        cases Int.testBit x.routingKey bit_index <;> simp
      · exact ih assigned e he
    · simp only [hd, if_true] at he
      split at he
      · simp only [List.mem_cons] at he
        rcases he with rfl | he
        · right; exact ⟨rfl, Or.inl rfl⟩
        · exact ih (assigned + 1) e he
      · simp only [List.mem_cons] at he
        rcases he with rfl | he
        · right; exact ⟨rfl, Or.inr rfl⟩
        · exact ih assigned e he

/-- The elements that receive key 0 are the reals of side 0, in their order. -/
theorem reassignKeys_rows0 (bit_index needed : Nat) (assigned : Nat) (l : List Element) :
    ((reassignKeys bit_index needed assigned l).filter
        fun e => decide (e.routingKey < 1)).map Element.row =
      (sideReals bit_index false l).map Element.row := by
  induction l generalizing assigned with
  | nil => rfl
  | cons x xs ih =>
    unfold reassignKeys
    cases hd : x.is_dummy
    · simp only [Bool.false_eq_true, if_false, sideBit_times_two]
      cases hb : Int.testBit x.routingKey bit_index
      · simp [List.filter_cons, sideReals, hd, hb, Element.row]
        have := ih assigned
        simp only [sideReals] at this
        simpa using this
      · simp [List.filter_cons, sideReals, hd, hb]
        have := ih assigned
        simp only [sideReals] at this
        simpa using this
    · simp only [if_true]
      split
      · simp [List.filter_cons, sideReals, hd]
        have := ih (assigned + 1)
        simp only [sideReals] at this
        simpa using this
      · simp [List.filter_cons, sideReals, hd]
        have := ih assigned
        simp only [sideReals] at this
        simpa using this

/-- The elements that receive key 2 are the reals of side 1, in their order. -/
theorem reassignKeys_rows1 (bit_index needed : Nat) (assigned : Nat) (l : List Element) :
    ((reassignKeys bit_index needed assigned l).filter
        fun e => decide (2 ≤ e.routingKey) && decide (e.routingKey < 3)).map Element.row =
      (sideReals bit_index true l).map Element.row := by
  induction l generalizing assigned with
  | nil => rfl
  | cons x xs ih =>
    unfold reassignKeys
    cases hd : x.is_dummy
    · simp only [Bool.false_eq_true, if_false, sideBit_times_two]
      cases hb : Int.testBit x.routingKey bit_index
      · simp [List.filter_cons, sideReals, hd, hb]
        have := ih assigned
        simp only [sideReals] at this
        simpa using this
      · simp [List.filter_cons, sideReals, hd, hb, Element.row]
        have := ih assigned
        simp only [sideReals] at this
        simpa using this
    · simp only [if_true]
      split
      · simp [List.filter_cons, sideReals, hd]
        have := ih (assigned + 1)
        simp only [sideReals] at this
        simpa using this
      · simp [List.filter_cons, sideReals, hd]
        have := ih assigned
        simp only [sideReals] at this
        simpa using this

/-- The number of elements that receive key 0 or 1: the reals of side 0 and as many
dummies as are still needed for side 0, if there are that many. -/
theorem reassignKeys_low_count (bit_index needed : Nat) (assigned : Nat) (l : List Element) :
    ((reassignKeys bit_index needed assigned l).filter
        fun e => decide (e.routingKey < 2)).length =
      sideCount bit_index false l +
        min (needed - assigned) (l.filter fun e => e.is_dummy).length := by
  induction l generalizing assigned with
  | nil => simp [reassignKeys, sideCount, sideReals]
  | cons x xs ih =>
    unfold reassignKeys
    cases hd : x.is_dummy
    · simp only [Bool.false_eq_true, if_false, sideBit_times_two]
      have := ih assigned
      cases hb : Int.testBit x.routingKey bit_index
      · simp [List.filter_cons, sideCount, sideReals, hd, hb] at this ⊢
        omega
      · simp [List.filter_cons, sideCount, sideReals, hd, hb] at this ⊢
        omega
    · simp only [if_true]
      split
      · have := ih (assigned + 1)
        simp [List.filter_cons, sideCount, sideReals, hd] at this ⊢
        omega
      · have := ih assigned
        simp [List.filter_cons, sideCount, sideReals, hd] at this ⊢
        omega

theorem length_filter_dummy (l : List Element) :
    (l.filter fun e => e.is_dummy).length + (l.filter fun e => !e.is_dummy).length =
      l.length := by
  induction l with
  | nil => rfl
  | cons x xs ih =>
    cases hd : x.is_dummy <;> simp [List.filter_cons, hd] <;> omega

theorem length_filter_add_not {α : Type} (p : α → Bool) (l : List α) :
    (l.filter p).length + (l.filter fun a => !p a).length = l.length := by
  induction l with
  | nil => rfl
  | cons x xs ih =>
    cases hp : p x <;> simp [List.filter_cons, hp] <;> omega

/-- C20. When `2Z` is a power of two and the two buckets have `Z` elements with
`count0 <= Z` and `count1 <= Z`: the re-assignment gives key 0 or 1 to exactly `Z` elements
and key 2 or 3 to exactly `Z`; and `merge_split_bitonic` returns `out0 = R0 ++ D0` and
`out1 = R1 ++ D1`, where `R0` is the `count0` reals of side 0 (key 0), `D0` is
`Z - count0` dummies (key 1), `R1` is the `count1` reals of side 1 (key 2) and `D1` is
`Z - count1` dummies (key 3): in each output every real precedes every dummy. -/
theorem merge_split_crossbar (bucket1 bucket2 : List Element) (level total_levels Z m : Nat)
    (hpow : 2 * Z = 2 ^ m) (h1 : bucket1.length = Z) (h2 : bucket2.length = Z)
    (hc0 : sideCount (total_levels - 1 - level) false (bucket1 ++ bucket2) ≤ Z)
    (hc1 : sideCount (total_levels - 1 - level) true (bucket1 ++ bucket2) ≤ Z) :
    ((reassignKeys (total_levels - 1 - level)
          (Z - sideCount (total_levels - 1 - level) false (bucket1 ++ bucket2)) 0
          (bucket1 ++ bucket2)).filter
        fun e => decide (e.routingKey = 0 ∨ e.routingKey = 1)).length = Z ∧
      ((reassignKeys (total_levels - 1 - level)
          (Z - sideCount (total_levels - 1 - level) false (bucket1 ++ bucket2)) 0
          (bucket1 ++ bucket2)).filter
        fun e => decide (e.routingKey = 2 ∨ e.routingKey = 3)).length = Z ∧
      ∃ R0 D0 R1 D1 : List Element,
        Enclave.merge_split_bitonic bucket1 bucket2 level total_levels Z =
          Except.ok (R0 ++ D0, R1 ++ D1) ∧
        R0.length = sideCount (total_levels - 1 - level) false (bucket1 ++ bucket2) ∧
        D0.length = Z - sideCount (total_levels - 1 - level) false (bucket1 ++ bucket2) ∧
        R1.length = sideCount (total_levels - 1 - level) true (bucket1 ++ bucket2) ∧
        D1.length = Z - sideCount (total_levels - 1 - level) true (bucket1 ++ bucket2) ∧
        (∀ e, e ∈ R0 → e.is_dummy = false ∧ e.routingKey = 0) ∧
        (∀ e, e ∈ D0 → e.is_dummy = true ∧ e.routingKey = 1) ∧
        (∀ e, e ∈ R1 → e.is_dummy = false ∧ e.routingKey = 2) ∧
        (∀ e, e ∈ D1 → e.is_dummy = true ∧ e.routingKey = 3) ∧
        (R0.map Element.row).Perm
          ((sideReals (total_levels - 1 - level) false (bucket1 ++ bucket2)).map Element.row) ∧
        (R1.map Element.row).Perm
          ((sideReals (total_levels - 1 - level) true (bucket1 ++ bucket2)).map Element.row) := by
  generalize hbit : total_levels - 1 - level = bit at *
  set l := bucket1 ++ bucket2 with hl
  have hllen : l.length = 2 * Z := by simp [hl, h1, h2]; omega
  set c0 := sideCount bit false l with hc0def
  set c1 := sideCount bit true l with hc1def
  set rk := reassignKeys bit (Z - c0) 0 l with hrk
  have hrklen : rk.length = 2 * Z := by rw [hrk, reassignKeys_length, hllen]
  have hclass := reassignKeys_class bit (Z - c0) 0 l
  rw [← hrk] at hclass
  -- the number of keys below 2
  have hlow : (rk.filter fun e => decide (e.routingKey < 2)).length = Z := by
    rw [hrk, reassignKeys_low_count]
    have hd := length_filter_dummy l
    have hs := sideCount_add bit l
    rw [← hc0def, ← hc1def] at hs
    rw [← hc0def]
    omega
  have hhigh : (rk.filter fun e => !decide (e.routingKey < 2)).length = Z := by
    have := length_filter_add_not (fun e : Element => decide (e.routingKey < 2)) rk
    omega
  -- the sorted vector
  set sorted := Enclave.bitonicSort rk 0 rk.length true with hsorted
  have hperm : sorted.Perm rk := bitonicSort_perm _ _ _ _ _
  have hpw : sorted.Pairwise fun a b => a.routingKey ≤ b.routingKey := by
    have := bitonicSort_pairwise Element.routingKey rk m true (by rw [hrklen, hpow])
    rw [hsorted, hrklen, hpow]
    simpa [Enclave.bitonicSort] using this
  have hmem : ∀ e, e ∈ sorted → e ∈ rk := fun e he => hperm.mem_iff.1 he
  set F01 := sorted.filter fun e => decide (e.routingKey < 2) with hF01
  set F23 := sorted.filter fun e => decide (2 ≤ e.routingKey) with hF23
  have hsplit : sorted = F01 ++ F23 := pairwise_filter_split Element.routingKey 2 sorted hpw
  have hF01len : F01.length = Z := by
    rw [hF01, (hperm.filter _).length_eq, hlow]
  have hF23len : F23.length = Z := by
    have : sorted.length = 2 * Z := by rw [hperm.length_eq, hrklen]
    rw [hsplit, List.length_append] at this
    omega
  have htake : sorted.take Z = F01 := by
    rw [hsplit]
    exact List.take_left' hF01len
  have hdrop : sorted.drop Z = F23 := by
    rw [hsplit]
    exact List.drop_left' hF01len
  have hpw01 : F01.Pairwise fun a b => a.routingKey ≤ b.routingKey := hpw.filter _
  have hpw23 : F23.Pairwise fun a b => a.routingKey ≤ b.routingKey := hpw.filter _
  have hs01 := pairwise_filter_split Element.routingKey 1 F01 hpw01
  have hs23 := pairwise_filter_split Element.routingKey 3 F23 hpw23
  set R0 := F01.filter fun e => decide (e.routingKey < 1) with hR0
  set D0 := F01.filter fun e => decide (1 ≤ e.routingKey) with hD0
  set R1 := F23.filter fun e => decide (e.routingKey < 3) with hR1
  set D1 := F23.filter fun e => decide (3 ≤ e.routingKey) with hD1
  -- which elements the four parts hold
  have hR0rows : (R0.map Element.row).Perm ((sideReals bit false l).map Element.row) := by
    have e1 : R0 = sorted.filter fun e => decide (e.routingKey < 1) := by
      rw [hR0, hF01, List.filter_filter]
      apply List.filter_congr
      intro e _
      rw [Bool.eq_iff_iff]
      simp only [Bool.and_eq_true, decide_eq_true_eq]
      omega
    rw [e1, ← reassignKeys_rows0 bit (Z - c0) 0 l]
    exact (hperm.filter _).map _
  have hR1rows : (R1.map Element.row).Perm ((sideReals bit true l).map Element.row) := by
    have e1 : R1 = sorted.filter fun e =>
        decide (2 ≤ e.routingKey) && decide (e.routingKey < 3) := by
      rw [hR1, hF23, List.filter_filter]
      apply List.filter_congr
      intro e _
      rw [Bool.and_comm]
    rw [e1, ← reassignKeys_rows1 bit (Z - c0) 0 l]
    exact (hperm.filter _).map _
  have hR0len : R0.length = c0 := by
    have := hR0rows.length_eq
    simpa [sideCount] using this
  have hR1len : R1.length = c1 := by
    have := hR1rows.length_eq
    simpa [sideCount] using this
  have hD0len : D0.length = Z - c0 := by
    have := congrArg List.length hs01
    rw [List.length_append, hF01len] at this
    omega
  have hD1len : D1.length = Z - c1 := by
    have := congrArg List.length hs23
    rw [List.length_append, hF23len] at this
    omega
  refine ⟨?_, ?_, R0, D0, R1, D1, ?_, hR0len, hD0len, hR1len, hD1len, ?_, ?_, ?_, ?_,
    hR0rows, hR1rows⟩
  · rw [← hlow]
    congr 1
    apply List.filter_congr
    intro e he
    rw [Bool.eq_iff_iff]
    simp only [decide_eq_true_eq]
    rcases hclass e he with ⟨_, h | h⟩ | ⟨_, h | h⟩ <;> omega
  · rw [← hhigh]
    congr 1
    apply List.filter_congr
    intro e he
    rw [Bool.eq_iff_iff]
    simp only [decide_eq_true_eq, Bool.not_eq_true', decide_eq_false_iff_not]
    rcases hclass e he with ⟨_, h | h⟩ | ⟨_, h | h⟩ <;> omega
  · have hno : ¬ (c0 > Z ∨ c1 > Z) := by omega
    unfold Enclave.merge_split_bitonic
    simp only [hbit, countSides_eq, ← hl, ← hc0def, ← hc1def, hno, if_false, ← hrk,
      ← hsorted, htake, hdrop, ← hs01, ← hs23]
  · intro e he
    have h2 := List.mem_filter.1 he
    have h3 := List.mem_filter.1 h2.1
    have hk1 := h2.2
    simp only [decide_eq_true_eq] at hk1
    rcases hclass e (hmem e h3.1) with ⟨hd, h | h⟩ | ⟨_, h | h⟩
    · exact ⟨hd, h⟩
    all_goals omega
  · intro e he
    have h2 := List.mem_filter.1 he
    have h3 := List.mem_filter.1 h2.1
    have hk1 := h2.2
    have hk2 := h3.2
    simp only [decide_eq_true_eq] at hk1 hk2
    rcases hclass e (hmem e h3.1) with ⟨_, h | h⟩ | ⟨hd, h | h⟩
    · omega
    · omega
    · exact ⟨hd, h⟩
    · omega
  · intro e he
    have h2 := List.mem_filter.1 he
    have h3 := List.mem_filter.1 h2.1
    have hk1 := h2.2
    have hk2 := h3.2
    simp only [decide_eq_true_eq] at hk1 hk2
    rcases hclass e (hmem e h3.1) with ⟨hd, h | h⟩ | ⟨_, h | h⟩
    · omega
    · exact ⟨hd, h⟩
    · omega
    · omega
  · intro e he
    have h2 := List.mem_filter.1 he
    have h3 := List.mem_filter.1 h2.1
    have hk1 := h2.2
    have hk2 := h3.2
    simp only [decide_eq_true_eq] at hk1 hk2
    rcases hclass e (hmem e h3.1) with ⟨_, h | h⟩ | ⟨hd, h | h⟩
    · omega
    · omega
    · omega
    · exact ⟨hd, h⟩

/-- Two buckets of `Z = 2` elements (`2Z = 2^2`), bit 0 of the routing keys: one real of
side 0, two of side 1. -/
theorem merge_split_crossbar_witness :
    2 * 2 = 2 ^ 2 ∧
      sideCount (2 - 1 - 1) false
          ([⟨10, 1, "a", false⟩, ⟨11, 3, "b", false⟩] ++ [⟨12, 0, "x", false⟩, dummyElement]) ≤ 2 ∧
      sideCount (2 - 1 - 1) true
          ([⟨10, 1, "a", false⟩, ⟨11, 3, "b", false⟩] ++ [⟨12, 0, "x", false⟩, dummyElement]) ≤ 2 ∧
      ∃ R0 D0 R1 D1 : List Element,
        Enclave.merge_split_bitonic [⟨10, 1, "a", false⟩, ⟨11, 3, "b", false⟩]
            [⟨12, 0, "x", false⟩, dummyElement] 1 2 2 = Except.ok (R0 ++ D0, R1 ++ D1) ∧
          (∀ e, e ∈ R0 → e.is_dummy = false ∧ e.routingKey = 0) ∧
          (∀ e, e ∈ D0 → e.is_dummy = true ∧ e.routingKey = 1) ∧
          (∀ e, e ∈ R1 → e.is_dummy = false ∧ e.routingKey = 2) ∧
          (∀ e, e ∈ D1 → e.is_dummy = true ∧ e.routingKey = 3) :=
  have h := merge_split_crossbar [⟨10, 1, "a", false⟩, ⟨11, 3, "b", false⟩]
    [⟨12, 0, "x", false⟩, dummyElement] 1 2 2 2 (by decide) rfl rfl (by decide) (by decide)
  ⟨by decide, by decide, by decide,
    match h.2.2 with
    | ⟨R0, D0, R1, D1, hrun, _, _, _, _, a0, a1, a2, a3, _, _⟩ =>
      ⟨R0, D0, R1, D1, hrun, a0, a1, a2, a3⟩⟩

/-- C19 (the code at a failing input). `Z = 3`, so that the crossbar sorts `2Z = 6`
elements, which is not a power of two; bit 0 decides. The only real, `a`, has bit 1:
`count0 = 0`, `count1 = 1`, no overflow. It belongs in `out1` and is returned in `out0`;
`out1` holds dummies only. -/
theorem merge_split_misroutes :
    sideCount 0 false ([dummyElement, dummyElement, ⟨7, 1, "a", false⟩] ++
        [dummyElement, dummyElement, dummyElement]) = 0 ∧
      sideCount 0 true ([dummyElement, dummyElement, ⟨7, 1, "a", false⟩] ++
        [dummyElement, dummyElement, dummyElement]) = 1 ∧
      Enclave.merge_split_bitonic [dummyElement, dummyElement, ⟨7, 1, "a", false⟩]
          [dummyElement, dummyElement, dummyElement] 0 1 3 =
        Except.ok
          ([⟨0, 1, "DUMMY", true⟩, ⟨0, 1, "DUMMY", true⟩, ⟨7, 2, "a", false⟩],
            [⟨0, 1, "DUMMY", true⟩, ⟨0, 3, "DUMMY", true⟩, ⟨0, 3, "DUMMY", true⟩]) :=
  ⟨by decide, by decide, by rfl⟩

/-! ## Overflow inside `oblivious_sort` -/

theorem computeBucketParameters_error {n Z : Nat} {e : Err}
    (h : Enclave.computeBucketParameters n Z = Except.error e) : e = Err.invalid_argument := by
  unfold Enclave.computeBucketParameters at h
  simp only at h
  split at h
  · simpa using h.symm
  · exact absurd h (by simp)

/-- Every run of `oblivious_sort` either is refused by `computeBucketParameters`, with
`invalid_argument`, or returns normally. -/
theorem oblivious_sort_result (rng : Nat → Nat) (shuffle : Nat → List Element → List Element)
    (inputRows : List (Int × String)) (Z : Nat) (m : UntrustedMemory) :
    (Enclave.oblivious_sort rng shuffle inputRows Z m).1 = Except.error Err.invalid_argument ∨
      ∃ payloads, (Enclave.oblivious_sort rng shuffle inputRows Z m).1 = Except.ok payloads := by
  cases hacc : Enclave.computeBucketParameters inputRows.length Z with
  | error e =>
    left
    have he := computeBucketParameters_error hacc
    subst he
    unfold Enclave.oblivious_sort
    simp only [hacc]
  | ok p =>
    right
    obtain ⟨B, L⟩ := p
    obtain ⟨bsL, m1, hrun, _, _⟩ := oblivious_sort_run rng shuffle inputRows Z B L m hacc
    exact ⟨_, by rw [hrun]⟩

/-- C11 (refuted as stated). No input, bucket size, draw of routing keys, shuffle and
memory make `oblivious_sort` fail with `overflow_error`. -/
theorem no_overflow_in_oblivious_sort :
    ¬ ∃ (rng : Nat → Nat) (shuffle : Nat → List Element → List Element)
        (inputRows : List (Int × String)) (Z : Nat) (m : UntrustedMemory),
        (Enclave.oblivious_sort rng shuffle inputRows Z m).1 =
          Except.error Err.overflow_error := by
  rintro ⟨rng, shuffle, inputRows, Z, m, h⟩
  rcases oblivious_sort_result rng shuffle inputRows Z m with h1 | ⟨p, h1⟩
  · rw [h1] at h
    exact absurd h (by simp)
  · rw [h1] at h
    exact absurd h (by simp)

/-- C11 (amended). For every input, every bucket size `Z` that `computeBucketParameters`
accepts, every draw of routing keys and every shuffle, `oblivious_sort` returns normally:
no merge-split it executes throws `overflow_error`. The error is raised by
`merge_split_bitonic` when it is called on buckets holding more than `Z` reals for one
side, as for two buckets of `Z = 2` with three reals of side 0. -/
theorem overflow_only_outside_sort (rng : Nat → Nat)
    (shuffle : Nat → List Element → List Element) (inputRows : List (Int × String))
    (Z B L : Nat) (m : UntrustedMemory)
    (hacc : Enclave.computeBucketParameters inputRows.length Z = Except.ok (B, L)) :
    (∃ payloads, (Enclave.oblivious_sort rng shuffle inputRows Z m).1 = Except.ok payloads) ∧
      (Enclave.oblivious_sort rng shuffle inputRows Z m).1 ≠ Except.error Err.overflow_error ∧
      Enclave.merge_split_bitonic [⟨1, 0, "a", false⟩, ⟨2, 0, "b", false⟩]
          [⟨3, 0, "c", false⟩, dummyElement] 0 1 2 = Except.error Err.overflow_error := by
  obtain ⟨bsL, m1, hrun, _, _⟩ := oblivious_sort_run rng shuffle inputRows Z B L m hacc
  refine ⟨⟨_, by rw [hrun]⟩, ?_, by rfl⟩
  rw [hrun]
  simp

/-- Three rows with `Z = 2` (`B = 4`, `L = 2`), all drawing the same routing key. -/
theorem overflow_only_outside_sort_witness :
    Enclave.computeBucketParameters 3 2 = Except.ok (4, 2) ∧
      (Enclave.oblivious_sort (fun _ => 3) (fun _ l => l) [(1, "a"), (2, "b"), (3, "c")] 2
        (UntrustedMemory.mk [] [])).1 ≠ Except.error Err.overflow_error :=
  have h : Enclave.computeBucketParameters 3 2 = Except.ok (4, 2) := by
    simp [Enclave.computeBucketParameters, doubleUntil, Nat.log2]
  ⟨h, (overflow_only_outside_sort (fun _ => 3) (fun _ l => l) [(1, "a"), (2, "b"), (3, "c")]
    2 4 2 (UntrustedMemory.mk [] []) h).2.1⟩

/-! ## Merge-split: conservation -/

theorem reassignKeys_dummies (bit_index needed : Nat) (assigned : Nat) (l : List Element) :
    (reassignKeys bit_index needed assigned l).map Element.is_dummy =
      l.map Element.is_dummy := by
  induction l generalizing assigned with
  | nil => rfl
  | cons e es ih =>
    unfold reassignKeys
    split
    · split <;> simp [ih]
    · simp [ih]

theorem length_filter_of_map_eq {l1 l2 : List Element}
    (h : l1.map Element.is_dummy = l2.map Element.is_dummy) :
    (l1.filter fun e => e.is_dummy).length = (l2.filter fun e => e.is_dummy).length := by
  have e1 : ∀ l : List Element, (l.filter fun e => e.is_dummy).length =
      ((l.map Element.is_dummy).filter id).length := by
    intro l
    rw [List.filter_map, List.length_map]
    rfl
  rw [e1, e1, h]

/-- What a successful `merge_split_bitonic` returns, for any buckets and any `Z`: the
sorted re-keyed vector cut after `Z` elements. -/
theorem merge_split_eq_ok {b1 b2 o0 o1 : List Element} {level L Z : Nat}
    (h : Enclave.merge_split_bitonic b1 b2 level L Z = Except.ok (o0, o1)) :
    ∃ sorted : List Element, sorted.Perm (reassignKeys (L - 1 - level)
        (Z - (countSides (L - 1 - level) (b1 ++ b2)).1) 0 (b1 ++ b2)) ∧
      o0 = sorted.take Z ∧ o1 = sorted.drop Z := by
  unfold Enclave.merge_split_bitonic at h
  simp only at h
  split at h
  · exact absurd h (by simp)
  · simp only [Except.ok.injEq, Prod.mk.injEq] at h
    exact ⟨_, bitonicSort_perm _ _ _ _ _, h.1.symm, h.2.symm⟩

/-- C22. For every `Z >= 1`, power of two or not, and every two buckets of `Z` elements on
which `merge_split_bitonic` does not overflow: the real elements of `out0 ++ out1` are, as
a multiset of (sortKey, payload) pairs, those of `bucket1 ++ bucket2`; the number of
dummies is the same; and both outputs have `Z` elements. -/
theorem merge_split_conserves (bucket1 bucket2 out0 out1 : List Element)
    (level total_levels Z : Nat) (hZ : 1 ≤ Z) (h1 : bucket1.length = Z)
    (h2 : bucket2.length = Z)
    (hok : Enclave.merge_split_bitonic bucket1 bucket2 level total_levels Z =
      Except.ok (out0, out1)) :
    (realRows (out0 ++ out1)).Perm (realRows (bucket1 ++ bucket2)) ∧
      ((out0 ++ out1).filter fun e => e.is_dummy).length =
        ((bucket1 ++ bucket2).filter fun e => e.is_dummy).length ∧
      ((out0 ++ out1).filter fun e => !e.is_dummy).length =
        ((bucket1 ++ bucket2).filter fun e => !e.is_dummy).length ∧
      out0.length = Z ∧ out1.length = Z := by
  have _ := hZ
  obtain ⟨sorted, hperm, rfl, rfl⟩ := merge_split_eq_ok hok
  have hlen : sorted.length = 2 * Z := by
    rw [hperm.length_eq, reassignKeys_length, List.length_append, h1, h2]; omega
  have hrows : (realRows sorted).Perm (realRows (bucket1 ++ bucket2)) := by
    refine (realRows_perm hperm).trans ?_
    rw [reassignKeys_realRows]
  rw [List.take_append_drop]
  refine ⟨hrows, ?_, ?_, ?_, ?_⟩
  · rw [(hperm.filter _).length_eq]
    exact length_filter_of_map_eq (reassignKeys_dummies _ _ _ _)
  · have := hrows.length_eq
    simpa [realRows] using this
  · rw [List.length_take, hlen]; omega
  · rw [List.length_drop, hlen]; omega

/-- Two buckets of `Z = 3` elements (six in the crossbar, not a power of two). -/
theorem merge_split_conserves_witness :
    1 ≤ 3 ∧
      (realRows ([⟨0, 1, "DUMMY", true⟩, ⟨0, 1, "DUMMY", true⟩, ⟨7, 2, "a", false⟩] ++
          [⟨0, 1, "DUMMY", true⟩, ⟨0, 3, "DUMMY", true⟩, ⟨0, 3, "DUMMY", true⟩])).Perm
        (realRows ([dummyElement, dummyElement, ⟨7, 1, "a", false⟩] ++
          [dummyElement, dummyElement, dummyElement])) :=
  ⟨by decide,
    (merge_split_conserves [dummyElement, dummyElement, ⟨7, 1, "a", false⟩]
      [dummyElement, dummyElement, dummyElement]
      [⟨0, 1, "DUMMY", true⟩, ⟨0, 1, "DUMMY", true⟩, ⟨7, 2, "a", false⟩]
      [⟨0, 1, "DUMMY", true⟩, ⟨0, 3, "DUMMY", true⟩, ⟨0, 3, "DUMMY", true⟩]
      0 1 3 (by decide) rfl rfl (by rfl)).1⟩

/-- C21 (the code at a failing input). `total_levels = 2`, `level = 0`, so `bitIndex = 1`
and the residual bit is bit 0. The real `a` enters with `routingKey = 3` (bit 0 set) and is
returned with `routingKey = 2` (bit 0 clear); at level 1 the code would read that bit. -/
theorem merge_split_loses_residual_bits :
    Enclave.merge_split_bitonic [⟨7, 3, "a", false⟩, dummyElement]
        [dummyElement, dummyElement] 0 2 2 =
      Except.ok
        ([⟨0, 1, "DUMMY", true⟩, ⟨0, 1, "DUMMY", true⟩],
          [⟨7, 2, "a", false⟩, ⟨0, 3, "DUMMY", true⟩]) ∧
      Int.testBit 3 0 = true ∧ Int.testBit 2 0 = false ∧
      sideBit 3 0 = 1 ∧ sideBit 2 0 = 0 :=
  ⟨by rfl, by decide, by decide, by decide, by decide⟩

/-! ## Bucket parameters: when the configuration error can fire (exact arithmetic) -/

/-- Even bucket sizes in exact arithmetic. For even `Z >= 2` `computeBucketParameters(n, Z)`
does not throw: `B * Z >= 2n` gives `B * (Z / 2) >= n`. So for `Z >= 1` a throw needs `Z`
odd; it does happen there: for `Z = 1` and every `n >= 1`, and for `Z = 3`, `n = 3`, where
`B = 2` and `2n <= B * Z` holds all the same. The 32-bit function agrees on the range of
`computeBucketParameters32_exact` and not beyond it. -/
theorem computeBucketParameters_even (n Z : Nat) (hZ : 1 ≤ Z) :
    (Z % 2 = 0 → ∃ B L, Enclave.computeBucketParameters n Z = Except.ok (B, L)) ∧
      (∀ e, Enclave.computeBucketParameters n Z = Except.error e → Z % 2 = 1) ∧
      (1 ≤ n → Enclave.computeBucketParameters n 1 = Except.error Err.invalid_argument) ∧
      Enclave.computeBucketParameters 3 3 = Except.error Err.invalid_argument ∧
      SmallestPowerOfTwoAtLeast ⌈((2 * 3 : Nat) : ℚ) / ((3 : Nat) : ℚ)⌉₊ 2 ∧ 2 * 3 ≤ 2 * 3 := by
  have hge := (doubleUntil_smallest ((2 * n + Z - 1) / Z)).2.1
  rw [bRequired_le_iff n Z _ hZ] at hge
  have heven : Z % 2 = 0 →
      ¬ n > doubleUntil ((2 * n + Z - 1) / Z) 1 ((2 * n + Z - 1) / Z) * (Z / 2) := by
    intro h0
    generalize doubleUntil ((2 * n + Z - 1) / Z) 1 ((2 * n + Z - 1) / Z) = B at hge ⊢
    obtain ⟨h, rfl⟩ : ∃ h, Z = 2 * h := ⟨Z / 2, by omega⟩
    have e : 2 * h / 2 = h := by omega
    rw [e]
    have : B * (2 * h) = 2 * (B * h) := by ring
    rw [this] at hge
    omega
  refine ⟨?_, ?_, ?_, ?_, ?_, le_refl _⟩
  · intro h0
    unfold Enclave.computeBucketParameters
    simp only
    rw [if_neg (heven h0)]
    exact ⟨_, _, rfl⟩
  · intro e he
    unfold Enclave.computeBucketParameters at he
    simp only at he
    split at he
    · rename_i hgt
      by_contra hodd
      exact heven (by omega) hgt
    · exact absurd he (by simp)
  · intro hn
    unfold Enclave.computeBucketParameters
    simp only
    rw [if_pos (by simp; omega)]
  · simp [Enclave.computeBucketParameters, doubleUntil]
  · rw [ceil_two_n_div 3 3 (by decide)]
    refine ⟨⟨1, rfl⟩, by decide, ?_⟩
    intro k hk
    have h3 : (2 * 3 + 3 - 1) / 3 = 2 := by decide
    rw [h3] at hk
    exact hk

/-- The driver's bucket size `Z = 16` with 1000 rows is accepted; `Z = 1` with one row is
refused. -/
theorem computeBucketParameters_even_witness :
    1 ≤ 16 ∧ 16 % 2 = 0 ∧
      (∃ B L, Enclave.computeBucketParameters 1000 16 = Except.ok (B, L)) ∧
      Enclave.computeBucketParameters 1 1 = Except.error Err.invalid_argument :=
  ⟨by decide, by decide, (computeBucketParameters_even 1000 16 (by decide)).1 (by decide),
    (computeBucketParameters_even 1 1 (by decide)).2.2.1 (by decide)⟩

/-! ## The distributed merger -/

theorem stdMerge_perm {α : Type} (comp : α → α → Bool) (fuel : Nat) (a b : List α) :
    (stdMerge comp fuel a b).Perm (a ++ b) := by
  induction fuel generalizing a b with
  | zero => exact List.Perm.refl _
  | succ f ih =>
    cases a with
    | nil => simp [stdMerge]
    | cons x a =>
      cases b with
      | nil => simp [stdMerge]
      | cons y b =>
        simp only [stdMerge]
        split
        · refine ((ih (x :: a) b).cons y).trans ?_
          exact List.perm_middle.symm
        · exact (ih a (y :: b)).cons x

/-- The loop of `std::merge` with the comparison by `value`, given enough steps for all
elements, merges two runs sorted by `value` into one. -/
theorem stdMerge_sorted (fuel : Nat) (a b : List DElement) (hfuel : a.length + b.length ≤ fuel)
    (ha : a.Pairwise fun x y => x.value ≤ y.value)
    (hb : b.Pairwise fun x y => x.value ≤ y.value) :
    (stdMerge (fun e1 e2 => decide (e1.value < e2.value)) fuel a b).Pairwise
      fun x y => x.value ≤ y.value := by
  induction fuel generalizing a b with
  | zero =>
    have h1 : a = [] := List.length_eq_zero.1 (by omega)
    have h2 : b = [] := List.length_eq_zero.1 (by omega)
    subst h1 h2
    simp [stdMerge]
  | succ f ih =>
    cases a with
    | nil => simpa [stdMerge] using hb
    | cons x a =>
      cases b with
      | nil => simpa [stdMerge] using ha
      | cons y b =>
        simp only [stdMerge]
        rw [List.pairwise_cons] at ha hb
        simp only [List.length_cons] at hfuel
        split
        · rename_i hlt
          simp only [decide_eq_true_eq] at hlt
          rw [List.pairwise_cons]
          refine ⟨?_, ih (x :: a) b (by simp only [List.length_cons]; omega)
            (List.pairwise_cons.2 ha) hb.2⟩
          intro z hz
          have hz' := (stdMerge_perm _ f (x :: a) b).mem_iff.1 hz
          simp only [List.mem_append, List.mem_cons] at hz'
          rcases hz' with (rfl | hz') | hz'
          · omega
          · have := ha.1 z hz'; omega
          · exact hb.1 z hz'
        · rename_i hlt
          simp only [decide_eq_true_eq] at hlt
          rw [List.pairwise_cons]
          refine ⟨?_, ih a (y :: b) (by simp only [List.length_cons]; omega) ha.2
            (List.pairwise_cons.2 hb)⟩
          intro z hz
          have hz' := (stdMerge_perm _ f a (y :: b)).mem_iff.1 hz
          simp only [List.mem_append, List.mem_cons] at hz'
          rcases hz' with hz' | rfl | hz'
          · exact ha.1 z hz'
          · omega
          · have := hb.1 z hz'; omega

theorem distributedMerge_append (a b : List DElement) :
    (distributedMerge a b).1 ++ (distributedMerge a b).2 =
      stdMerge (fun e1 e2 => decide (e1.value < e2.value)) (a.length + b.length) a b := by
  simp [distributedMerge, List.take_append_drop]

/-- C24. For two sequences `a` and `b`, each sorted nondecreasingly by `value`,
`distributedMerge(a, b)` returns `(lower, upper)` with `lower ++ upper` a permutation of
`a ++ b` sorted nondecreasingly by `value`; `lower` has `(|a| + |b|) / 2` elements; every
element of `lower` is at most every element of `upper`; and when `|a| = |b|` both halves
have that length. -/
theorem distributedMerge_sorted (a b : List DElement)
    (ha : a.Pairwise fun x y => x.value ≤ y.value)
    (hb : b.Pairwise fun x y => x.value ≤ y.value) :
    ((distributedMerge a b).1 ++ (distributedMerge a b).2).Perm (a ++ b) ∧
      ((distributedMerge a b).1 ++ (distributedMerge a b).2).Pairwise
        (fun x y => x.value ≤ y.value) ∧
      (distributedMerge a b).1.length = (a.length + b.length) / 2 ∧
      (∀ x, x ∈ (distributedMerge a b).1 → ∀ y, y ∈ (distributedMerge a b).2 →
        x.value ≤ y.value) ∧
      (a.length = b.length →
        (distributedMerge a b).1.length = a.length ∧
          (distributedMerge a b).2.length = a.length) := by
  have happ := distributedMerge_append a b
  have hperm := stdMerge_perm (fun e1 e2 : DElement => decide (e1.value < e2.value))
    (a.length + b.length) a b
  have hsorted := stdMerge_sorted (a.length + b.length) a b (le_refl _) ha hb
  have hlen : (stdMerge (fun e1 e2 : DElement => decide (e1.value < e2.value))
      (a.length + b.length) a b).length = a.length + b.length := by
    rw [hperm.length_eq, List.length_append]
  have hlow : (distributedMerge a b).1.length = (a.length + b.length) / 2 := by
    simp only [distributedMerge, List.length_take, hlen]
    omega
  have hup : (distributedMerge a b).2.length =
      a.length + b.length - (a.length + b.length) / 2 := by
    simp only [distributedMerge, List.length_drop, hlen]
  refine ⟨by rw [happ]; exact hperm, by rw [happ]; exact hsorted, hlow, ?_, ?_⟩
  · have hs := hsorted
    rw [← happ, List.pairwise_append] at hs
    exact fun x hx y hy => hs.2.2 x hx y hy
  · intro hab
    rw [hlow, hup]
    omega

/-- Two sorted runs of equal length, with equal values among them. -/
theorem distributedMerge_sorted_witness :
    ([⟨1, 1, false⟩, ⟨4, 4, false⟩] : List DElement).Pairwise (fun x y => x.value ≤ y.value) ∧
      ([⟨1, 1, false⟩, ⟨3, 3, false⟩] : List DElement).Pairwise
        (fun x y => x.value ≤ y.value) ∧
      ((distributedMerge [⟨1, 1, false⟩, ⟨4, 4, false⟩] [⟨1, 1, false⟩, ⟨3, 3, false⟩]).1 ++
        (distributedMerge [⟨1, 1, false⟩, ⟨4, 4, false⟩]
          [⟨1, 1, false⟩, ⟨3, 3, false⟩]).2).Pairwise (fun x y => x.value ≤ y.value) :=
  ⟨by decide, by decide,
    (distributedMerge_sorted [⟨1, 1, false⟩, ⟨4, 4, false⟩] [⟨1, 1, false⟩, ⟨3, 3, false⟩]
      (by decide) (by decide)).2.1⟩

/-! ## Dummies in the distributed driver -/

theorem shardOf_length (part : List Int) : ∃ m, (shardOf part).length = 2 ^ m := by
  obtain ⟨⟨k, hk⟩, hge, _⟩ := doubleUntil_smallest part.length
  refine ⟨k, ?_⟩
  simp only [shardOf, nextPowerOfTwo, List.length_append, List.length_map,
    List.length_replicate]
  omega

theorem shardOf_mem (part : List Int) (e : DElement) (he : e ∈ shardOf part) :
    e.key = e.value ∧ (e.is_dummy = true → e.value = 0 ∧ e.key = 0) := by
  simp only [shardOf, List.mem_append, List.mem_map, List.mem_replicate] at he
  rcases he with ⟨v, _, rfl⟩ | ⟨_, rfl⟩
  · simp
  · simp [dummyDElement]

/-- C25 (as stated), refuted by evaluation: with twelve input values every shard of the
driver holds three values and one dummy; after the local sort the dummy is the FIRST
element of every shard, and the merge of shards 0 and 1 in round 1 starts with the two
dummies, which precede the real values 5 and 6. -/
theorem dummies_sink_to_low_end :
    localSorted 4 [5, 7, 9, 6, 8, 10, 1, 2, 3, 4, 11, 12] =
        [[dummyDElement, ⟨5, 5, false⟩, ⟨7, 7, false⟩, ⟨9, 9, false⟩],
          [dummyDElement, ⟨6, 6, false⟩, ⟨8, 8, false⟩, ⟨10, 10, false⟩],
          [dummyDElement, ⟨1, 1, false⟩, ⟨2, 2, false⟩, ⟨3, 3, false⟩],
          [dummyDElement, ⟨4, 4, false⟩, ⟨11, 11, false⟩, ⟨12, 12, false⟩]] ∧
      distributedMerge [dummyDElement, ⟨5, 5, false⟩, ⟨7, 7, false⟩, ⟨9, 9, false⟩]
          [dummyDElement, ⟨6, 6, false⟩, ⟨8, 8, false⟩, ⟨10, 10, false⟩] =
        ([dummyDElement, dummyDElement, ⟨5, 5, false⟩, ⟨6, 6, false⟩],
          [⟨7, 7, false⟩, ⟨8, 8, false⟩, ⟨9, 9, false⟩, ⟨10, 10, false⟩]) := by
  decide

/-- C25 (amended). In the distributed driver a dummy carries value 0 and key 0 and is
compared as the number 0. The local sort of a padded shard is a permutation of the shard
in nondecreasing key order in which every element has `key = value` and every dummy has
value 0; and for two shards sorted by value whose dummies have value 0, every element
before a dummy in the merged sequence `lower ++ upper` has value at most 0 and every
element after it has value at least 0. -/
theorem dummies_compare_as_zero (part : List Int) (a b : List DElement)
    (ha : a.Pairwise fun x y => x.value ≤ y.value)
    (hb : b.Pairwise fun x y => x.value ≤ y.value)
    (hda : ∀ e, e ∈ a → e.is_dummy = true → e.value = 0)
    (hdb : ∀ e, e ∈ b → e.is_dummy = true → e.value = 0) :
    ((bitonicSort DElement.key (shardOf part) 0 (shardOf part).length true).Perm
        (shardOf part) ∧
      (bitonicSort DElement.key (shardOf part) 0 (shardOf part).length true).Pairwise
        (fun x y => x.key ≤ y.key) ∧
      ∀ e, e ∈ bitonicSort DElement.key (shardOf part) 0 (shardOf part).length true →
        e.key = e.value ∧ (e.is_dummy = true → e.value = 0 ∧ e.key = 0)) ∧
      ∀ pre d post, (distributedMerge a b).1 ++ (distributedMerge a b).2 = pre ++ d :: post →
        d.is_dummy = true →
          (∀ x, x ∈ pre → x.value ≤ 0) ∧ (∀ y, y ∈ post → 0 ≤ y.value) := by
  constructor
  · obtain ⟨m, hm⟩ := shardOf_length part
    refine ⟨bitonicSort_perm _ _ _ _ _, ?_, ?_⟩
    · have := bitonicSort_pairwise DElement.key (shardOf part) m true hm
      rw [hm]
      simpa using this
    · intro e he
      exact shardOf_mem part e ((bitonicSort_perm _ _ _ _ _).mem_iff.1 he)
  · intro pre d post hsplit hd
    have happ := distributedMerge_append a b
    have hperm := stdMerge_perm (fun e1 e2 : DElement => decide (e1.value < e2.value))
      (a.length + b.length) a b
    have hsorted := stdMerge_sorted (a.length + b.length) a b (le_refl _) ha hb
    rw [← happ, hsplit] at hsorted hperm
    have hdmem : d ∈ a ++ b := hperm.mem_iff.1 (by simp)
    have hd0 : d.value = 0 := by
      rcases List.mem_append.1 hdmem with h | h
      · exact hda d h hd
      · exact hdb d h hd
    rw [List.pairwise_append, List.pairwise_cons] at hsorted
    refine ⟨fun x hx => ?_, fun y hy => ?_⟩
    · have := hsorted.2.2 x hx d (by simp)
      omega
    · have := hsorted.2.1.1 y hy
      omega

/-- The shard of the three values 5, 7, 9 and the merge of two locally sorted shards
with negative and positive values: the dummies sit between them. -/
theorem dummies_compare_as_zero_witness :
    (bitonicSort DElement.key (shardOf [5, 7, 9]) 0 (shardOf [5, 7, 9]).length true).Pairwise
        (fun x y => x.key ≤ y.key) ∧
      ((distributedMerge [⟨-3, -3, false⟩, dummyDElement] [dummyDElement, ⟨4, 4, false⟩]).1 ++
          (distributedMerge [⟨-3, -3, false⟩, dummyDElement]
            [dummyDElement, ⟨4, 4, false⟩]).2 =
        [⟨-3, -3, false⟩, dummyDElement] ++ dummyDElement :: [⟨4, 4, false⟩]) ∧
      ((∀ x, x ∈ [(⟨-3, -3, false⟩ : DElement), dummyDElement] → x.value ≤ 0) ∧
        ∀ y, y ∈ [(⟨4, 4, false⟩ : DElement)] → 0 ≤ y.value) :=
  ⟨(dummies_compare_as_zero [5, 7, 9] [⟨-3, -3, false⟩, dummyDElement]
      [dummyDElement, ⟨4, 4, false⟩] (by decide) (by decide) (by decide) (by decide)).1.2.1,
    by decide,
    (dummies_compare_as_zero [5, 7, 9] [⟨-3, -3, false⟩, dummyDElement]
      [dummyDElement, ⟨4, 4, false⟩] (by decide) (by decide) (by decide) (by decide)).2
      [⟨-3, -3, false⟩, dummyDElement] dummyDElement [⟨4, 4, false⟩] (by decide) (by decide)⟩

/-! ## The contents of level 0 after initialisation -/

/-- The integer expression for the group size is the ceiling of the exact quotient. -/
theorem ceil_n_div (n B : Nat) (hB : 0 < B) : ⌈((n : Nat) : ℚ) / (B : ℚ)⌉₊ = (n + B - 1) / B := by
  have hBpos : (0 : ℚ) < (B : ℚ) := by exact_mod_cast hB
  apply eq_of_forall_ge_iff
  intro c
  rw [Nat.ceil_le, div_le_iff₀ hBpos, ← Nat.lt_succ_iff, Nat.div_lt_iff_lt_mul hB]
  have h : (c + 1) * B = c * B + B := by ring
  rw [h]
  constructor
  · intro hle
    have : n ≤ c * B := by exact_mod_cast hle
    omega
  · intro hlt
    have : n ≤ c * B := by omega
    exact_mod_cast this

theorem logShows_refl (m : UntrustedMemory) (Z : Nat) : LogShows m m [] Z :=
  ⟨[], by simp, rfl, fun _ h => absurd h (List.not_mem_nil _)⟩

theorem logShows_trans {m m1 m2 : UntrustedMemory} {s1 s2 : List (Op × Nat × Nat)} {Z : Nat}
    (h1 : LogShows m m1 s1 Z) (h2 : LogShows m1 m2 s2 Z) : LogShows m m2 (s1 ++ s2) Z := by
  obtain ⟨f1, e1, a1, w1⟩ := h1
  obtain ⟨f2, e2, a2, w2⟩ := h2
  refine ⟨f1 ++ f2, by rw [e2, e1, List.append_assoc], by rw [List.map_append, a1, a2], ?_⟩
  intro e he
  rcases List.mem_append.1 he with h | h
  · exact w1 e h
  · exact w2 e h

theorem LogExtends.shows {m m1 : UntrustedMemory} {sched : List (Op × Nat × Nat)} {Z : Nat}
    (h : LogExtends m m1 sched Z) (hw : ∀ a, a ∈ sched → a.1 = Op.write) :
    LogShows m m1 sched Z := by
  obtain ⟨fresh, e, a, w⟩ := h
  refine ⟨fresh, e, a, fun x hx => w x hx ?_⟩
  have hmem : x.addr ∈ sched := a ▸ List.mem_map_of_mem _ hx
  exact hw _ hmem

theorem rowSchedule_op (op : Op) (level : Nat) :
    ∀ (c i : Nat) (a : Op × Nat × Nat), a ∈ rowSchedule op level c i → a.1 = op := by
  intro c
  induction c with
  | zero => intro i a ha; simp [rowSchedule] at ha
  | succ c ih =>
    intro i a ha
    simp only [rowSchedule, List.mem_cons] at ha
    rcases ha with rfl | ha
    · rfl
    · exact ih (i + 1) a ha

/-- One pair of the butterfly with its merge-split call named: the two buckets written at
the next level are the outputs of `merge_split_bitonic` on the two buckets read, and all
four log lines show `Z` elements. -/
theorem butterflyPair_trace (L Z level i : Nat) (m : UntrustedMemory) (b1 b2 : List Element)
    (hb1 : m.storage.lookup (level, i) = some (Enclave.encryptBucket b1))
    (hb2 : m.storage.lookup (level, i + 1) = some (Enclave.encryptBucket b2))
    (h1 : b1.length = Z) (h2 : b2.length = Z) (hreal : (realRows (b1 ++ b2)).length ≤ Z) :
    ∃ o0 o1 m1, Enclave.merge_split_bitonic b1 b2 level L Z = Except.ok (o0, o1) ∧
      butterflyPair L Z level i m = (Except.ok (), m1) ∧
      o0.length = Z ∧ o1.length = Z ∧ (realRows (o0 ++ o1)).Perm (realRows (b1 ++ b2)) ∧
      m1.storage.lookup (level + 1, i) = some (Enclave.encryptBucket o0) ∧
      m1.storage.lookup (level + 1, i + 1) = some (Enclave.encryptBucket o1) ∧
      (∀ k, k ≠ (level + 1, i) → k ≠ (level + 1, i + 1) →
        m1.storage.lookup k = m.storage.lookup k) ∧
      LogShows m m1 (pairSchedule level i) Z := by
  obtain ⟨o0, o1, hms, ho0, ho1, hperm⟩ := merge_split_ok b1 b2 level L Z h1 h2 hreal
  refine ⟨o0, o1,
    (({ storage := m.storage
        access_log := (m.access_log ++ [⟨Op.read, level, i, shownOf (Enclave.encryptBucket b1)⟩]) ++
          [⟨Op.read, level, i + 1, shownOf (Enclave.encryptBucket b2)⟩] } :
        UntrustedMemory).write_bucket (level + 1) i (Enclave.encryptBucket o0)).write_bucket
      (level + 1) (i + 1) (Enclave.encryptBucket o1), hms, ?_, ho0, ho1, hperm, ?_, ?_, ?_, ?_⟩
  · unfold butterflyPair
    simp only
    rw [read_bucket_of_lookup m level i _ hb1]
    simp only
    rw [read_bucket_of_lookup
      (UntrustedMemory.mk m.storage
        (m.access_log ++ [LogEntry.mk Op.read level i (shownOf (Enclave.encryptBucket b1))]))
      level (i + 1) (Enclave.encryptBucket b2) hb2]
    simp only [decrypt_encrypt, hms]
  · simp only [UntrustedMemory.write_bucket]
    rw [lookup_storageSet_ne _ _ _ _ (by simp), lookup_storageSet_self]
  · simp only [UntrustedMemory.write_bucket]
    rw [lookup_storageSet_self]
  · intro k hk1 hk2
    simp only [UntrustedMemory.write_bucket]
    rw [lookup_storageSet_ne _ _ _ _ hk2, lookup_storageSet_ne _ _ _ _ hk1]
  · refine ⟨[⟨Op.read, level, i, shownOf (Enclave.encryptBucket b1)⟩,
      ⟨Op.read, level, i + 1, shownOf (Enclave.encryptBucket b2)⟩,
      ⟨Op.write, level + 1, i, shownOf (Enclave.encryptBucket o0)⟩,
      ⟨Op.write, level + 1, i + 1, shownOf (Enclave.encryptBucket o1)⟩], ?_, rfl, ?_⟩
    · simp [UntrustedMemory.write_bucket]
    · intro e he
      simp only [List.mem_cons, List.mem_singleton, List.not_mem_nil, or_false] at he
      rcases he with rfl | rfl | rfl | rfl <;>
        simp [shownOf_length, encryptBucket_length, h1, h2, ho0, ho1]

/-- One level of the butterfly with its merge-split calls named. -/
theorem butterflyLevel_trace (L Z level : Nat) :
    ∀ (c i : Nat) (m : UntrustedMemory) (bs : Nat → List Element),
      HoldsLevel m level i (i + 2 * c) bs →
      (∀ q, i ≤ q → q < i + 2 * c → (bs q).length = Z) →
      (∀ j, j < c → (realRows (bs (i + 2 * j) ++ bs (i + 2 * j + 1))).length ≤ Z) →
      ∃ m1 bs1, butterflyLevel L Z level c i m = (Except.ok (), m1) ∧
        HoldsLevel m1 (level + 1) i (i + 2 * c) bs1 ∧
        (∀ q, i ≤ q → q < i + 2 * c → (bs1 q).length = Z) ∧
        (∀ j, j < c →
          Enclave.merge_split_bitonic (bs (i + 2 * j)) (bs (i + 2 * j + 1)) level L Z =
            Except.ok (bs1 (i + 2 * j), bs1 (i + 2 * j + 1))) ∧
        (∀ j, j < c → (realRows (bs1 (i + 2 * j) ++ bs1 (i + 2 * j + 1))).Perm
          (realRows (bs (i + 2 * j) ++ bs (i + 2 * j + 1)))) ∧
        (∀ k : Nat × Nat, (k.1 ≠ level + 1 ∨ k.2 < i ∨ i + 2 * c ≤ k.2) →
          m1.storage.lookup k = m.storage.lookup k) ∧
        LogShows m m1 (levelSchedule level c i) Z := by
  intro c
  induction c with
  | zero =>
    intro i m bs _ _ _
    refine ⟨m, bs, rfl, ?_, ?_, ?_, ?_, ?_, logShows_refl m Z⟩
    · intro q h1 h2; omega
    · intro q h1 h2; omega
    · intro j hj; omega
    · intro j hj; omega
    · intro k _; rfl
  | succ c ih =>
    intro i m bs hold hlen hreal
    obtain ⟨o0, o1, m1, hms, hrun, ho0, ho1, hperm, hl0, hl1, hframe, hlog⟩ :=
      butterflyPair_trace L Z level i m (bs i) (bs (i + 1)) (hold i (by omega) (by omega))
        (hold (i + 1) (by omega) (by omega)) (hlen i (by omega) (by omega))
        (hlen (i + 1) (by omega) (by omega)) (by simpa using hreal 0 (by omega))
    have hold1 : HoldsLevel m1 level (i + 2) (i + 2 + 2 * c) bs := by
      intro q hq1 hq2
      rw [hframe (level, q) (by simp) (by simp)]
      exact hold q (by omega) (by omega)
    obtain ⟨m2, bs2, hrun2, hold2, hlen2, hms2, hperm2, hframe2, hlog2⟩ :=
      ih (i + 2) m1 bs hold1 (fun q h1 h2 => hlen q (by omega) (by omega))
        (fun j hj => by
          have := hreal (j + 1) (by omega)
          have e : i + 2 * (j + 1) = i + 2 + 2 * j := by ring
          rw [e] at this
          exact this)
    refine ⟨m2, fun q => if q = i then o0 else if q = i + 1 then o1 else bs2 q, ?_, ?_, ?_, ?_,
      ?_, ?_, ?_⟩
    · simp only [butterflyLevel, hrun, hrun2]
    · intro q hq1 hq2
      by_cases hqi : q = i
      · subst hqi
        rw [hframe2 (level + 1, q) (Or.inr (Or.inl (by simp)))]
        simpa using hl0
      · by_cases hqi1 : q = i + 1
        · subst hqi1
          rw [hframe2 (level + 1, i + 1) (Or.inr (Or.inl (by simp)))]
          simpa using hl1
        · simp only [hqi, hqi1, if_false]
          exact hold2 q (by omega) (by omega)
    · intro q hq1 hq2
      by_cases hqi : q = i
      · simp [hqi, ho0]
      · by_cases hqi1 : q = i + 1
        · simp [hqi1, ho1]
        · simp only [hqi, hqi1, if_false]
          exact hlen2 q (by omega) (by omega)
    · intro j hj
      rcases Nat.eq_zero_or_pos j with hj0 | hjpos
      · subst hj0
        simpa using hms
      · have := hms2 (j - 1) (by omega)
        have e : i + 2 + 2 * (j - 1) = i + 2 * j := by omega
        rw [e] at this
        have n1 : i + 2 * j ≠ i := by omega
        have n2 : i + 2 * j ≠ i + 1 := by omega
        have n3 : i + 2 * j + 1 ≠ i := by omega
        have n4 : i + 2 * j + 1 ≠ i + 1 := by omega
        simp only [n1, n2, n3, n4, if_false]
        exact this
    · intro j hj
      rcases Nat.eq_zero_or_pos j with hj0 | hjpos
      · subst hj0
        simpa using hperm
      · have := hperm2 (j - 1) (by omega)
        have e : i + 2 + 2 * (j - 1) = i + 2 * j := by omega
        rw [e] at this
        have n1 : i + 2 * j ≠ i := by omega
        have n2 : i + 2 * j ≠ i + 1 := by omega
        have n3 : i + 2 * j + 1 ≠ i := by omega
        have n4 : i + 2 * j + 1 ≠ i + 1 := by omega
        simp only [n1, n2, n3, n4, if_false]
        exact this
    · intro k hk
      rw [hframe2 k (by omega)]
      apply hframe k
      · intro h; subst h; simp at hk
      · intro h; subst h; simp at hk; omega
    · have := logShows_trans hlog hlog2
      simpa [levelSchedule] using this

/-- All `c` remaining levels of the butterfly over an even number `B = 2h` of buckets,
with every level kept: the memory at the end still holds every level passed, each pair
of level `level + d + 1` is the output of the merge-split call on the same pair of level
`level + d`, and each pair holds the real rows it held at the start. -/
theorem butterflyLevels_history (B L Z h : Nat) (hB : B = 2 * h) :
    ∀ (c level : Nat) (m : UntrustedMemory) (bs : Nat → List Element),
      HoldsLevel m level 0 B bs →
      (∀ q, q < B → (bs q).length = Z) →
      (∀ j, j < h → (realRows (bs (2 * j) ++ bs (2 * j + 1))).length ≤ Z) →
      ∃ (m1 : UntrustedMemory) (hs : Nat → Nat → List Element),
        butterflyLevels B L Z c level m = (Except.ok (), m1) ∧
        hs 0 = bs ∧
        (∀ d, d ≤ c → HoldsLevel m1 (level + d) 0 B (hs d)) ∧
        (∀ d, d ≤ c → ∀ q, q < B → (hs d q).length = Z) ∧
        (∀ d, d < c → ∀ j, j < h →
          Enclave.merge_split_bitonic (hs d (2 * j)) (hs d (2 * j + 1)) (level + d) L Z =
            Except.ok (hs (d + 1) (2 * j), hs (d + 1) (2 * j + 1))) ∧
        (∀ d, d ≤ c → ∀ j, j < h → (realRows (hs d (2 * j) ++ hs d (2 * j + 1))).Perm
          (realRows (bs (2 * j) ++ bs (2 * j + 1)))) ∧
        (∀ k : Nat × Nat, k.1 ≤ level → m1.storage.lookup k = m.storage.lookup k) ∧
        LogShows m m1 (butterflySchedule B c level) Z := by
  intro c
  induction c with
  | zero =>
    intro level m bs hold hlen _
    refine ⟨m, fun _ => bs, rfl, rfl, ?_, ?_, ?_, ?_, fun _ _ => rfl, logShows_refl m Z⟩
    · intro d hd
      have : d = 0 := by omega
      subst this
      exact hold
    · intro d _ q hq
      exact hlen q hq
    · intro d hd; omega
    · intro d _ j _
      exact List.Perm.refl _
  | succ c ih =>
    intro level m bs hold hlen hreal
    have hh : (B + 1) / 2 = h := by omega
    obtain ⟨m1, bs1, hrun1, hold1, hlen1, hms1, hperm1, hframe1, hlog1⟩ :=
      butterflyLevel_trace L Z level h 0 m bs
        (fun q h1 h2 => hold q h1 (by omega))
        (fun q _ h2 => hlen q (by omega))
        (fun j hj => by simpa using hreal j hj)
    have hold1' : HoldsLevel m1 (level + 1) 0 B bs1 := fun q h1 h2 => hold1 q h1 (by omega)
    have hms1' : ∀ j, j < h →
        Enclave.merge_split_bitonic (bs (2 * j)) (bs (2 * j + 1)) level L Z =
          Except.ok (bs1 (2 * j), bs1 (2 * j + 1)) := by
      intro j hj
      simpa using hms1 j hj
    have hperm1' : ∀ j, j < h → (realRows (bs1 (2 * j) ++ bs1 (2 * j + 1))).Perm
        (realRows (bs (2 * j) ++ bs (2 * j + 1))) := by
      intro j hj
      simpa using hperm1 j hj
    obtain ⟨m2, hs2, hrun2, hhs0, hold2, hlen2, hms2, hperm2, hframe2, hlog2⟩ :=
      ih (level + 1) m1 bs1 hold1' (fun q hq => hlen1 q (Nat.zero_le _) (by omega))
        (fun j hj => by rw [(hperm1' j hj).length_eq]; exact hreal j hj)
    refine ⟨m2, fun d => match d with
      | 0 => bs
      | d + 1 => hs2 d, ?_, rfl, ?_, ?_, ?_, ?_, ?_, ?_⟩
    · simp only [butterflyLevels, hh, hrun1, hrun2]
    · intro d hd
      cases d with
      | zero =>
        intro q hq1 hq2
        show m2.storage.lookup (level, q) = some (Enclave.encryptBucket (bs q))
        rw [hframe2 (level, q) (by simp), hframe1 (level, q) (Or.inl (by simp))]
        exact hold q hq1 hq2
      | succ d =>
        have e : level + (d + 1) = level + 1 + d := by omega
        rw [e]
        exact hold2 d (by omega)
    · intro d hd q hq
      cases d with
      | zero => exact hlen q hq
      | succ d => exact hlen2 d (by omega) q hq
    · intro d hd j hj
      cases d with
      | zero =>
        simp only [Nat.add_zero, hhs0]
        exact hms1' j hj
      | succ d =>
        have e : level + (d + 1) = level + 1 + d := by omega
        rw [e]
        exact hms2 d (by omega) j hj
    · intro d hd j hj
      cases d with
      | zero => exact List.Perm.refl _
      | succ d => exact (hperm2 d (by omega) j hj).trans (hperm1' j hj)
    · intro k hk
      rw [hframe2 k (by omega), hframe1 k (Or.inl (by omega))]
    · have := logShows_trans hlog1 hlog2
      simpa [butterflySchedule, hh] using this

/-- The whole butterfly over `B = 2^L` buckets, with every level kept. -/
theorem performButterflyNetwork_history (B L Z : Nat) (hBL : B = 2 ^ L) (m : UntrustedMemory)
    (bs : Nat → List Element) (hold : HoldsLevel m 0 0 B bs)
    (hlen : ∀ q, q < B → (bs q).length = Z)
    (hreal : ∀ j, 2 * j + 1 < B → (realRows (bs (2 * j) ++ bs (2 * j + 1))).length ≤ Z) :
    ∃ (m1 : UntrustedMemory) (hs : Nat → Nat → List Element),
      Enclave.performButterflyNetwork B L Z m = (Except.ok (), m1) ∧
      hs 0 = bs ∧
      (∀ l, l ≤ L → HoldsLevel m1 l 0 B (hs l)) ∧
      (∀ l, l ≤ L → ∀ q, q < B → (hs l q).length = Z) ∧
      (∀ l, l < L → ∀ j, 2 * j + 1 < B →
        Enclave.merge_split_bitonic (hs l (2 * j)) (hs l (2 * j + 1)) l L Z =
          Except.ok (hs (l + 1) (2 * j), hs (l + 1) (2 * j + 1))) ∧
      (∀ l, l ≤ L → ∀ j, 2 * j + 1 < B → (realRows (hs l (2 * j) ++ hs l (2 * j + 1))).Perm
        (realRows (bs (2 * j) ++ bs (2 * j + 1)))) ∧
      LogShows m m1 (butterflySchedule B L 0) Z := by
  cases L with
  | zero =>
    refine ⟨m, fun _ => bs, rfl, rfl, ?_, fun _ _ q hq => hlen q hq, ?_,
      fun _ _ _ _ => List.Perm.refl _, logShows_refl m Z⟩
    · intro l hl
      have : l = 0 := by omega
      subst this
      exact hold
    · intro l hl; omega
  | succ L =>
    have hB : B = 2 * 2 ^ L := by rw [hBL, pow_succ]; ring
    obtain ⟨m1, hs, hrun, hhs0, hold1, hlen1, hms, hperm, _, hlog⟩ :=
      butterflyLevels_history B (L + 1) Z (2 ^ L) hB (L + 1) 0 m bs hold hlen
        (fun j hj => hreal j (by omega))
    refine ⟨m1, hs, hrun, hhs0, ?_, hlen1, ?_, ?_, hlog⟩
    · intro l hl
      simpa using hold1 l hl
    · intro l hl j hj
      simpa using hms l hl j (by omega)
    · intro l hl j hj
      exact hperm l hl j (by omega)

/-- The loop of `extractFinalElements` on a memory holding full buckets at level `L`:
the storage is left as it was and every read shows `Z` elements. -/
theorem extractLoop_trace (shuffle : Nat → List Element → List Element) (L Z : Nat)
    (bs : Nat → List Element) :
    ∀ (c i : Nat) (acc : List Element) (m : UntrustedMemory),
      HoldsLevel m L i (i + c) bs →
      (∀ q, i ≤ q → q < i + c → (bs q).length = Z) →
      ∃ m1, extractLoop shuffle L c i acc m =
          (acc ++ (List.range c).flatMap fun q =>
            shuffle (i + q) ((bs (i + q)).filter fun e => !e.is_dummy), m1) ∧
        m1.storage = m.storage ∧
        LogShows m m1 (rowSchedule Op.read L c i) Z := by
  intro c
  induction c with
  | zero =>
    intro i acc m _ _
    exact ⟨m, by simp [extractLoop], rfl, logShows_refl m Z⟩
  | succ c ih =>
    intro i acc m hold hlen
    have hrd := read_bucket_of_lookup m L i _ (hold i (le_refl _) (by omega))
    obtain ⟨m1, hrun, hst, hlog⟩ := ih (i + 1)
      (acc ++ shuffle i ((bs i).filter fun e => !e.is_dummy))
      (UntrustedMemory.mk m.storage
        (m.access_log ++ [LogEntry.mk Op.read L i (shownOf (Enclave.encryptBucket (bs i)))]))
      (fun q h1 h2 => hold q (by omega) (by omega))
      (fun q h1 h2 => hlen q (by omega) (by omega))
    have hidx : ∀ q, i + 1 + q = i + (q + 1) := fun q => by omega
    simp only [hidx] at hrun
    refine ⟨m1, ?_, hst, ?_⟩
    · simp only [extractLoop, hrd, decrypt_encrypt, hrun, flatMap_range_succ, Nat.add_zero,
        List.append_assoc]
    · have hr : LogShows m
          (UntrustedMemory.mk m.storage
            (m.access_log ++
              [LogEntry.mk Op.read L i (shownOf (Enclave.encryptBucket (bs i)))]))
          [(Op.read, L, i)] Z := by
        refine ⟨[LogEntry.mk Op.read L i (shownOf (Enclave.encryptBucket (bs i)))], rfl, rfl, ?_⟩
        intro e he
        simp only [List.mem_singleton] at he
        subst he
        simp [shownOf_length, encryptBucket_length, hlen i (le_refl _) (by omega)]
      have := logShows_trans hr hlog
      simpa [rowSchedule] using this

/-- The run of `oblivious_sort` on accepted parameters `(B, L)` with every level kept:
`hs l q` is the bucket stored at `(l, q)`, at the end of the sort as well as when level
`l` was read. Level 0 is what `initializeBuckets` wrote, each pair of level `l + 1` is the
output of the merge-split call on the same pair of level `l`, and each pair holds at most
two groups of reals. -/
theorem oblivious_sort_history (rng : Nat → Nat) (shuffle : Nat → List Element → List Element)
    (inputRows : List (Int × String)) (Z B L : Nat) (m : UntrustedMemory)
    (hacc : Enclave.computeBucketParameters inputRows.length Z = Except.ok (B, L)) :
    ∃ (hs : Nat → Nat → List Element) (payloads : List String) (m1 : UntrustedMemory),
      Enclave.oblivious_sort rng shuffle inputRows Z m = (Except.ok payloads, m1) ∧
      HoldsLevel (Enclave.initializeBuckets rng inputRows B Z m) 0 0 B (hs 0) ∧
      (∀ l, l ≤ L → HoldsLevel m1 l 0 B (hs l)) ∧
      (∀ l, l ≤ L → ∀ q, q < B → (hs l q).length = Z) ∧
      (∀ l, l < L → ∀ j, 2 * j + 1 < B →
        Enclave.merge_split_bitonic (hs l (2 * j)) (hs l (2 * j + 1)) l L Z =
          Except.ok (hs (l + 1) (2 * j), hs (l + 1) (2 * j + 1))) ∧
      (∀ l, l ≤ L → ∀ j, 2 * j + 1 < B → (realRows (hs l (2 * j) ++ hs l (2 * j + 1))).Perm
        (realRows (hs 0 (2 * j) ++ hs 0 (2 * j + 1)))) ∧
      (∀ j, 2 * j + 1 < B → (realRows (hs 0 (2 * j) ++ hs 0 (2 * j + 1))).length ≤
        2 * ((inputRows.length + B - 1) / B)) ∧
      2 * ((inputRows.length + B - 1) / B) ≤ Z ∧ 0 < B ∧
      LogShows m m1 (accessSchedule inputRows.length Z) Z := by
  obtain ⟨hBdef, _, hcap⟩ := computeBucketParameters_ok hacc
  have hBL := computeBucketParameters_pow hacc
  have hBpos : 0 < B := by rw [hBL]; exact Nat.two_pow_pos L
  set n := inputRows.length with hn
  set els := buildElements rng B 0 inputRows with hels
  set g := (n + B - 1) / B with hg
  have hgZ : g ≤ Z / 2 := groupSize_le_half n B Z hBpos hcap
  set bs0 : Nat → List Element := fun q => padBucket Z (groupOf els n g q) with hbs0
  obtain ⟨hw1, _, hwlog⟩ := writeGroups_run Z ((List.range B).map (groupOf els n g)) 0 m (by
    intro grp hgrp
    obtain ⟨q, _, rfl⟩ := List.mem_map.1 hgrp
    have := groupOf_length_le els n g q
    omega)
  have hinit : Enclave.initializeBuckets rng inputRows B Z m =
      writeGroups Z ((List.range B).map (groupOf els n g)) 0 m := rfl
  set m0 := Enclave.initializeBuckets rng inputRows B Z m with hm0
  have hold0 : HoldsLevel m0 0 0 B bs0 := by
    intro q _ hq
    have := hw1 q (groupOf els n g q) (by simp [hq])
    rw [Nat.zero_add] at this
    rw [hinit]
    exact this
  have hreal_grp : ∀ q, ∀ e, e ∈ groupOf els n g q → e.is_dummy = false := fun q e he =>
    buildElements_real rng B 0 inputRows e (groupOf_mem els n g q e he)
  have hlen0 : ∀ q, q < B → (bs0 q).length = Z := by
    intro q _
    apply padBucket_length
    have := groupOf_length_le els n g q
    omega
  have hrows0 : ∀ q, realRows (bs0 q) = (groupOf els n g q).map Element.row := fun q =>
    realRows_padBucket Z _ (hreal_grp q)
  have hpair0 : ∀ j, 2 * j + 1 < B →
      (realRows (bs0 (2 * j) ++ bs0 (2 * j + 1))).length ≤ 2 * g := by
    intro j _
    rw [realRows_append, hrows0, hrows0]
    have h1 := groupOf_length_le els n g (2 * j)
    have h2 := groupOf_length_le els n g (2 * j + 1)
    simp only [List.length_append, List.length_map]
    omega
  have h2g : 2 * g ≤ Z := by omega
  obtain ⟨m1, hs, hnet, hhs0, holdL, hlenL, hms, hperm, hnetlog⟩ :=
    performButterflyNetwork_history B L Z hBL m0 bs0 hold0 hlen0
      (fun j hj => le_trans (hpair0 j hj) h2g)
  obtain ⟨m2, hext, hst, hextlog⟩ := extractLoop_trace shuffle L Z (hs L) B 0 [] m1
    (by simpa using holdL L (le_refl _)) (fun q _ hq => hlenL L (le_refl _) q (by omega))
  refine ⟨hs, Enclave.finalSort ((List.range B).flatMap fun q =>
    shuffle q ((hs L q).filter fun e => !e.is_dummy)), m2, ?_, ?_, ?_, hlenL, hms, ?_, ?_, h2g,
    hBpos, ?_⟩
  · unfold Enclave.oblivious_sort
    simp only [← hn, hacc, ← hm0, hnet, Enclave.extractFinalElements, hext, List.nil_append,
      Nat.zero_add]
  · rw [hhs0]
    exact hold0
  · intro l hl q hq1 hq2
    rw [hst]
    exact holdL l hl q hq1 hq2
  · intro l hl j hj
    rw [hhs0]
    exact hperm l hl j hj
  · intro j hj
    rw [hhs0]
    exact hpair0 j hj
  · have hwshow : LogShows m m0 (rowSchedule Op.write 0 B 0) Z := by
      apply LogExtends.shows
      · rw [hinit]
        simpa using hwlog
      · exact rowSchedule_op Op.write 0 B 0
    have := logShows_trans (logShows_trans hwshow hnetlog) hextlog
    simpa [accessSchedule, ← hn, hacc] using this

/-- C27. Throughout `oblivious_sort` on accepted parameters `(B, L)` real elements never
leave their initial bucket pair. With `hs l q` the bucket stored at `(l, q)` (level 0 as
`initializeBuckets` wrote it, and all levels still stored at the end): for every level
`l < L` and every even `i` with `i + 1 < B`, buckets `i`, `i + 1` of level `l + 1` are the
output of the merge-split call on buckets `i`, `i + 1` of level `l` and hold the same
real rows as a multiset; at every level the pair holds at most `2 * ceil(n / B) <= Z`
reals, so that `count0 + count1 <= Z` in that call. -/
theorem reals_stay_in_their_pair (rng : Nat → Nat) (shuffle : Nat → List Element → List Element)
    (inputRows : List (Int × String)) (Z B L : Nat) (m : UntrustedMemory)
    (hacc : Enclave.computeBucketParameters inputRows.length Z = Except.ok (B, L)) :
    2 * ⌈((inputRows.length : Nat) : ℚ) / (B : ℚ)⌉₊ ≤ Z ∧
      ∃ (hs : Nat → Nat → List Element) (payloads : List String) (m1 : UntrustedMemory),
        Enclave.oblivious_sort rng shuffle inputRows Z m = (Except.ok payloads, m1) ∧
        HoldsLevel (Enclave.initializeBuckets rng inputRows B Z m) 0 0 B (hs 0) ∧
        (∀ l, l ≤ L → HoldsLevel m1 l 0 B (hs l)) ∧
        (∀ l, l < L → ∀ i, i % 2 = 0 → i + 1 < B →
          Enclave.merge_split_bitonic (hs l i) (hs l (i + 1)) l L Z =
              Except.ok (hs (l + 1) i, hs (l + 1) (i + 1)) ∧
            (realRows (hs (l + 1) i ++ hs (l + 1) (i + 1))).Perm
              (realRows (hs l i ++ hs l (i + 1))) ∧
            (countSides (L - 1 - l) (hs l i ++ hs l (i + 1))).1 +
              (countSides (L - 1 - l) (hs l i ++ hs l (i + 1))).2 ≤ Z) ∧
        (∀ l, l ≤ L → ∀ i, i % 2 = 0 → i + 1 < B →
          (realRows (hs l i ++ hs l (i + 1))).length ≤
            2 * ⌈((inputRows.length : Nat) : ℚ) / (B : ℚ)⌉₊) := by
  obtain ⟨hs, payloads, m1, hrun, hinit, hold, _, hms, hperm, hpair, h2g, hBpos, _⟩ :=
    oblivious_sort_history rng shuffle inputRows Z B L m hacc
  rw [ceil_n_div inputRows.length B hBpos]
  have hcount : ∀ l, l ≤ L → ∀ j, 2 * j + 1 < B →
      (realRows (hs l (2 * j) ++ hs l (2 * j + 1))).length ≤
        2 * ((inputRows.length + B - 1) / B) := by
    intro l hl j hj
    rw [(hperm l hl j hj).length_eq]
    exact hpair j hj
  refine ⟨h2g, hs, payloads, m1, hrun, hinit, hold, ?_, ?_⟩
  · intro l hl i hi hiB
    obtain ⟨j, rfl⟩ : ∃ j, i = 2 * j := ⟨i / 2, by omega⟩
    refine ⟨hms l hl j hiB, ?_, ?_⟩
    · exact (hperm (l + 1) (by omega) j hiB).trans (hperm l (by omega) j hiB).symm
    · rw [countSides_sum]
      exact le_trans (hcount l (by omega) j hiB) h2g
  · intro l hl i hi hiB
    obtain ⟨j, rfl⟩ : ∃ j, i = 2 * j := ⟨i / 2, by omega⟩
    exact hcount l hl j hiB

/-- Three rows with `Z = 2`: `B = 4`, `L = 2`, one row per pair at most. -/
theorem reals_stay_in_their_pair_witness :
    Enclave.computeBucketParameters [((3 : Int), "a"), (1, "b"), (2, "c")].length 2 =
        Except.ok (4, 2) ∧
      2 * ⌈(([((3 : Int), "a"), (1, "b"), (2, "c")].length : Nat) : ℚ) / ((4 : Nat) : ℚ)⌉₊ ≤ 2 :=
  have h : Enclave.computeBucketParameters [((3 : Int), "a"), (1, "b"), (2, "c")].length 2 =
      Except.ok (4, 2) := by
    simp [Enclave.computeBucketParameters, doubleUntil, Nat.log2]
  ⟨h, (reals_stay_in_their_pair (fun i => i) (fun _ l => l) [(3, "a"), (1, "b"), (2, "c")] 2 4 2
    ⟨[], []⟩ h).1⟩

/-! ## Reads go to written addresses -/

theorem readsCovered_mono : ∀ (s : List (Op × Nat × Nat)) (w w' : List (Nat × Nat)),
    (∀ k, k ∈ w → k ∈ w') → ReadsCovered w s = true → ReadsCovered w' s = true := by
  intro s
  induction s with
  | nil => intro w w' _ _; rfl
  | cons a s ih =>
    intro w w' hsub h
    obtain ⟨op, k⟩ := a
    cases op with
    | read =>
      simp only [ReadsCovered, Bool.and_eq_true, decide_eq_true_eq] at h ⊢
      exact ⟨hsub k h.1, ih w w' hsub h.2⟩
    | write =>
      simp only [ReadsCovered] at h ⊢
      refine ih (k :: w) (k :: w') (fun x hx => ?_) h
      rcases List.mem_cons.1 hx with rfl | hx
      · exact List.mem_cons_self _ _
      · exact List.mem_cons_of_mem _ (hsub x hx)

/-- What `ReadsCovered` says about one read of the sequence. -/
theorem readsCovered_split : ∀ (pre : List (Op × Nat × Nat)) (w : List (Nat × Nat))
    (k : Nat × Nat) (post : List (Op × Nat × Nat)),
    ReadsCovered w (pre ++ (Op.read, k) :: post) = true → k ∈ w ∨ (Op.write, k) ∈ pre := by
  intro pre
  induction pre with
  | nil =>
    intro w k post h
    simp only [List.nil_append, ReadsCovered, Bool.and_eq_true, decide_eq_true_eq] at h
    exact Or.inl h.1
  | cons a pre ih =>
    intro w k post h
    obtain ⟨op, k'⟩ := a
    cases op with
    | read =>
      simp only [List.cons_append, ReadsCovered, Bool.and_eq_true, decide_eq_true_eq] at h
      rcases ih w k post h.2 with h1 | h1
      · exact Or.inl h1
      · exact Or.inr (List.mem_cons_of_mem _ h1)
    | write =>
      simp only [List.cons_append, ReadsCovered] at h
      rcases ih (k' :: w) k post h with h1 | h1
      · rcases List.mem_cons.1 h1 with rfl | h2
        · exact Or.inr (List.mem_cons_self _ _)
        · exact Or.inl h2
      · exact Or.inr (List.mem_cons_of_mem _ h1)

theorem readsCovered_writes (level : Nat) :
    ∀ (c i : Nat) (w : List (Nat × Nat)) (rest : List (Op × Nat × Nat)),
      (∀ w' : List (Nat × Nat), (∀ k, k ∈ w → k ∈ w') →
        (∀ q, i ≤ q → q < i + c → (level, q) ∈ w') → ReadsCovered w' rest = true) →
      ReadsCovered w (rowSchedule Op.write level c i ++ rest) = true := by
  intro c
  induction c with
  | zero =>
    intro i w rest h
    exact h w (fun _ hk => hk) (fun q h1 h2 => by omega)
  | succ c ih =>
    intro i w rest h
    simp only [rowSchedule, List.cons_append, ReadsCovered]
    apply ih (i + 1) ((level, i) :: w) rest
    intro w' hsub hq
    apply h w' (fun k hk => hsub k (List.mem_cons_of_mem _ hk))
    intro q h1 h2
    by_cases hqi : q = i
    · subst hqi
      exact hsub _ (List.mem_cons_self _ _)
    · exact hq q (by omega) (by omega)

theorem readsCovered_level (level : Nat) :
    ∀ (c i : Nat) (w : List (Nat × Nat)) (rest : List (Op × Nat × Nat)),
      (∀ q, i ≤ q → q < i + 2 * c → (level, q) ∈ w) →
      (∀ w' : List (Nat × Nat), (∀ k, k ∈ w → k ∈ w') →
        (∀ q, i ≤ q → q < i + 2 * c → (level + 1, q) ∈ w') → ReadsCovered w' rest = true) →
      ReadsCovered w (levelSchedule level c i ++ rest) = true := by
  intro c
  induction c with
  | zero =>
    intro i w rest _ h
    exact h w (fun _ hk => hk) (fun q h1 h2 => by omega)
  | succ c ih =>
    intro i w rest hin h
    simp only [levelSchedule, pairSchedule, List.cons_append, List.nil_append, ReadsCovered,
      Bool.and_eq_true, decide_eq_true_eq]
    refine ⟨hin i (by omega) (by omega), hin (i + 1) (by omega) (by omega), ?_⟩
    apply ih (i + 2) ((level + 1, i + 1) :: (level + 1, i) :: w) rest
    · intro q h1 h2
      exact List.mem_cons_of_mem _ (List.mem_cons_of_mem _ (hin q (by omega) (by omega)))
    · intro w' hsub hq
      apply h w' (fun k hk => hsub k (List.mem_cons_of_mem _ (List.mem_cons_of_mem _ hk)))
      intro q h1 h2
      by_cases hqi : q = i
      · subst hqi
        exact hsub _ (List.mem_cons_of_mem _ (List.mem_cons_self _ _))
      · by_cases hqi1 : q = i + 1
        · subst hqi1
          exact hsub _ (List.mem_cons_self _ _)
        · exact hq q (by omega) (by omega)

theorem readsCovered_butterfly (B : Nat) (hB : B % 2 = 0) :
    ∀ (c level : Nat) (w : List (Nat × Nat)) (rest : List (Op × Nat × Nat)),
      (∀ q, q < B → (level, q) ∈ w) →
      (∀ w' : List (Nat × Nat), (∀ k, k ∈ w → k ∈ w') →
        (∀ q, q < B → (level + c, q) ∈ w') → ReadsCovered w' rest = true) →
      ReadsCovered w (butterflySchedule B c level ++ rest) = true := by
  intro c
  induction c with
  | zero =>
    intro level w rest hin h
    exact h w (fun _ hk => hk) hin
  | succ c ih =>
    intro level w rest hin h
    simp only [butterflySchedule, List.append_assoc]
    apply readsCovered_level level ((B + 1) / 2) 0 w
    · intro q _ h2
      exact hin q (by omega)
    · intro w' hsub hq
      apply ih (level + 1) w' rest
      · intro q hqB
        exact hq q (Nat.zero_le _) (by omega)
      · intro w'' hsub' hq'
        apply h w'' (fun k hk => hsub' k (hsub k hk))
        intro q hqB
        have := hq' q hqB
        have e : level + 1 + c = level + (c + 1) := by omega
        rw [e] at this
        exact this

theorem readsCovered_reads (L : Nat) :
    ∀ (c i : Nat) (w : List (Nat × Nat)),
      (∀ q, i ≤ q → q < i + c → (L, q) ∈ w) →
      ReadsCovered w (rowSchedule Op.read L c i) = true := by
  intro c
  induction c with
  | zero => intro i w _; rfl
  | succ c ih =>
    intro i w hin
    simp only [rowSchedule, ReadsCovered, Bool.and_eq_true, decide_eq_true_eq]
    exact ⟨hin i (by omega) (by omega), ih (i + 1) w (fun q h1 h2 => hin q (by omega) (by omega))⟩

/-- In the access sequence of a sort every read goes to an address written earlier in
the same sequence. -/
theorem accessSchedule_covered (n Z : Nat) : ReadsCovered [] (accessSchedule n Z) = true := by
  unfold accessSchedule
  cases hacc : Enclave.computeBucketParameters n Z with
  | error e => rfl
  | ok p =>
    obtain ⟨B, L⟩ := p
    have hBL := computeBucketParameters_pow hacc
    simp only [List.append_assoc]
    apply readsCovered_writes
    intro w _ hq
    cases L with
    | zero =>
      simp only [butterflySchedule, List.nil_append]
      apply readsCovered_reads
      intro q h1 h2
      exact hq q h1 h2
    | succ L =>
      have heven : B % 2 = 0 := by
        rw [hBL, pow_succ]
        omega
      apply readsCovered_butterfly B heven (L + 1) 0 w
      · intro q hqB
        exact hq q (Nat.zero_le _) (by omega)
      · intro w' _ hq'
        apply readsCovered_reads
        intro q _ h2
        have := hq' q (by omega)
        rw [Nat.zero_add] at this
        exact this

/-- C28. For every input, every `Z >= 1`, every random draw and every initial store (the
empty one included), the log lines `fresh` added by `oblivious_sort` follow the access
schedule, and every read among them is preceded, within `fresh`, by a write to the same
level and index; every read shows a bucket of exactly `Z` elements, hence not the empty
bucket that `read_bucket` logs (and creates) on a store miss. When the parameters are
rejected nothing is read. `B = 1`, `L = 0` is one of the cases covered. -/
theorem reads_hit_written_buckets (rng : Nat → Nat)
    (shuffle : Nat → List Element → List Element) (inputRows : List (Int × String))
    (Z : Nat) (m : UntrustedMemory) (hZ : 1 ≤ Z) :
    (∃ fresh : List LogEntry,
      (Enclave.oblivious_sort rng shuffle inputRows Z m).2.access_log =
          m.access_log ++ fresh ∧
        fresh.map LogEntry.addr = accessSchedule inputRows.length Z ∧
        ReadsCovered [] (fresh.map LogEntry.addr) = true ∧
        (∀ pre e post, fresh = pre ++ e :: post → e.op = Op.read →
          ∃ w, w ∈ pre ∧ w.op = Op.write ∧ w.level = e.level ∧ w.index = e.index) ∧
        ∀ e, e ∈ fresh → e.op = Op.read → e.shown.length = Z ∧ e.shown ≠ []) ∧
      ∀ (m0 : UntrustedMemory) (level i : Nat), m0.storage.lookup (level, i) = none →
        (m0.read_bucket level i).2.access_log =
          m0.access_log ++ [⟨Op.read, level, i, []⟩] := by
  constructor
  · have hlog : LogShows m (Enclave.oblivious_sort rng shuffle inputRows Z m).2
        (accessSchedule inputRows.length Z) Z := by
      cases hacc : Enclave.computeBucketParameters inputRows.length Z with
      | error e =>
        have h1 : Enclave.oblivious_sort rng shuffle inputRows Z m = (Except.error e, m) := by
          unfold Enclave.oblivious_sort
          simp only [hacc]
        have h2 : accessSchedule inputRows.length Z = [] := by
          unfold accessSchedule
          simp only [hacc]
        rw [h1, h2]
        exact logShows_refl m Z
      | ok p =>
        obtain ⟨B, L⟩ := p
        obtain ⟨hs, payloads, m1, hrun, _, _, _, _, _, _, _, _, hshow⟩ :=
          oblivious_sort_history rng shuffle inputRows Z B L m hacc
        rw [hrun]
        exact hshow
    obtain ⟨fresh, hfresh, haddr, hlen⟩ := hlog
    have hcov : ReadsCovered [] (fresh.map LogEntry.addr) = true := by
      rw [haddr]
      exact accessSchedule_covered inputRows.length Z
    refine ⟨fresh, hfresh, haddr, hcov, ?_, ?_⟩
    · intro pre e post hsplit hread
      have haddr_e : e.addr = (Op.read, (e.level, e.index)) := by
        simp only [LogEntry.addr, hread]
      rw [hsplit, List.map_append, List.map_cons, haddr_e] at hcov
      rcases readsCovered_split _ _ _ _ hcov with h | h
      · exact absurd h (List.not_mem_nil _)
      · obtain ⟨w, hw, hwaddr⟩ := List.mem_map.1 h
        simp only [LogEntry.addr, Prod.mk.injEq] at hwaddr
        exact ⟨w, hw, hwaddr.1, hwaddr.2.1, hwaddr.2.2⟩
    · intro e he _
      have := hlen e he
      refine ⟨this, ?_⟩
      intro hnil
      rw [hnil] at this
      simp at this
      omega
  · intro m0 level i hnone
    unfold UntrustedMemory.read_bucket
    rw [hnone]

/-- One row with `Z = 2`: `B = 1`, `L = 0`, one write and one read of `(0, 0)`, from the
empty store. -/
theorem reads_hit_written_buckets_witness :
    1 ≤ 2 ∧
      accessSchedule [((5 : Int), "a")].length 2 = [(Op.write, 0, 0), (Op.read, 0, 0)] ∧
      ∃ fresh : List LogEntry,
        (Enclave.oblivious_sort (fun i => i) (fun (_ : Nat) (l : List Element) => l)
            [((5 : Int), "a")] 2 ⟨[], []⟩).2.access_log =
            (⟨[], []⟩ : UntrustedMemory).access_log ++ fresh ∧
          fresh.map LogEntry.addr = accessSchedule [((5 : Int), "a")].length 2 ∧
          ReadsCovered [] (fresh.map LogEntry.addr) = true ∧
          (∀ pre e post, fresh = pre ++ e :: post → e.op = Op.read →
            ∃ w, w ∈ pre ∧ w.op = Op.write ∧ w.level = e.level ∧ w.index = e.index) ∧
          ∀ e, e ∈ fresh → e.op = Op.read → e.shown.length = 2 ∧ e.shown ≠ [] :=
  ⟨by decide, by simp [accessSchedule, Enclave.computeBucketParameters, doubleUntil, Nat.log2,
      rowSchedule, butterflySchedule],
    (reads_hit_written_buckets (fun i => i) (fun (_ : Nat) (l : List Element) => l)
      [((5 : Int), "a")] 2 ⟨[], []⟩ (by decide)).1⟩

/-! ## `computeBucketParameters` on 32-bit `int`: agreement and overflow -/

theorem wrapInt32_of_range (x : Int) (h1 : -2147483648 ≤ x) (h2 : x < 2147483648) :
    wrapInt32 x = x := by
  unfold wrapInt32
  omega

/-- Once `B` has wrapped to 0 the loop does not end. -/
theorem doubleUntil32_stuck (B_required : Int) (h : 0 < B_required) :
    ∀ fuel, doubleUntil32 fuel 0 B_required = none := by
  intro fuel
  induction fuel with
  | zero => rfl
  | succ f ih =>
    unfold doubleUntil32
    rw [if_pos h]
    have : wrapInt32 (0 * 2) = 0 := by decide
    rw [this]
    exact ih

/-- While `B` stays at most `2^30` the 32-bit loop is the loop in exact arithmetic. -/
theorem doubleUntil32_exact :
    ∀ (d j fuel32 f R : Nat), j + d = 30 → d < fuel32 → R ≤ 2 ^ 30 → R ≤ 2 ^ j * 2 ^ f →
      doubleUntil32 fuel32 ((2 ^ j : Nat) : Int) (R : Int) =
        some ((doubleUntil f (2 ^ j) R : Nat) : Int) := by
  intro d
  induction d with
  | zero =>
    intro j fuel32 f R hj hfuel hR _
    have hj30 : j = 30 := by omega
    subst hj30
    obtain ⟨s, rfl⟩ : ∃ s, fuel32 = s + 1 := ⟨fuel32 - 1, by omega⟩
    have hnot : ¬ (((2 ^ 30 : Nat) : Int) < (R : Int)) := by
      have : ¬ (2 ^ 30 < R) := by omega
      exact_mod_cast this
    unfold doubleUntil32
    rw [if_neg hnot]
    cases f with
    | zero => rfl
    | succ f =>
      unfold doubleUntil
      rw [if_neg (by omega)]
  | succ d ih =>
    intro j fuel32 f R hj hfuel hR hf
    obtain ⟨s, rfl⟩ : ∃ s, fuel32 = s + 1 := ⟨fuel32 - 1, by omega⟩
    by_cases hlt : 2 ^ j < R
    · have hcast : ((2 ^ j : Nat) : Int) < (R : Int) := by exact_mod_cast hlt
      unfold doubleUntil32
      rw [if_pos hcast]
      obtain ⟨f', rfl⟩ : ∃ f', f = f' + 1 := by
        cases f with
        | zero => simp at hf; omega
        | succ f' => exact ⟨f', rfl⟩
      have hpow : 2 ^ (j + 1) ≤ 2 ^ 30 := Nat.pow_le_pow_right (by decide) (by omega)
      have hstep : (2 ^ j : Nat) * 2 = 2 ^ (j + 1) := by rw [pow_succ]
      have hwrap : wrapInt32 (((2 ^ j : Nat) : Int) * 2) = ((2 ^ (j + 1) : Nat) : Int) := by
        have e : ((2 ^ j : Nat) : Int) * 2 = ((2 ^ (j + 1) : Nat) : Int) := by
          rw [← hstep]; push_cast; ring
        rw [e]
        apply wrapInt32_of_range
        · have : (0 : Int) ≤ ((2 ^ (j + 1) : Nat) : Int) := Int.ofNat_nonneg _
          omega
        · have : ((2 ^ (j + 1) : Nat) : Int) ≤ ((2 ^ 30 : Nat) : Int) := by exact_mod_cast hpow
          have e30 : ((2 ^ 30 : Nat) : Int) = 1073741824 := by norm_num
          omega
      rw [hwrap]
      have := ih (j + 1) s f' R (by omega) (by omega) hR (by
        have e : 2 ^ (j + 1) * 2 ^ f' = 2 ^ j * 2 ^ (f' + 1) := by
          rw [pow_succ, pow_succ]; ring
        rw [e]; exact hf)
      have hd : doubleUntil (f' + 1) (2 ^ j) R = doubleUntil f' (2 ^ (j + 1)) R := by
        conv_lhs => unfold doubleUntil
        rw [if_pos hlt, hstep]
      rw [this, hd]
    · have hcast : ¬ (((2 ^ j : Nat) : Int) < (R : Int)) := by exact_mod_cast hlt
      unfold doubleUntil32
      rw [if_neg hcast]
      cases f with
      | zero => rfl
      | succ f =>
        unfold doubleUntil
        rw [if_neg hlt]

/-- On arguments for which no `int` operation overflows (`B_required <= 2^30` and
`B * (Z / 2) < 2^31` for the `B` of exact arithmetic) the 32-bit function returns, and
returns what `Enclave.computeBucketParameters` does. -/
theorem computeBucketParameters32_exact (n Z : Nat)
    (hreq : (2 * n + Z - 1) / Z ≤ 2 ^ 30)
    (hprod : doubleUntil ((2 * n + Z - 1) / Z) 1 ((2 * n + Z - 1) / Z) * (Z / 2) < 2 ^ 31) :
    Enclave.computeBucketParameters32 n Z =
      some ((Enclave.computeBucketParameters n Z).map fun p => ((p.1 : Int), (p.2 : Int))) := by
  simp only [Enclave.computeBucketParameters32, Enclave.computeBucketParameters]
  generalize (2 * n + Z - 1) / Z = c at hreq hprod ⊢
  have hwc : wrapInt32 (c : Int) = (c : Int) := by
    apply wrapInt32_of_range
    · have : (0 : Int) ≤ (c : Int) := Int.ofNat_nonneg _
      omega
    · have e30 : (2 : Nat) ^ 30 = 1073741824 := by norm_num
      omega
  rw [hwc]
  have hloop := doubleUntil32_exact 30 0 64 c c (by omega) (by omega) hreq (by
    simpa using (Nat.lt_two_pow c).le)
  simp only [pow_zero, Nat.cast_one] at hloop
  rw [hloop]
  generalize doubleUntil c 1 c = B at hprod ⊢
  have hwp : wrapInt32 ((B : Int) * ((Z : Int) / 2)) = ((B * (Z / 2) : Nat) : Int) := by
    have e : (B : Int) * ((Z : Int) / 2) = ((B * (Z / 2) : Nat) : Int) := by push_cast; rfl
    rw [e]
    apply wrapInt32_of_range
    · have : (0 : Int) ≤ ((B * (Z / 2) : Nat) : Int) := Int.ofNat_nonneg _
      omega
    · have e31 : (2 : Nat) ^ 31 = 2147483648 := by norm_num
      omega
  simp only [Option.map_some', hwp, Int.toNat_ofNat]
  by_cases hgt : n > B * (Z / 2)
  · have hcast : (n : Int) > ((B * (Z / 2) : Nat) : Int) := by exact_mod_cast hgt
    rw [if_pos hcast, if_pos hgt]
    rfl
  · have hcast : ¬ ((n : Int) > ((B * (Z / 2) : Nat) : Int)) := by exact_mod_cast hgt
    rw [if_neg hcast, if_neg hgt]
    rfl

/-- C10 (the code at a failing input). `n = 2^30 + 1`, `Z = 4`: `B_required = 2^29 + 1`,
the loop ends with `B = 2^30`, and the `int` product `B * (Z / 2) = 2^31` wraps to
`-2^31`, so the test `n > B * (Z / 2)` fires and `invalid_argument` is thrown; yet
`B = 2^30` is the smallest power of two at least `ceil(2n / Z)` and `n > B * (Z / 2)`
is false. -/
theorem computeBucketParameters_overflow_rejects :
    Enclave.computeBucketParameters32 1073741825 4 = some (Except.error Err.invalid_argument) ∧
      doubleUntil32 64 1 536870913 = some 1073741824 ∧
      wrapInt32 (1073741824 * ((4 : Int) / 2)) = -2147483648 ∧
      SmallestPowerOfTwoAtLeast ⌈((2 * 1073741825 : Nat) : ℚ) / ((4 : Nat) : ℚ)⌉₊ 1073741824 ∧
      ¬ (1073741825 > 1073741824 * (4 / 2)) := by
  refine ⟨by rfl, by rfl, by decide, ?_, by decide⟩
  rw [ceil_two_n_div 1073741825 4 (by decide)]
  refine ⟨⟨30, by norm_num⟩, by decide, ?_⟩
  intro k hk
  have h30 : (1073741824 : Nat) = 2 ^ 30 := by norm_num
  rw [h30]
  apply Nat.pow_le_pow_right (by decide)
  by_contra hlt
  have hle : 2 ^ k ≤ 2 ^ 29 := Nat.pow_le_pow_right (by decide) (by omega)
  have h29 : (2 : Nat) ^ 29 = 536870912 := by norm_num
  have hv : (2 * 1073741825 + 4 - 1) / 4 = 536870913 := by decide
  omega

/-- C26 (the code at a failing input). `Z = 4` is even and `n = 2^30 + 1`:
`ceil(2n / Z) = 2^29 + 1`, the loop ends with `B = 2^30 >= ceil(2n / Z)`, and
`n <= B * (Z / 2)` holds as numbers; the configuration error is raised all the same,
because `B * (Z / 2)` is computed in `int` and wraps to a negative value. -/
theorem computeBucketParameters_even_rejects :
    4 % 2 = 0 ∧ 2 ≤ 4 ∧
      ⌈((2 * 1073741825 : Nat) : ℚ) / ((4 : Nat) : ℚ)⌉₊ = 536870913 ∧
      doubleUntil32 64 1 536870913 = some 1073741824 ∧
      536870913 ≤ 1073741824 ∧ 1073741825 ≤ 1073741824 * (4 / 2) ∧
      (1073741825 : Int) > wrapInt32 (1073741824 * ((4 : Int) / 2)) ∧
      Enclave.computeBucketParameters32 1073741825 4 =
        some (Except.error Err.invalid_argument) := by
  refine ⟨by decide, by decide, ?_, by rfl, by decide, by decide, by decide, by rfl⟩
  rw [ceil_two_n_div 1073741825 4 (by decide)]

/-- Within the range of `computeBucketParameters32_exact` the 32-bit function throws
exactly when the test of the claim holds: `n > B * (Z / 2)` for the smallest power of two
`B` that is at least `ceil(2n / Z)`. -/
theorem computeBucketParameters32_error_iff (n Z : Nat) (hZ : 1 ≤ Z)
    (hreq : (2 * n + Z - 1) / Z ≤ 2 ^ 30)
    (hprod : doubleUntil ((2 * n + Z - 1) / Z) 1 ((2 * n + Z - 1) / Z) * (Z / 2) < 2 ^ 31) :
    Enclave.computeBucketParameters32 n Z = some (Except.error Err.invalid_argument) ↔
      ∃ B, SmallestPowerOfTwoAtLeast ⌈((2 * n : Nat) : ℚ) / (Z : ℚ)⌉₊ B ∧ n > B * (Z / 2) := by
  rw [computeBucketParameters32_exact n Z hreq hprod,
    ← (computeBucketParameters_error_iff n Z hZ).1]
  cases h : Enclave.computeBucketParameters n Z with
  | error e => cases e <;> simp [Except.map]
  | ok p => simp [Except.map]

/-- A small input inside the range: three rows with `Z = 3` are refused by the 32-bit
function as well. -/
theorem computeBucketParameters32_error_iff_witness :
    1 ≤ 3 ∧
      Enclave.computeBucketParameters32 3 3 = some (Except.error Err.invalid_argument) ∧
      ∃ B, SmallestPowerOfTwoAtLeast ⌈((2 * 3 : Nat) : ℚ) / ((3 : Nat) : ℚ)⌉₊ B ∧ 3 > B * (3 / 2) :=
  ⟨by decide, by rfl,
    (computeBucketParameters32_error_iff 3 3 (by decide) (by decide) (by decide)).1 (by rfl)⟩

end ObliviousSort
